import Mathlib

/-! riel: operator tree, canonical printer and stream parser.

A shallow embedding of `src/riel/riel.h` and `src/riel/riel.cc`.

* A `std::string` is a `List Char`; one `Char` stands for one `char`, and only
  its classification in the classic "C" locale matters.
* `std::size_t` and `unsigned long` are natural numbers, reduced modulo `2 ^ 64`
  where the source can overflow.
* A call ends in one of four ways, see `Res`: it returns, it throws, it executes
  an operation the language leaves undefined, or it is still running when the
  fuel of the model is spent.
-/

namespace riel

/-- A `std::string`. -/
abbrev Str := List Char

/-! ## Character classes of the classic locale -/

/-- The classic `isspace`: space, `\t`, `\n`, `\v`, `\f`, `\r`. -/
def isspace (c : Char) : Bool :=
  decide (c.toNat = 32) || (decide (9 ≤ c.toNat) && decide (c.toNat ≤ 13))

/-- The classic `isdigit`, also the regex class `\d`. -/
def isdigit (c : Char) : Bool := decide (48 ≤ c.toNat) && decide (c.toNat ≤ 57)

/-- The classic `isupper`, also the regex class `[[:upper:]]`. -/
def isupper (c : Char) : Bool := decide (65 ≤ c.toNat) && decide (c.toNat ≤ 90)

/-- The classic `islower`, also the regex class `[[:lower:]]`. -/
def islower (c : Char) : Bool := decide (97 ≤ c.toNat) && decide (c.toNat ≤ 122)

/-- The classic `isalpha`, also the regex class `[[:alpha:]]`. -/
def isalpha (c : Char) : Bool := isupper c || islower c

/-- The regex class `\w`: alphanumeric or underscore. -/
def isword (c : Char) : Bool := isalpha c || isdigit c || decide (c.toNat = 95)

/-! ## Outcomes -/

/-- The exceptions the code can raise, each with its `what()` text. -/
inductive Error where
  | runtime_error (what : Str)
  | invalid_argument (what : Str)
  | out_of_range (what : Str)
  deriving DecidableEq, Repr

/-- How a call ends. `undefined` is an execution that performs an operation
without defined behaviour (an element read outside a container); `outOfFuel`
is an execution that has not ended within the fuel given to the model. -/
inductive Res (α : Type) where
  | ok (a : α)
  | throw (e : Error)
  | undefined
  | outOfFuel
  deriving DecidableEq, Repr

/-- Sequencing of two calls: the second runs only when the first returns. -/
def Res.bind {α β : Type} (r : Res α) (f : α → Res β) : Res β :=
  match r with
  | .ok a => f a
  | .throw e => .throw e
  | .undefined => .undefined
  | .outOfFuel => .outOfFuel

/-- The returned value transformed. -/
def Res.map {α β : Type} (f : α → β) (r : Res α) : Res β :=
  r.bind (fun a => .ok (f a))

/-! ## Decimal text of a number -/

/-- The character of one decimal digit. -/
def digitChar (d : Nat) : Char := Char.ofNat (48 + d)

/-- Decimal digits of `n`, most significant first; `fuel` bounds the number of
digits. -/
def decimal : Nat → Nat → Str
  | 0, _ => []
  | fuel + 1, n => if n < 10 then [digitChar n] else decimal fuel (n / 10) ++ [digitChar (n % 10)]

/-- The text `std::to_string` and `ostream << std::size_t` write for `n`. -/
def to_string (n : Nat) : Str := decimal (n + 1) n

/-! ## Node model (riel.h 47-223, 307-423) -/

/-- The tag `Type::type` (riel.h 65-72). -/
inductive NodeType where
  | AGGREGATE
  | UNION
  | PROJECT
  | SCAN
  deriving DecidableEq, Repr

/-- The data members of the four node classes: `ScanNode::path_`,
`UnionNode::all_`, `AggregateNode::group_indices_`, `ProjectNode::pairs_`. -/
inductive Payload where
  | Scan (path : List Str)
  | Union (all : Bool)
  | Aggregate (group_indices : List Nat)
  | Project (pairs : List (Str × Nat))
  deriving DecidableEq, Repr

/-- A node: its class with its data, and the `ContiguousChildren` every
`ContiguousNode` owns (riel.h 184-223), a vector of owned nodes. -/
inductive Node where
  | mk (payload : Payload) (children : List Node)
  deriving Repr

/-- The data of a node. -/
def Node.payload : Node → Payload
  | .mk p _ => p

/-- The sequence behind `Node::children()`. -/
def Node.children : Node → List Node
  | .mk _ cs => cs

/-- The tag `Node::id()` of each class (riel.h 315, 342, 369, 400). -/
def Node.id : Node → NodeType
  | .mk (.Scan _) _ => .SCAN
  | .mk (.Union _) _ => .UNION
  | .mk (.Aggregate _) _ => .AGGREGATE
  | .mk (.Project _) _ => .PROJECT

/-- The call `ContiguousChildren::append` on the children of a node
(riel.h 194-196): `push_back`. -/
def Node.append : Node → Node → Node
  | .mk p cs, child => .mk p (cs ++ [child])

mutual
/-- Number of nodes of a tree. -/
def Node.size : Node → Nat
  | .mk _ cs => 1 + Node.sizes cs
/-- Number of nodes of a forest. -/
def Node.sizes : List Node → Nat
  | [] => 0
  | c :: cs => c.size + Node.sizes cs
end

/-! ## Canonical printer (riel.h 225-299, 319-417) -/

/-- The loop of `RepresentableNode::inserts` after its first element
(riel.h 266-269): each further element is preceded by `", "`. -/
def inserts_rest {α : Type} (f : α → Str) : List α → Str
  | [] => []
  | x :: xs => ", ".toList ++ f x ++ inserts_rest f xs

/-- The helper `RepresentableNode::inserts` (riel.h 259-270); `f` is what the
pack `args...` writes for one element. The first element is written before the
loop tests anything, so on an empty container the iterator `cbegin` is
dereferenced although it equals `cend`. -/
def inserts {α : Type} (f : α → Str) : List α → Res Str
  | [] => .undefined
  | x :: xs => .ok (f x ++ inserts_rest f xs)

/-- What `ProjectNode` passes to `inserts` for one pair (riel.h 410-413):
the alias, `"=[$"`, the index, `"]"`. -/
def project_item (pair : Str × Nat) : Str :=
  pair.1 ++ "=[$".toList ++ to_string pair.2 ++ "]".toList

/-- The conversions `operator std::string` of the four classes
(riel.h 319-326, 346-350, 373-380, 404-417). -/
def Node.toStr : Node → Res Str
  | .mk (.Scan path) _ =>
    (inserts (fun part => part) path).map (fun s => "Scan(table=[[".toList ++ s ++ "]])".toList)
  | .mk (.Union all) _ =>
    .ok ("Union(all=[".toList ++ (if all then "true".toList else "false".toList) ++ "])".toList)
  | .mk (.Aggregate group_indices) _ =>
    (inserts to_string group_indices).map
      (fun s => "Aggregate(group=[\x7b".toList ++ s ++ "\x7d])".toList)
  | .mk (.Project pairs) _ =>
    (inserts project_item pairs).map (fun s => "Project(".toList ++ s ++ ")".toList)

mutual
/-- The stream insertion of an `OStreamNode` (riel.h 232-245): `indent` spaces,
the text of the node, then for each child in stored order `std::endl` and the
child with `indent + 2`. -/
def OStreamNode : Node → Nat → Res Str
  | .mk p cs, indent =>
    (Node.toStr (.mk p cs)).bind fun body =>
    (OStreamNode.children cs (indent + 2)).bind fun rest =>
    .ok (List.replicate indent ' ' ++ body ++ rest)
/-- The loop over the children (riel.h 238-243). -/
def OStreamNode.children : List Node → Nat → Res Str
  | [], _ => .ok []
  | c :: cs, indent =>
    (OStreamNode c indent).bind fun first =>
    (OStreamNode.children cs indent).bind fun rest =>
    .ok ('\n' :: first ++ rest)
end

/-- The stream insertion of a root node (riel.h 247-251): indent `0`. -/
def print (root : Node) : Res Str := OStreamNode root 0

/-! ## Property validators (riel.h 444-619, riel.cc 32-42) -/

/-- One `PropertiesBuilder::Property`: key and raw value. -/
abbrev Property := Str × Str

/-- The vector `PropertiesBuilder::Properties`. -/
abbrev Properties := List Property

/-- The classification `PropertiesBuilder::ctype::table` (riel.cc 32-42): the
classic table with `','`, `']'` and `'\x7d'` reclassified as space. -/
def ctype_space (c : Char) : Bool :=
  isspace c || decide (c = ',') || decide (c = ']') || decide (c = '\x7d')

/-- One pass over the text of a stream read with `stream >> part` under the
imbued `ctype`: the run of non-space characters the text starts with, and the
parts extracted after that run. -/
def scan_parts : Str → Str × List Str
  | [] => ([], [])
  | c :: cs =>
    if ctype_space c then
      ([], if (scan_parts cs).1 = [] then (scan_parts cs).2
           else (scan_parts cs).1 :: (scan_parts cs).2)
    else (c :: (scan_parts cs).1, (scan_parts cs).2)

/-- The strings that `while (stream >> part)` extracts from a stream holding
`s` (riel.h 546, 581): each extraction skips the characters classified as space
and takes the characters up to the next one; it fails at the end of the text. -/
def parts_of (s : Str) : List Str :=
  if (scan_parts s).1 = [] then (scan_parts s).2 else (scan_parts s).1 :: (scan_parts s).2

/-- The value `strtoul` accumulates over a run of decimal digits. -/
def digits_value (ds : Str) : Nat :=
  ds.foldl (fun acc c => 10 * acc + (c.toNat - 48)) 0

/-- The text after the leading white space of a `strtoul` subject. -/
def skip_space (s : Str) : Str := s.dropWhile isspace

/-- The text after the optional sign of a `strtoul` subject. -/
def skip_sign : Str → Str
  | '-' :: r => r
  | '+' :: r => r
  | s => s

/-- Whether the subject of `strtoul` carries a minus sign. -/
def has_minus : Str → Bool
  | '-' :: _ => true
  | _ => false

/-- The digits `strtoul` converts: the longest run of decimal digits after the
leading white space and the optional sign. -/
def leading_digits (s : Str) : Str := (skip_sign (skip_space s)).takeWhile isdigit

/-- The call `std::stoul(str, nullptr, 10)`: leading white space, an optional
sign, then the longest run of decimal digits; what follows the digits is not
looked at. No digit raises `std::invalid_argument`, a value that does not fit
64 bits raises `std::out_of_range`, and a minus sign negates modulo `2 ^ 64`. -/
def stoul (str : Str) : Res Nat :=
  if leading_digits str = [] then .throw (.invalid_argument "stoul".toList)
  else if digits_value (leading_digits str) < 2 ^ 64 then
    .ok (if has_minus (skip_space str) then (2 ^ 64 - digits_value (leading_digits str)) % 2 ^ 64
         else digits_value (leading_digits str))
  else .throw (.out_of_range "stoul".toList)

/-- The call `s.substr(1, std::string::npos)`: position 1 is past the end of an
empty string, which raises `std::out_of_range`. -/
def substr1 : Str → Res Str
  | [] => .throw (.out_of_range
      "basic_string::substr: __pos (which is 1) > this->size() (which is 0)".toList)
  | _ :: s => .ok s

/-- The validator `UnionPropertiesBuilder::Build` (riel.h 496-515). -/
def UnionPropertiesBuilder.Build (properties : Properties) : Res Node :=
  match properties with
  | [property] =>
    if property.1 ≠ "all".toList then
      .throw (.runtime_error ("Union property builder with property ".toList ++ property.1))
    else if property.2 = "true".toList then .ok (.mk (.Union true) [])
    else if property.2 = "false".toList then .ok (.mk (.Union false) [])
    else .throw (.runtime_error ("Union property builder with value ".toList ++ property.2))
  | _ =>
    .throw (.runtime_error
      ("Bad union properties with size = ".toList ++ to_string properties.length))

/-- The validator `ScanPropertiesBuilder::Build` (riel.h 527-549): the stream
over the value is positioned at offset 1 and read part by part. -/
def ScanPropertiesBuilder.Build (properties : Properties) : Res Node :=
  match properties with
  | [property] =>
    if property.1 ≠ "table".toList then
      .throw (.runtime_error ("Scan property builder with property ".toList ++ property.1))
    else .ok (.mk (.Scan (parts_of (property.2.drop 1))) [])
  | _ =>
    .throw (.runtime_error
      ("Bad scan properties builder size = ".toList ++ to_string properties.length))

/-- The loop of `AggregatePropertiesBuilder::Build` (riel.h 581-583) over the
parts the stream yields: each is converted by `std::stoul`, the first failure
leaves the function. -/
def AggregatePropertiesBuilder.convert : List Str → Res (List Nat)
  | [] => .ok []
  | part :: rest =>
    (stoul part).bind fun v =>
    (AggregatePropertiesBuilder.convert rest).bind fun vs => .ok (v :: vs)

/-- The validator `AggregatePropertiesBuilder::Build` (riel.h 561-586). -/
def AggregatePropertiesBuilder.Build (properties : Properties) : Res Node :=
  match properties with
  | [property] =>
    if property.1 ≠ "group".toList then
      .throw (.runtime_error
        ("Aggregate property builder with property ".toList ++ property.1))
    else
      (AggregatePropertiesBuilder.convert (parts_of (property.2.drop 1))).bind fun parts =>
      .ok (.mk (.Aggregate parts) [])
  | _ =>
    .throw (.runtime_error
      ("Bad union properties with size = ".toList ++ to_string properties.length))

/-- The loop of `ProjectPropertiesBuilder::Build` (riel.h 607-612): for each
property the value without its first character goes through `std::stoul`. -/
def ProjectPropertiesBuilder.convert : Properties → Res (List (Str × Nat))
  | [] => .ok []
  | property :: rest =>
    (substr1 property.2).bind fun tail =>
    (stoul tail).bind fun v =>
    (ProjectPropertiesBuilder.convert rest).bind fun pairs => .ok ((property.1, v) :: pairs)

/-- The validator `ProjectPropertiesBuilder::Build` (riel.h 598-615). -/
def ProjectPropertiesBuilder.Build (properties : Properties) : Res Node :=
  match properties with
  | [] =>
    .throw (.runtime_error
      ("Bad project properties builder size = ".toList ++ to_string properties.length))
  | _ =>
    (ProjectPropertiesBuilder.convert properties).bind fun pairs =>
    .ok (.mk (.Project pairs) [])

/-! ## Regular expressions of `std::regex` (ECMAScript grammar)

The subset `StreamParser::MakeNode` uses, with the backtracking semantics of
the ECMAScript matcher: alternatives are tried left to right, `*` is greedy and
gives up an iteration that consumed nothing, a capture group records the text
of its last participation. -/

/-- Syntax of the patterns. -/
inductive Regex where
  | chr (c : Char)
  | cls (p : Char → Bool)
  | seq (r s : Regex)
  | alt (r s : Regex)
  | star (r : Regex)
  | group (i : Nat) (r : Regex)
  | bol
  | eol

/-- The sub-matches of a `std::smatch`: `none` is a group that did not
participate. -/
abbrev Captures := List (Option Str)

/-- What remains to be matched after a sub-pattern. -/
abbrev Kont := Str → Captures → Option Captures

/-- The iterations of `r*`, `body` matching `r` once: another iteration is
tried first and has to consume input, then the continuation. -/
def Regex.star_run (body : Str → Captures → Kont → Option Captures) :
    Nat → Str → Captures → Kont → Option Captures
  | 0, s, m, k => k s m
  | fuel + 1, s, m, k =>
    match body s m (fun s1 m1 =>
        if s1.length < s.length then Regex.star_run body fuel s1 m1 k else none) with
    | some r => some r
    | none => k s m

/-- Backtracking match of a pattern at the text `s`, the suffix of an input of
length `n`, followed by the continuation `k`. -/
def Regex.run (n : Nat) : Regex → Str → Captures → Kont → Option Captures
  | .chr c, s, m, k =>
    match s with
    | x :: xs => if x = c then k xs m else none
    | [] => none
  | .cls p, s, m, k =>
    match s with
    | x :: xs => if p x then k xs m else none
    | [] => none
  | .seq a b, s, m, k => a.run n s m (fun s1 m1 => b.run n s1 m1 k)
  | .alt a b, s, m, k =>
    match a.run n s m k with
    | some r => some r
    | none => b.run n s m k
  | .star a, s, m, k => Regex.star_run (a.run n) s.length s m k
  | .group i a, s, m, k =>
    a.run n s m (fun s1 m1 => k s1 (m1.set i (some (s.take (s.length - s1.length)))))
  | .bol, s, m, k => if s.length = n then k s m else none
  | .eol, s, m, k => if s.length = 0 then k s m else none

/-- The pattern `r+`. -/
def Regex.plus (r : Regex) : Regex := .seq r (.star r)

/-- Concatenation of a list of patterns. -/
def Regex.cat : List Regex → Regex
  | [] => .star (.cls (fun _ => false))
  | [r] => r
  | r :: rs => .seq r (Regex.cat rs)

/-- The call `std::regex_match(s, match, re)` for a pattern with `groups`
marked sub-expressions: the whole of `s` has to match; `match[0]` is `s`. -/
def regex_match (re : Regex) (groups : Nat) (s : Str) : Option Captures :=
  re.run s.length s (List.replicate (groups + 1) none)
    (fun rest m => if rest.length = 0 then some (m.set 0 (some s)) else none)

/-! ## Stream parser (riel.h 644-741) -/

/-- The value alternatives of the line pattern (riel.h 682-685, 689-692):
`[[:lower:]]+`, `\$\d+`, `\{\d+(?:,\s*\d+)*\}`,
`\[[[:upper:]]+(?:,\s*[[:upper:]]+)*\]`. -/
def value_re : Regex :=
  .alt (Regex.plus (.cls islower))
  (.alt (Regex.cat [.chr '$', Regex.plus (.cls isdigit)])
  (.alt (Regex.cat [.chr '\x7b', Regex.plus (.cls isdigit),
      .star (Regex.cat [.chr ',', .star (.cls isspace), Regex.plus (.cls isdigit)]),
      .chr '\x7d'])
    (Regex.cat [.chr '[', Regex.plus (.cls isupper),
      .star (Regex.cat [.chr ',', .star (.cls isspace), Regex.plus (.cls isupper)]),
      .chr ']'])))

/-- The pattern of `StreamParser::MakeNode` (riel.h 677-696), five marked
sub-expressions: the node name, the first key and value, and the key and value
inside the repeated group. -/
def line_re : Regex :=
  Regex.cat [
    .bol, .star (.cls isspace),
    .group 1 (Regex.plus (.cls isword)),
    .chr '(',
    .group 2 (Regex.plus (.cls isalpha)), .chr '=', .chr '[',
    .group 3 value_re,
    .chr ']',
    .star (Regex.cat [.chr ',', .star (.cls isspace),
      .group 4 (Regex.plus (.cls isalpha)), .chr '=', .chr '[',
      .group 5 value_re,
      .chr ']']),
    .chr ')', .eol]

/-- The text `match.str(i)`, empty for a group that did not participate. -/
def smatch_str (m : Captures) (i : Nat) : Str := (m.getD i none).getD []

/-- The loop collecting `Arguments` from the match (riel.h 705-708), from
index `i` on: pairs of groups `(i, i + 1)`, stopping at the size of the match
or at an empty group. -/
def collect_arguments (m : Captures) : Nat → Nat → Properties
  | 0, _ => []
  | fuel + 1, i =>
    if i < m.length then
      if (smatch_str m i).length = 0 then []
      else (smatch_str m i, smatch_str m (i + 1)) :: collect_arguments m fuel (i + 2)
    else []

/-- The builder classes `MakePropertiesBuilder` chooses from, each holding the
properties it was constructed with. -/
inductive PropertiesBuilder where
  | Aggregate (properties : Properties)
  | Union (properties : Properties)
  | Project (properties : Properties)
  | Scan (properties : Properties)
  deriving DecidableEq, Repr

/-- The dispatch `StreamParser::MakePropertiesBuilder` (riel.h 718-734). -/
def MakePropertiesBuilder (name : Str) (args : Properties) : Res PropertiesBuilder :=
  if name = "Aggregate".toList then .ok (.Aggregate args)
  else if name = "Union".toList then .ok (.Union args)
  else if name = "Project".toList then .ok (.Project args)
  else if name = "Scan".toList then .ok (.Scan args)
  else .throw (.runtime_error "Unreachable MakePropertiesBuilder".toList)

/-- The virtual call `builder->Build()`. -/
def PropertiesBuilder.Build : PropertiesBuilder → Res Node
  | .Aggregate properties => AggregatePropertiesBuilder.Build properties
  | .Union properties => UnionPropertiesBuilder.Build properties
  | .Project properties => ProjectPropertiesBuilder.Build properties
  | .Scan properties => ScanPropertiesBuilder.Build properties

/-- The name and the `Arguments` that `MakeNode` extracts from a line, `none`
when `std::regex_match` fails (riel.h 699-708). -/
def line_arguments (format : Str) : Option (Str × Properties) :=
  match regex_match line_re 5 format with
  | some m => some (smatch_str m 1, collect_arguments m m.length 2)
  | none => none

/-- The function `StreamParser::MakeNode` (riel.h 676-716). -/
def MakeNode (format : Str) : Res Node :=
  match line_arguments format with
  | some (name, arguments) =>
    (MakePropertiesBuilder name arguments).bind fun builder => builder.Build
  | none => .throw (.runtime_error ("Bad format: '".toList ++ format ++ "'".toList))

/-- The state of a `std::istream` over a character sequence: the characters
not yet extracted and two bits of its `iostate`. -/
structure istream where
  text : Str
  eofbit : Bool
  failbit : Bool
  deriving DecidableEq, Repr

/-- A fresh `std::istringstream` over `text`. -/
def istringstream (text : Str) : istream := ⟨text, false, false⟩

/-- The call `std::getline(is, str)`, returning the stream and the string
after it. When the stream is not `good()` the sentry fails: `failbit` is set
and `str` is left as it was. Otherwise `str` is erased and receives the
characters up to the next `'\n'`, which is extracted and dropped; reaching
the end of the stream sets `eofbit`, and `failbit` too when nothing was
extracted. -/
def getline (is : istream) (str : Str) : istream × Str :=
  if is.eofbit || is.failbit then (⟨is.text, is.eofbit, true⟩, str)
  else
    match is.text.dropWhile (fun c => c ≠ '\n') with
    | [] => (⟨[], true, (is.text.takeWhile (fun c => c ≠ '\n')).isEmpty⟩,
             is.text.takeWhile (fun c => c ≠ '\n'))
    | _ :: rest => (⟨rest, false, false⟩, is.text.takeWhile (fun c => c ≠ '\n'))

/-- The expression `s[pos]` of `std::string`: the character at `pos`, the null
character at `pos == size()`, and no defined behaviour beyond. -/
def string_at (s : Str) (pos : Nat) : Res Char :=
  if pos < s.length then .ok (s.getD pos '\x00')
  else if pos = s.length then .ok '\x00'
  else .undefined

/-- The data members of `StreamParser` (riel.h 736-738). -/
structure StreamParser where
  istream_ : istream
  format : Str
  level : Nat
  deriving DecidableEq, Repr

/-- The constructor `StreamParser(std::istream &)` (riel.h 646). -/
def StreamParser.new (is : istream) : StreamParser := ⟨is, [], 0⟩

/-- The function `StreamParser::Traverse` (riel.h 660-672); it returns the
parser state and the parent with the children appended. One unit of fuel is
spent per evaluation of the loop condition. `level` is a `std::size_t`. -/
def Traverse : Nat → StreamParser → Node → Res (StreamParser × Node)
  | 0, _, _ => .outOfFuel
  | fuel + 1, self, parent =>
    if self.format = [] then .ok (self, parent)
    else
      (string_at self.format self.level).bind fun c =>
      if c ≠ ' ' then
        .ok (⟨self.istream_, self.format, (self.level + 2 ^ 64 - 2) % 2 ^ 64⟩, parent)
      else
        (MakeNode self.format).bind fun node =>
        (Traverse fuel
          ⟨(getline self.istream_ self.format).1, (getline self.istream_ self.format).2,
            (self.level + 2) % 2 ^ 64⟩ node).bind fun r =>
        Traverse fuel r.1 (parent.append r.2)

/-- The function `StreamParser::parse` (riel.h 650-657). -/
def parse (fuel : Nat) (self : StreamParser) : Res Node :=
  let first := getline self.istream_ self.format
  (MakeNode first.2).bind fun root =>
  let second := getline first.1 first.2
  (Traverse fuel ⟨second.1, second.2, 1⟩ root).bind fun r => .ok r.2

/-- The parse of a fresh parser over a fresh stream holding `text`. -/
def parse_text (fuel : Nat) (text : Str) : Res Node :=
  parse fuel (StreamParser.new (istringstream text))

/-! ## Vocabulary of the properties

Definitions that state the properties proved below; they are not part of the
program. -/

mutual
/-- The nodes of a tree in pre-order, each with its depth, the root at depth
`d`: a node, then each child subtree in stored order. -/
def Node.preorder : Node → Nat → List (Node × Nat)
  | .mk p cs, d => (.mk p cs, d) :: Node.preorders cs (d + 1)
/-- The nodes of a forest in pre-order, its roots at depth `d`. -/
def Node.preorders : List Node → Nat → List (Node × Nat)
  | [], _ => []
  | c :: cs, d => c.preorder d ++ Node.preorders cs d
end

/-- The results of a list of calls made in order: the first one that does not
return decides. -/
def Res.sequence {α : Type} : List (Res α) → Res (List α)
  | [] => .ok []
  | r :: rs => r.bind fun a => (Res.sequence rs).bind fun as => .ok (a :: as)

/-- The line of a node at depth `d`: `2 * d` spaces followed by the line body
of the node. -/
def Node.line (n : Node) (d : Nat) : Res Str :=
  n.toStr.map fun body => List.replicate (2 * d) ' ' ++ body

/-- One line per node of the tree, in pre-order. -/
def Node.lines (T : Node) : Res (List Str) :=
  Res.sequence ((T.preorder 0).map fun nd => nd.1.line nd.2)

/-- Every line preceded by a newline. -/
def join_rest : List Str → Str
  | [] => []
  | l :: ls => '\n' :: l ++ join_rest ls

/-- Lines joined by a single newline, none after the last line. -/
def join_lines : List Str → Str
  | [] => []
  | l :: ls => l ++ join_rest ls

/-- No string of the payload contains a newline. -/
def Payload.newline_free : Payload → Bool
  | .Scan path => path.all fun part => !part.contains '\n'
  | .Union _ => true
  | .Aggregate _ => true
  | .Project pairs => pairs.all fun pair => !pair.1.contains '\n'

/-- No payload string of the tree contains a newline. -/
def Node.newline_free (T : Node) : Bool :=
  (T.preorder 0).all fun nd => nd.1.payload.newline_free

/-- The payload sequence is not empty (a Union has none). -/
def Payload.nonempty : Payload → Bool
  | .Scan path => !path.isEmpty
  | .Union _ => true
  | .Aggregate group_indices => !group_indices.isEmpty
  | .Project pairs => !pairs.isEmpty

/-- A `std::string` literal. -/
def lit (s : String) : Str := s.toList

/-- The tree built by the test `FormattedNodeTest.OutputTree`
(riel-test.cc 12-36). -/
def output_tree : Node :=
  .mk (.Aggregate [0, 1]) [
    .mk (.Union true) [
      .mk (.Project [(lit "SECTOR", 0), (lit "NAME", 1)]) [
        .mk (.Scan [lit "CATALOG", lit "SALES", lit "NATIONAL"]) []],
      .mk (.Project [(lit "SECTOR", 0), (lit "NAME", 1)]) [
        .mk (.Scan [lit "CATALOG", lit "SALES", lit "INTERNATIONAL"]) []]]]

/-- The text the test `FormattedNodeTest.OutputTree` expects
(riel-test.cc 41-46). -/
def output_text : Str :=
  lit ("Aggregate(group=[\x7b0, 1\x7d])\n" ++
       "  Union(all=[true])\n" ++
       "    Project(SECTOR=[$0], NAME=[$1])\n" ++
       "      Scan(table=[[CATALOG, SALES, NATIONAL]])\n" ++
       "    Project(SECTOR=[$0], NAME=[$1])\n" ++
       "      Scan(table=[[CATALOG, SALES, INTERNATIONAL]])")

/-- The input of the test `StreamParserTest.ParseFourLevelsWithASibling`
(riel-test.cc 58-64): six lines, each ended by a newline. -/
def six_line_plan : Str :=
  lit ("Aggregate(group=[\x7b0, 1\x7d])\n" ++
       "  Union(all=[true])\n" ++
       "    Project(SECTOR=[$0], NAME=[$1])\n" ++
       "      Scan(table=[[RECORDS, SALES, NATIONAL]])\n" ++
       "    Project(SECTOR=[$0], NAME=[$1])\n" ++
       "      Scan(table=[[RECORDS, SALES, INTERNATIONAL]])\n")

/-- The tree the test `StreamParserTest.ParseFourLevelsWithASibling` expects
(riel-test.cc 69-119). -/
def six_line_tree : Node :=
  .mk (.Aggregate [0, 1]) [
    .mk (.Union true) [
      .mk (.Project [(lit "SECTOR", 0), (lit "NAME", 1)]) [
        .mk (.Scan [lit "RECORDS", lit "SALES", lit "NATIONAL"]) []],
      .mk (.Project [(lit "SECTOR", 0), (lit "NAME", 1)]) [
        .mk (.Scan [lit "RECORDS", lit "SALES", lit "INTERNATIONAL"]) []]]]

/-- A Project node with three pairs and no children. -/
def three_pairs : Node :=
  .mk (.Project [(lit "A", 0), (lit "B", 1), (lit "C", 2)]) []

/-- A Union node over one Scan node. -/
def union_over_scan : Node :=
  .mk (.Union true) [.mk (.Scan [lit "A"]) []]

/-- A plan whose lines descend one level at a time from depth 0 to depth 12
and then return to depth 1; every line ends with a newline. -/
def deep_then_shallow : Str :=
  lit ("Union(all=[true])\n" ++
       "  Union(all=[true])\n" ++
       "    Union(all=[true])\n" ++
       "      Union(all=[true])\n" ++
       "        Union(all=[true])\n" ++
       "          Union(all=[true])\n" ++
       "            Union(all=[true])\n" ++
       "              Union(all=[true])\n" ++
       "                Union(all=[true])\n" ++
       "                  Union(all=[true])\n" ++
       "                    Union(all=[true])\n" ++
       "                      Union(all=[true])\n" ++
       "                        Union(all=[true])\n" ++
       "  Project(a=[$0])\n")

/-! ## Children container (riel.h 184-207) -/

/-- The class `ContiguousChildren`: its data member `nodes_`. -/
structure ContiguousChildren where
  nodes_ : List Node

/-- The member `ContiguousChildren::append` (riel.h 194-196): `push_back`. -/
def ContiguousChildren.append (self : ContiguousChildren) (child : Node) : ContiguousChildren :=
  ⟨self.nodes_ ++ [child]⟩

/-- The member `ContiguousChildren::size` (riel.h 198). -/
def ContiguousChildren.size (self : ContiguousChildren) : Nat := self.nodes_.length

/-- The member `ContiguousChildren::operator[]` (riel.h 189-192): `nodes_[index]`,
which has no defined behaviour from index `size()` on. -/
def ContiguousChildren.at (self : ContiguousChildren) (index : Nat) : Res Node :=
  match self.nodes_.get? index with
  | some node => .ok node
  | none => .undefined

/-- The nodes an iteration from `begin()` to `end()` visits, in order
(riel.h 200-201). -/
def ContiguousChildren.iterate (self : ContiguousChildren) : List Node := self.nodes_

/-- The container behind `node.children()`. -/
def Node.children_ (n : Node) : ContiguousChildren := ⟨n.children⟩

/-! ## More vocabulary of the properties -/

/-- The strings joined by `", "`. -/
def comma_join : List Str → Str
  | [] => []
  | [x] => x
  | x :: y :: rest => x ++ lit ", " ++ comma_join (y :: rest)

/-- The number a string of decimal digits denotes, in positional notation. -/
def decimal_value : Str → Nat
  | [] => 0
  | c :: cs => (c.toNat - 48) * 10 ^ cs.length + decimal_value cs

/-- The decimal text of a number, as the standard library of Lean writes it. -/
def decimal_text (n : Nat) : Str := (Nat.repr n).toList

/-- Lines, each followed by a newline. -/
def unlines : List Str → Str
  | [] => []
  | l :: ls => l ++ '\n' :: unlines ls

/-- The payloads of the nodes of a tree in pre-order. -/
def Node.payloads (T : Node) : List Payload := (T.preorder 0).map fun nd => nd.1.payload

/-- A Scan line followed by a more indented Scan line. -/
def scan_under_scan : Str :=
  lit ("Scan(table=[[A]])\n" ++
       "  Scan(table=[[B]])\n")

/-- Two lines without indentation. -/
def two_roots : Str :=
  lit ("Union(all=[true])\n" ++
       "Union(all=[false])\n")

/-- A line without indentation that does not match the line pattern, after a
first line that does. -/
def root_then_garbage : Str :=
  lit ("Union(all=[true])\n" ++
       "garbage\n")

/-- A plan whose lines descend one level at a time from depth 0 to depth 8 and
then return to depth 1 with a line that has a space at index 17. -/
def deep_then_spaced : Str :=
  lit ("Union(all=[true])\n" ++
       "  Union(all=[true])\n" ++
       "    Union(all=[true])\n" ++
       "      Union(all=[true])\n" ++
       "        Union(all=[true])\n" ++
       "          Union(all=[true])\n" ++
       "            Union(all=[true])\n" ++
       "              Union(all=[true])\n" ++
       "                Union(all=[true])\n" ++
       "  Scan(table=[[A, B]])\n")

/-- The text a parser has still to look at: the line held in `format`, and,
while the stream is good, the newline that ended it and the characters not yet
extracted. -/
def StreamParser.pending (self : StreamParser) : Str :=
  if self.istream_.eofbit || self.istream_.failbit then self.format
  else self.format ++ '\n' :: self.istream_.text

/-! ## Vocabulary of the grammar, of valid trees and of deep plans -/

/-- The texts a pattern matches, sub-matches and position left aside (`^` and
`$` match the empty text). -/
def Regex.lang : Regex → Str → Prop
  | .chr c, s => s = [c]
  | .cls p, s => ∃ x, p x = true ∧ s = [x]
  | .seq a b, s => ∃ u v, s = u ++ v ∧ a.lang u ∧ b.lang v
  | .alt a b, s => a.lang s ∨ b.lang s
  | .star a, s => ∃ parts : List Str, s = parts.flatten ∧ ∀ p ∈ parts, a.lang p
  | .group _ a, s => a.lang s
  | .bol, s => s = []
  | .eol, s => s = []

/-- A token: a non-empty string of characters of one class. -/
def token_of (p : Char → Bool) (t : Str) : Bool := !t.isEmpty && t.all p

/-- A derivation of the production `value` of the format grammar: a lower-case
word, `$` and digits, or a list in braces or brackets given by its first
element and, for each further element, the text between the comma and the
element together with the element. -/
inductive ValueText where
  | word (w : Str)
  | column (digits : Str)
  | braces (first : Str) (more : List (Str × Str))
  | brackets (first : Str) (more : List (Str × Str))
  deriving DecidableEq, Repr

/-- The further elements of a list, each after its comma and separator. -/
def more_text {α : Type} (f : α → Str) (more : List (Str × α)) : Str :=
  (more.map fun e => ',' :: e.1 ++ f e.2).flatten

/-- The text a derivation of `value` derives. -/
def ValueText.text : ValueText → Str
  | .word w => w
  | .column digits => '$' :: digits
  | .braces first more => '\x7b' :: first ++ more_text id more ++ ['\x7d']
  | .brackets first more => '[' :: first ++ more_text id more ++ [']']

/-- The tokens are of the class their place asks for, and what stands between
a comma and the next element is white space. -/
def ValueText.wellformed : ValueText → Bool
  | .word w => token_of islower w
  | .column digits => token_of isdigit digits
  | .braces first more =>
    token_of isdigit first && more.all fun e => e.1.all isspace && token_of isdigit e.2
  | .brackets first more =>
    token_of isupper first && more.all fun e => e.1.all isspace && token_of isupper e.2

/-- Every list separator is a comma followed by exactly one space, as the
production `value` of the grammar writes it. -/
def ValueText.strict : ValueText → Bool
  | .word _ => true
  | .column _ => true
  | .braces _ more => more.all fun e => e.1 == [' ']
  | .brackets _ more => more.all fun e => e.1 == [' ']

/-- A derivation of the production `prop`: `KEY "=[" value "]"`. -/
structure PropText where
  key : Str
  value : ValueText
  deriving DecidableEq, Repr

/-- The text a derivation of `prop` derives. -/
def PropText.text (p : PropText) : Str := p.key ++ lit "=[" ++ p.value.text ++ lit "]"

/-- The key is an alphabetic token and the value is well formed. -/
def PropText.wellformed (p : PropText) : Bool := token_of isalpha p.key && p.value.wellformed

/-- A derivation of the production `node-line`: the indentation, the kind, the
first property and, for each further property, the text between the comma and
the property together with the property. -/
structure LineText where
  indent : Str
  kind : Str
  first : PropText
  more : List (Str × PropText)
  deriving DecidableEq, Repr

/-- The text a derivation of `node-line` derives. -/
def LineText.text (d : LineText) : Str :=
  d.indent ++ d.kind ++ '(' :: d.first.text ++ more_text PropText.text d.more ++ [')']

/-- The indentation and what stands between a comma and the next property are
white space, the kind is a token of word characters and the properties are
well formed. -/
def LineText.wellformed (d : LineText) : Bool :=
  d.indent.all isspace && token_of isword d.kind && d.first.wellformed &&
    d.more.all fun e => e.1.all isspace && e.2.wellformed

/-- The derivation is one of the grammar as written: the indentation consists
of space characters only, and every separator, between properties and between
list elements, is a comma followed by exactly one space. -/
def LineText.strict (d : LineText) : Bool :=
  d.indent.all (fun c => c == ' ') && d.first.value.strict &&
    d.more.all fun e => e.1 == [' '] && e.2.value.strict

/-- A payload as the claims on canonical text take it: the path of a Scan is
not empty and its segments are upper-case tokens, the group of an Aggregate is
not empty, the pairs of a Project are not empty and their aliases are
alphabetic tokens. -/
def Payload.valid : Payload → Bool
  | .Scan path => !path.isEmpty && path.all (token_of isupper)
  | .Union _ => true
  | .Aggregate group_indices => !group_indices.isEmpty
  | .Project pairs => !pairs.isEmpty && pairs.all fun pair => token_of isalpha pair.1

/-- Every payload of the tree is valid. -/
def Node.valid (T : Node) : Bool := (T.preorder 0).all fun nd => nd.1.payload.valid

/-- A chain of `n` Project nodes, each the only child of the one before, that
ends in `leaf`. -/
def project_chain : Nat → Node → Node
  | 0, leaf => leaf
  | n + 1, leaf => .mk (.Project [(lit "a", 0)]) [project_chain n leaf]

/-- A Union node with two children: a chain of nine Project nodes over a Scan
node, which stands at depth 10, and a Scan node. -/
def deep_left_branch : Node :=
  .mk (.Union true) [project_chain 9 (.mk (.Scan [lit "A"]) []), .mk (.Scan [lit "B"]) []]

/-- A chain of `n` Union nodes, each the only child of the one before, that
ends in `leaf`. -/
def union_chain : Nat → Node → Node
  | 0, leaf => leaf
  | n + 1, leaf => .mk (.Union true) [union_chain n leaf]

/-- The line body of a payload: what the conversion `operator std::string` of
its class writes when the payload sequence is not empty. -/
def Payload.body : Payload → Str
  | .Scan path => lit "Scan(table=[[" ++ comma_join path ++ lit "]])"
  | .Union all => if all then lit "Union(all=[true])" else lit "Union(all=[false])"
  | .Aggregate group_indices =>
    lit "Aggregate(group=[\x7b" ++ comma_join (group_indices.map to_string) ++ lit "\x7d])"
  | .Project pairs => lit "Project(" ++ comma_join (pairs.map project_item) ++ lit ")"

/-- The pattern has no `^` and no `$`. -/
def Regex.anchor_free : Regex → Bool
  | .chr _ => true
  | .cls _ => true
  | .seq a b => a.anchor_free && b.anchor_free
  | .alt a b => a.anchor_free && b.anchor_free
  | .star a => a.anchor_free
  | .group _ a => a.anchor_free
  | .bol => false
  | .eol => false

/-- A text with as many spaces as commas and without a tab; every text the
grammar derives after the indentation is one. -/
def spaced (t : Str) : Prop := t.count ' ' = t.count ',' ∧ '\t' ∉ t

/-- Every line of the text ends with a newline: the text is empty or its last
character is a newline. -/
def newline_terminated (t : Str) : Prop := t = [] ∨ t.getLast? = some '\n'

/-- The parser states of an input whose lines all end with a newline: the
stream is good and what it still holds is newline terminated, or the stream is
not good and no line is held. -/
def StreamParser.settled (self : StreamParser) : Prop :=
  if self.istream_.eofbit || self.istream_.failbit then self.format = []
  else newline_terminated self.istream_.text

/-- A plan whose lines descend one level at a time from depth 0 to depth 7,
followed by a line without indentation that has a space at index 15. -/
def deep_then_unindented : Str :=
  lit ("Union(all=[true])\n" ++
       "  Union(all=[true])\n" ++
       "    Union(all=[true])\n" ++
       "      Union(all=[true])\n" ++
       "        Union(all=[true])\n" ++
       "          Union(all=[true])\n" ++
       "            Union(all=[true])\n" ++
       "              Union(all=[true])\n" ++
       "Scan(table=[[A, B]])\n")

/-! ## Auxiliary facts on outcomes and fuel -/

theorem Res.bind_ne_outOfFuel {α β : Type} {r : Res α} {f : α → Res β}
    (h : r.bind f ≠ .outOfFuel) : r ≠ .outOfFuel := by
  intro hr
  apply h
  rw [hr]
  rfl

theorem Traverse_succ (fuel : Nat) (self : StreamParser) (parent : Node) :
    Traverse (fuel + 1) self parent =
      if self.format = [] then .ok (self, parent)
      else
        (string_at self.format self.level).bind fun c =>
        if c ≠ ' ' then
          .ok (⟨self.istream_, self.format, (self.level + 2 ^ 64 - 2) % 2 ^ 64⟩, parent)
        else
          (MakeNode self.format).bind fun node =>
          (Traverse fuel
            ⟨(getline self.istream_ self.format).1, (getline self.istream_ self.format).2,
              (self.level + 2) % 2 ^ 64⟩ node).bind fun r =>
          Traverse fuel r.1 (parent.append r.2) := by
  rw [Traverse]

/-- More fuel does not change an execution of `Traverse` that has ended. -/
theorem Traverse_fuel_add (fuel : Nat) :
    ∀ (self : StreamParser) (parent : Node) (k : Nat),
      Traverse fuel self parent ≠ .outOfFuel →
      Traverse (fuel + k) self parent = Traverse fuel self parent := by
  induction fuel with
  | zero => intro self parent k h; exact absurd rfl h
  | succ fuel ih =>
    intro self parent k h
    have hk : fuel + 1 + k = (fuel + k) + 1 := by omega
    rw [hk, Traverse_succ (fuel + k)]
    rw [Traverse_succ fuel] at h ⊢
    by_cases hf : self.format = []
    · simp [hf]
    · simp only [hf, if_false] at h ⊢
      cases hc : string_at self.format self.level with
      | ok c =>
        simp only [hc, Res.bind] at h ⊢
        by_cases hsp : c ≠ ' '
        · simp [hsp]
        · simp only [hsp, if_false] at h ⊢
          cases hm : MakeNode self.format with
          | ok node =>
            simp only [hm, Res.bind] at h ⊢
            have h1 := Res.bind_ne_outOfFuel h
            rw [ih _ _ k h1]
            cases hr : Traverse fuel ⟨(getline self.istream_ self.format).1,
                (getline self.istream_ self.format).2, (self.level + 2) % 2 ^ 64⟩ node with
            | ok r =>
              simp only [hr] at h ⊢
              exact ih _ _ k h
            | throw e => rfl
            | undefined => rfl
            | outOfFuel => exact absurd hr h1
          | throw e => rfl
          | undefined => rfl
          | outOfFuel => rfl
      | throw e => rfl
      | undefined => rfl
      | outOfFuel => rfl

/-- More fuel does not change an execution of `parse` that has ended. -/
theorem parse_fuel_add (fuel k : Nat) (self : StreamParser)
    (h : parse fuel self ≠ .outOfFuel) : parse (fuel + k) self = parse fuel self := by
  simp only [parse] at h ⊢
  cases hm : MakeNode (getline self.istream_ self.format).2 with
  | ok root =>
    simp only [hm, Res.bind] at h ⊢
    rw [Traverse_fuel_add fuel _ _ k]
    intro hr
    rw [hr] at h
    exact h rfl
  | throw e => simp only [Res.bind]
  | undefined => simp only [Res.bind]
  | outOfFuel => simp only [Res.bind]

/-- The same for a parse from a text. -/
theorem parse_text_fuel_add (fuel k : Nat) (text : Str)
    (h : parse_text fuel text ≠ .outOfFuel) :
    parse_text (fuel + k) text = parse_text fuel text :=
  parse_fuel_add fuel k _ h

/-! ## Parsing what the printer wrote -/

/-- C1, on the code: the Project node with the pairs `(A,0), (B,1), (C,2)`
prints as `Project(A=[$0], B=[$1], C=[$2])`, and `parse` on exactly that text
returns, for every amount of fuel from 1 on, the Project node with the two
pairs `(A,0), (C,2)`: the round trip loses the pair in the middle. -/
theorem roundtrip_loses_middle_pair :
    print three_pairs = .ok (lit "Project(A=[$0], B=[$1], C=[$2])") ∧
    (∀ k, parse_text (1 + k) (lit "Project(A=[$0], B=[$1], C=[$2])") =
      .ok (.mk (.Project [(lit "A", 0), (lit "C", 2)]) [])) ∧
    Node.mk (.Project [(lit "A", 0), (lit "C", 2)]) [] ≠ three_pairs := by
  refine ⟨rfl, ?_, ?_⟩
  · intro k
    have h : parse_text 1 (lit "Project(A=[$0], B=[$1], C=[$2])") =
        .ok (.mk (.Project [(lit "A", 0), (lit "C", 2)]) []) := rfl
    rw [parse_text_fuel_add 1 k _ (by rw [h]; exact fun h0 => Res.noConfusion h0), h]
  · intro h
    have h1 := congrArg Node.payload h
    revert h1
    decide

/-- The printed text of a Union node over a Scan node has no newline after its
last line, and `parse` on it never returns: whatever the fuel, the execution is
still running. After the last line `std::getline` fails without touching
`format`, so the loop of `Traverse` builds and appends the same Scan node again
and again. -/
theorem parse_of_printed_union_over_scan_runs_forever :
    print union_over_scan = .ok (lit "Union(all=[true])\n  Scan(table=[[A]])") ∧
    ∀ fuel, parse_text fuel (lit "Union(all=[true])\n  Scan(table=[[A]])") = .outOfFuel := by
  refine ⟨rfl, ?_⟩
  have key : ∀ (fuel : Nat) (fail : Bool) (parent : Node),
      Traverse fuel ⟨⟨[], true, fail⟩, lit "  Scan(table=[[A]])", 1⟩ parent = .outOfFuel := by
    intro fuel
    induction fuel with
    | zero => intro fail parent; rfl
    | succ fuel ih =>
      intro fail parent
      rw [Traverse_succ]
      have h1 : (⟨⟨[], true, fail⟩, lit "  Scan(table=[[A]])", 1⟩ : StreamParser).format ≠ [] := by
        show lit "  Scan(table=[[A]])" ≠ []
        decide
      have h2 : string_at (lit "  Scan(table=[[A]])") 1 = .ok ' ' := rfl
      have h3 : MakeNode (lit "  Scan(table=[[A]])") = .ok (.mk (.Scan [lit "A"]) []) := rfl
      have h4 : getline ⟨[], true, fail⟩ (lit "  Scan(table=[[A]])") =
          (⟨[], true, true⟩, lit "  Scan(table=[[A]])") := rfl
      simp only [h1, if_false, h2, h3, h4, Res.bind, ne_eq, not_true_eq_false]
      cases fuel with
      | zero => rfl
      | succ fuel =>
        have h5 : Traverse (fuel + 1)
            ⟨⟨[], true, true⟩, lit "  Scan(table=[[A]])", (1 + 2) % 2 ^ 64⟩
            (.mk (.Scan [lit "A"]) []) =
            .ok (⟨⟨[], true, true⟩, lit "  Scan(table=[[A]])", 1⟩, .mk (.Scan [lit "A"]) []) := by
          rw [Traverse_succ]
          rfl
        rw [h5]
        exact ih true _
  intro fuel
  have h0 : parse_text fuel (lit "Union(all=[true])\n  Scan(table=[[A]])") =
      (Traverse fuel ⟨⟨[], true, false⟩, lit "  Scan(table=[[A]])", 1⟩
        (.mk (.Union true) [])).bind fun r => .ok r.2 := rfl
  rw [h0, key]
  rfl

/-- The test `StreamParserTest.ParseFourLevelsWithASibling`: on the six-line
plan `parse` returns, for every amount of fuel from 7 on, the expected tree,
whose nodes have 1, 2, 1, 0, 1, 0 children. -/
theorem parse_six_line_plan :
    (∀ k, parse_text (7 + k) six_line_plan = .ok six_line_tree) ∧
    (six_line_tree.preorder 0).map (fun nd => nd.1.children.length) = [1, 2, 1, 0, 1, 0] := by
  refine ⟨?_, rfl⟩
  intro k
  have h : parse_text 7 six_line_plan = .ok six_line_tree := rfl
  rw [parse_text_fuel_add 7 k _ (by rw [h]; exact fun h0 => Res.noConfusion h0), h]

/-- C2, on the code: every line of `deep_then_shallow` ends with a newline,
matches the line grammar with properties valid for its kind and is indented by
twice its depth, the depths being 0, 1, ..., 12, 1. When the last line, 17
characters long, is read, `level` is 25 and `Traverse` evaluates `format[25]`:
for every amount of fuel from 13 on the execution reads outside the line, and
no tree is returned. The first two facts list the indentation of each line
(the last entry is the empty text after the final newline) and the kind
`MakeNode` builds from each line. -/
theorem parse_deep_then_shallow_reads_outside_line :
    (deep_then_shallow.splitOn '\n').map (fun l => (l.takeWhile (fun c => c = ' ')).length) =
      [0, 2, 4, 6, 8, 10, 12, 14, 16, 18, 20, 22, 24, 2, 0] ∧
    (deep_then_shallow.splitOn '\n').dropLast.map (fun l => (MakeNode l).map Node.id) =
      List.replicate 13 (.ok .UNION) ++ [.ok .PROJECT] ∧
    ∀ k, parse_text (13 + k) deep_then_shallow = .undefined := by
  refine ⟨rfl, rfl, ?_⟩
  intro k
  have h : parse_text 13 deep_then_shallow = .undefined := rfl
  rw [parse_text_fuel_add 13 k _ (by rw [h]; exact fun h0 => Res.noConfusion h0), h]

/-- C4, on the code: the line `Project(A=[$0], B=[$1], C=[$2])` matches the
line pattern and has three terms, yet the arguments `MakeNode` collects from
the match are the first and the last term only; the builder it selects never
sees `B=[$1]`. -/
theorem arguments_of_three_terms :
    line_arguments (lit "Project(A=[$0], B=[$1], C=[$2])") =
      some (lit "Project", [(lit "A", lit "$0"), (lit "C", lit "$2")]) ∧
    MakeNode (lit "Project(A=[$0], B=[$1], C=[$2])") =
      .ok (.mk (.Project [(lit "A", 0), (lit "C", 2)]) []) :=
  ⟨rfl, rfl⟩

/-! ## Layout of the printed text -/

theorem Res.sequence_cons {α : Type} (r : Res α) (rs : List (Res α)) :
    Res.sequence (r :: rs) = r.bind fun a => (Res.sequence rs).bind fun as => .ok (a :: as) :=
  rfl

theorem Res.sequence_append {α : Type} (xs ys : List (Res α)) :
    Res.sequence (xs ++ ys) =
      (Res.sequence xs).bind fun a => (Res.sequence ys).bind fun b => .ok (a ++ b) := by
  induction xs with
  | nil =>
    show Res.sequence ys = _
    cases Res.sequence ys <;> rfl
  | cons r rs ih =>
    show Res.sequence (r :: (rs ++ ys)) = _
    rw [Res.sequence_cons, ih, Res.sequence_cons]
    cases r with
    | ok a =>
      cases Res.sequence rs with
      | ok l => cases Res.sequence ys <;> rfl
      | throw e => rfl
      | undefined => rfl
      | outOfFuel => rfl
    | throw e => rfl
    | undefined => rfl
    | outOfFuel => rfl

theorem Res.sequence_length {α : Type} (xs : List (Res α)) (l : List α)
    (h : Res.sequence xs = .ok l) : l.length = xs.length := by
  induction xs generalizing l with
  | nil =>
    simp only [Res.sequence, Res.ok.injEq] at h
    rw [← h]
    rfl
  | cons r rs ih =>
    simp only [Res.sequence] at h
    cases r with
    | ok a =>
      simp only [Res.bind] at h
      cases hs : Res.sequence rs with
      | ok l1 =>
        simp only [hs, Res.ok.injEq] at h
        rw [← h, List.length_cons, List.length_cons, ih l1 hs]
      | throw e => simp [hs] at h
      | undefined => simp [hs] at h
      | outOfFuel => simp [hs] at h
    | throw e => simp [Res.bind] at h
    | undefined => simp [Res.bind] at h
    | outOfFuel => simp [Res.bind] at h

theorem join_rest_append (a b : List Str) : join_rest (a ++ b) = join_rest a ++ join_rest b := by
  induction a with
  | nil => rfl
  | cons l ls ih => simp [join_rest, ih]

theorem join_rest_eq_cons (a : List Str) (h : a ≠ []) : join_rest a = '\n' :: join_lines a := by
  cases a with
  | nil => exact absurd rfl h
  | cons l ls => simp [join_rest, join_lines]

theorem Node.preorder_ne_nil (T : Node) (d : Nat) : T.preorder d ≠ [] := by
  cases T with
  | mk p cs => simp [Node.preorder]

mutual
/-- The text written for a node at depth `d` is its pre-order lines joined. -/
theorem OStreamNode_layout : ∀ (T : Node) (d : Nat),
    OStreamNode T (2 * d) =
      (Res.sequence ((T.preorder d).map fun nd => nd.1.line nd.2)).map join_lines
  | .mk p cs, d => by
    have hq := OStreamNode_children_layout cs (d + 1)
    have h2 : 2 * (d + 1) = 2 * d + 2 := rfl
    rw [h2] at hq
    rw [OStreamNode, hq, Node.preorder, List.map_cons, Res.sequence_cons]
    generalize Res.sequence ((Node.preorders cs (d + 1)).map fun nd => nd.1.line nd.2) = S
    show _ = Res.map join_lines (((Node.mk p cs).line d).bind _)
    unfold Node.line
    generalize Node.toStr (.mk p cs) = B
    cases B <;> cases S <;> simp [Res.bind, Res.map, join_lines]
/-- The text written for the children of a node is their pre-order lines,
each preceded by a newline. -/
theorem OStreamNode_children_layout : ∀ (cs : List Node) (d : Nat),
    OStreamNode.children cs (2 * d) =
      (Res.sequence ((Node.preorders cs d).map fun nd => nd.1.line nd.2)).map join_rest
  | [], d => by
    simp [OStreamNode.children, Node.preorders, Res.sequence, Res.map, Res.bind, join_rest]
  | c :: cs, d => by
    have hp := OStreamNode_layout c d
    have hq := OStreamNode_children_layout cs d
    rw [OStreamNode.children, hp, hq, Node.preorders, List.map_append, Res.sequence_append]
    have hla : ∀ la, Res.sequence ((c.preorder d).map fun nd => nd.1.line nd.2) = .ok la →
        la ≠ [] := by
      intro la hs h0
      have := Res.sequence_length _ _ hs
      rw [h0, List.length_map] at this
      exact Node.preorder_ne_nil c d (List.length_eq_zero.mp this.symm)
    revert hla
    generalize Res.sequence ((c.preorder d).map fun nd => nd.1.line nd.2) = A
    generalize Res.sequence ((Node.preorders cs d).map fun nd => nd.1.line nd.2) = B
    intro hla
    cases A with
    | ok la =>
      cases B <;> simp [Res.bind, Res.map, join_rest_append, join_rest_eq_cons la (hla la rfl)]
    | throw e => rfl
    | undefined => rfl
    | outOfFuel => rfl
end

mutual
theorem Node.preorder_length : ∀ (T : Node) (d : Nat), (T.preorder d).length = T.size
  | .mk p cs, d => by
    rw [Node.preorder, Node.size, List.length_cons, Node.preorders_length cs (d + 1)]
    omega
theorem Node.preorders_length : ∀ (cs : List Node) (d : Nat),
    (Node.preorders cs d).length = Node.sizes cs
  | [], d => by rw [Node.preorders, Node.sizes]; rfl
  | c :: cs, d => by
    rw [Node.preorders, Node.sizes, List.length_append, Node.preorder_length c d,
      Node.preorders_length cs d]
end

theorem Res.sequence_mem {α : Type} (xs : List (Res α)) (l : List α)
    (h : Res.sequence xs = .ok l) : ∀ a ∈ l, .ok a ∈ xs := by
  induction xs generalizing l with
  | nil =>
    simp only [Res.sequence, Res.ok.injEq] at h
    rw [← h]
    intro a ha
    cases ha
  | cons r rs ih =>
    rw [Res.sequence_cons] at h
    cases r with
    | ok b =>
      cases hs : Res.sequence rs with
      | ok l1 =>
        simp only [hs, Res.bind, Res.ok.injEq] at h
        rw [← h]
        intro a ha
        rcases List.mem_cons.mp ha with rfl | ha
        · exact List.mem_cons_self _ _
        · exact List.mem_cons_of_mem _ (ih l1 hs a ha)
      | throw e => simp [hs, Res.bind] at h
      | undefined => simp [hs, Res.bind] at h
      | outOfFuel => simp [hs, Res.bind] at h
    | throw e => simp [Res.bind] at h
    | undefined => simp [Res.bind] at h
    | outOfFuel => simp [Res.bind] at h

theorem Res.sequence_ok {α : Type} (xs : List (Res α))
    (h : ∀ r ∈ xs, ∃ a, r = .ok a) : ∃ l, Res.sequence xs = .ok l := by
  induction xs with
  | nil => exact ⟨[], rfl⟩
  | cons r rs ih =>
    obtain ⟨a, rfl⟩ := h r (List.mem_cons_self _ _)
    obtain ⟨l, hl⟩ := ih fun r hr => h r (List.mem_cons_of_mem _ hr)
    exact ⟨a :: l, by rw [Res.sequence_cons, hl]; rfl⟩

theorem digitChar_isdigit (d : Nat) (h : d < 10) : isdigit (digitChar d) = true := by
  interval_cases d <;> decide

theorem decimal_isdigit (fuel n : Nat) : ∀ c ∈ decimal fuel n, isdigit c = true := by
  induction fuel generalizing n with
  | zero => intro c hc; simp [decimal] at hc
  | succ fuel ih =>
    intro c hc
    rw [decimal] at hc
    split at hc
    · rw [List.mem_singleton] at hc
      rw [hc]
      exact digitChar_isdigit n (by assumption)
    · rcases List.mem_append.mp hc with hc | hc
      · exact ih _ c hc
      · rw [List.mem_singleton] at hc
        rw [hc]
        exact digitChar_isdigit _ (Nat.mod_lt _ (by decide))

theorem to_string_isdigit (n : Nat) : ∀ c ∈ to_string n, isdigit c = true :=
  decimal_isdigit _ _

theorem newline_not_mem_to_string (n : Nat) : '\n' ∉ to_string n := by
  intro h
  have := to_string_isdigit n _ h
  revert this
  decide

theorem newline_not_mem_inserts_rest {α : Type} (f : α → Str) (xs : List α)
    (h : ∀ x ∈ xs, '\n' ∉ f x) : '\n' ∉ inserts_rest f xs := by
  induction xs with
  | nil => simp [inserts_rest]
  | cons x xs ih =>
    rw [inserts_rest]
    intro hm
    rcases List.mem_append.mp hm with hm | hm
    · rcases List.mem_append.mp hm with hm | hm
      · revert hm; decide
      · exact h x (List.mem_cons_self _ _) hm
    · exact ih (fun y hy => h y (List.mem_cons_of_mem _ hy)) hm

theorem newline_not_mem_inserts {α : Type} (f : α → Str) (xs : List α) (s : Str)
    (h : ∀ x ∈ xs, '\n' ∉ f x) (hs : inserts f xs = .ok s) : '\n' ∉ s := by
  cases xs with
  | nil => simp [inserts] at hs
  | cons x xs =>
    simp only [inserts, Res.ok.injEq] at hs
    rw [← hs]
    intro hm
    rcases List.mem_append.mp hm with hm | hm
    · exact h x (List.mem_cons_self _ _) hm
    · exact newline_not_mem_inserts_rest f xs (fun y hy => h y (List.mem_cons_of_mem _ hy)) hm

theorem Res.map_eq_ok {α β : Type} {f : α → β} {r : Res α} {b : β}
    (h : r.map f = .ok b) : ∃ a, r = .ok a ∧ f a = b := by
  cases r with
  | ok a => exact ⟨a, rfl, by simpa [Res.map, Res.bind] using h⟩
  | throw e => simp [Res.map, Res.bind] at h
  | undefined => simp [Res.map, Res.bind] at h
  | outOfFuel => simp [Res.map, Res.bind] at h

/-- The line body of a node whose payload strings have no newline has none. -/
theorem newline_not_mem_toStr (n : Node) (body : Str)
    (h : n.payload.newline_free = true) (hb : n.toStr = .ok body) : '\n' ∉ body := by
  cases n with
  | mk p cs =>
    cases p with
    | Scan path =>
      simp only [Node.toStr] at hb
      obtain ⟨s, hs, rfl⟩ := Res.map_eq_ok hb
      have hp : ∀ x ∈ path, '\n' ∉ (fun part : Str => part) x := by
        intro x hx
        simp only [Node.payload, Payload.newline_free, List.all_eq_true] at h
        have := h x hx
        simpa using this
      have := newline_not_mem_inserts _ path s hp hs
      intro hm
      rcases List.mem_append.mp hm with hm | hm
      · rcases List.mem_append.mp hm with hm | hm
        · revert hm; decide
        · exact this hm
      · revert hm; decide
    | Union all =>
      simp only [Node.toStr, Res.ok.injEq] at hb
      rw [← hb]
      cases all <;> decide
    | Aggregate group_indices =>
      simp only [Node.toStr] at hb
      obtain ⟨s, hs, rfl⟩ := Res.map_eq_ok hb
      have := newline_not_mem_inserts _ group_indices s
        (fun x _ => newline_not_mem_to_string x) hs
      intro hm
      rcases List.mem_append.mp hm with hm | hm
      · rcases List.mem_append.mp hm with hm | hm
        · revert hm; decide
        · exact this hm
      · revert hm; decide
    | Project pairs =>
      simp only [Node.toStr] at hb
      obtain ⟨s, hs, rfl⟩ := Res.map_eq_ok hb
      have hp : ∀ x ∈ pairs, '\n' ∉ project_item x := by
        intro x hx
        simp only [Node.payload, Payload.newline_free, List.all_eq_true] at h
        have h1 := h x hx
        intro hm
        unfold project_item at hm
        rcases List.mem_append.mp hm with hm | hm
        · rcases List.mem_append.mp hm with hm | hm
          · rcases List.mem_append.mp hm with hm | hm
            · simp [hm] at h1
            · revert hm; decide
          · exact newline_not_mem_to_string _ hm
        · revert hm; decide
      have := newline_not_mem_inserts _ pairs s hp hs
      intro hm
      rcases List.mem_append.mp hm with hm | hm
      · rcases List.mem_append.mp hm with hm | hm
        · revert hm; decide
        · exact this hm
      · revert hm; decide

theorem getLast?_append_of_getLast? {α : Type} (a b : List α) (c : α)
    (h : b.getLast? = some c) : (a ++ b).getLast? = some c := by
  rw [List.getLast?_append, h]
  rfl

/-- Every line body ends with a closing parenthesis. -/
theorem toStr_getLast (n : Node) (body : Str) (hb : n.toStr = .ok body) :
    body.getLast? = some ')' := by
  cases n with
  | mk p cs =>
    cases p with
    | Scan path =>
      simp only [Node.toStr] at hb
      obtain ⟨s, _, rfl⟩ := Res.map_eq_ok hb
      exact getLast?_append_of_getLast? _ _ _ rfl
    | Union all =>
      simp only [Node.toStr, Res.ok.injEq] at hb
      rw [← hb]
      cases all <;> rfl
    | Aggregate group_indices =>
      simp only [Node.toStr] at hb
      obtain ⟨s, _, rfl⟩ := Res.map_eq_ok hb
      exact getLast?_append_of_getLast? _ _ _ rfl
    | Project pairs =>
      simp only [Node.toStr] at hb
      obtain ⟨s, _, rfl⟩ := Res.map_eq_ok hb
      exact getLast?_append_of_getLast? _ _ _ rfl

theorem count_newline_join_rest (ls : List Str) (h : ∀ l ∈ ls, '\n' ∉ l) :
    (join_rest ls).count '\n' = ls.length := by
  induction ls with
  | nil => rfl
  | cons l ls ih =>
    rw [join_rest, List.cons_append, List.count_cons_self, List.count_append,
      List.count_eq_zero_of_not_mem (h l (List.mem_cons_self _ _)),
      ih fun x hx => h x (List.mem_cons_of_mem _ hx), List.length_cons]
    omega

theorem count_newline_join_lines (ls : List Str) (h : ∀ l ∈ ls, '\n' ∉ l) :
    (join_lines ls).count '\n' = ls.length - 1 := by
  cases ls with
  | nil => rfl
  | cons l ls =>
    rw [join_lines, List.count_append,
      List.count_eq_zero_of_not_mem (h l (List.mem_cons_self _ _)),
      count_newline_join_rest ls fun x hx => h x (List.mem_cons_of_mem _ hx), List.length_cons]
    omega

theorem getLast?_join_rest (ls : List Str) (c : Char) (hne : ls ≠ [])
    (h : ∀ l ∈ ls, l.getLast? = some c) : (join_rest ls).getLast? = some c := by
  induction ls with
  | nil => exact absurd rfl hne
  | cons l ls ih =>
    rw [join_rest]
    by_cases hls : ls = []
    · rw [hls, join_rest, List.append_nil]
      have hl := h l (List.mem_cons_self _ _)
      cases l with
      | nil => simp at hl
      | cons x xs => rw [List.getLast?_cons_cons]; exact hl
    · have := ih hls fun x hx => h x (List.mem_cons_of_mem _ hx)
      exact getLast?_append_of_getLast? ('\n' :: l) _ _ this

theorem getLast?_join_lines (ls : List Str) (c : Char) (hne : ls ≠ [])
    (h : ∀ l ∈ ls, l.getLast? = some c) : (join_lines ls).getLast? = some c := by
  cases ls with
  | nil => exact absurd rfl hne
  | cons l ls =>
    rw [join_lines]
    by_cases hls : ls = []
    · rw [hls, join_rest, List.append_nil]
      exact h l (List.mem_cons_self _ _)
    · exact getLast?_append_of_getLast? l _ _
        (getLast?_join_rest ls c hls fun x hx => h x (List.mem_cons_of_mem _ hx))

theorem Node.line_newline_free (n : Node) (d : Nat) (l : Str)
    (h : n.payload.newline_free = true) (hl : n.line d = .ok l) : '\n' ∉ l := by
  obtain ⟨body, hb, rfl⟩ := Res.map_eq_ok hl
  intro hm
  rcases List.mem_append.mp hm with hm | hm
  · have := (List.mem_replicate.mp hm).2
    revert this
    decide
  · exact newline_not_mem_toStr n body h hb hm

theorem Node.line_getLast (n : Node) (d : Nat) (l : Str) (hl : n.line d = .ok l) :
    l.getLast? = some ')' := by
  obtain ⟨body, hb, rfl⟩ := Res.map_eq_ok hl
  exact getLast?_append_of_getLast? _ _ _ (toStr_getLast n body hb)

theorem Node.toStr_ok (n : Node) (h : n.payload.nonempty = true) : ∃ body, n.toStr = .ok body := by
  cases n with
  | mk p cs =>
    cases p with
    | Scan path =>
      cases path with
      | nil => simp [Node.payload, Payload.nonempty] at h
      | cons x xs => exact ⟨_, rfl⟩
    | Union all => exact ⟨_, rfl⟩
    | Aggregate group_indices =>
      cases group_indices with
      | nil => simp [Node.payload, Payload.nonempty] at h
      | cons x xs => exact ⟨_, rfl⟩
    | Project pairs =>
      cases pairs with
      | nil => simp [Node.payload, Payload.nonempty] at h
      | cons x xs => exact ⟨_, rfl⟩

/-- The printed text is the pre-order lines of the tree joined by newlines. -/
theorem print_eq_lines (T : Node) : print T = T.lines.map join_lines :=
  OStreamNode_layout T 0

/-- For every tree whose payload strings contain no newline, the printer
writes one line per node in pre-order, the line of a node at depth `d` being
`2 * d` spaces followed by the line body of that node (`Node.lines`), joined by
single newlines with none after the last line (`join_lines`). So whenever a
text is printed it has as many lines as the tree has nodes, `|T| - 1` newline
characters, and it ends with the closing parenthesis of its last line; and a
text is printed whenever no payload sequence of the tree is empty. -/
theorem print_layout (T : Node) (h : T.newline_free = true) :
    print T = T.lines.map join_lines ∧
    (∀ text, print T = .ok text →
      (∃ ls, T.lines = .ok ls ∧ ls.length = T.size ∧ text = join_lines ls) ∧
      text.count '\n' = T.size - 1 ∧ text.getLast? = some ')') ∧
    ((∀ nd ∈ T.preorder 0, nd.1.payload.nonempty = true) → ∃ text, print T = .ok text) := by
  refine ⟨print_eq_lines T, ?_, ?_⟩
  · intro text ht
    rw [print_eq_lines] at ht
    obtain ⟨ls, hls, rfl⟩ := Res.map_eq_ok ht
    have hlen : ls.length = T.size := by
      have := Res.sequence_length _ _ hls
      rw [this, List.length_map, Node.preorder_length]
    have hmem : ∀ l ∈ ls, ∃ nd ∈ T.preorder 0, nd.1.line nd.2 = .ok l := by
      intro l hl
      have := Res.sequence_mem _ _ hls l hl
      obtain ⟨nd, hnd, he⟩ := List.mem_map.mp this
      exact ⟨nd, hnd, he⟩
    have hnl : ∀ l ∈ ls, '\n' ∉ l := by
      intro l hl
      obtain ⟨nd, hnd, he⟩ := hmem l hl
      have hp : nd.1.payload.newline_free = true := by
        unfold Node.newline_free at h
        exact List.all_eq_true.mp h nd hnd
      exact Node.line_newline_free nd.1 nd.2 l hp he
    have hlast : ∀ l ∈ ls, l.getLast? = some ')' := by
      intro l hl
      obtain ⟨nd, _, he⟩ := hmem l hl
      exact Node.line_getLast nd.1 nd.2 l he
    have hne : ls ≠ [] := by
      intro h0
      rw [h0] at hlen
      cases T with
      | mk p cs => simp [Node.size] at hlen; omega
    refine ⟨⟨ls, hls, hlen, rfl⟩, ?_, getLast?_join_lines ls _ hne hlast⟩
    rw [count_newline_join_lines ls hnl, hlen]
  · intro hne
    have : ∀ r ∈ (T.preorder 0).map (fun nd => nd.1.line nd.2), ∃ a, r = .ok a := by
      intro r hr
      obtain ⟨nd, hnd, rfl⟩ := List.mem_map.mp hr
      obtain ⟨body, hb⟩ := Node.toStr_ok nd.1 (hne nd hnd)
      exact ⟨_, by rw [Node.line, hb]; rfl⟩
    obtain ⟨ls, hls⟩ := Res.sequence_ok _ this
    exact ⟨join_lines ls, by rw [print_eq_lines, Node.lines, hls]; rfl⟩

/-- The test `FormattedNodeTest.OutputTree`, an instance of `print_layout`: the
six-node tree prints as the expected text, with five newlines. -/
theorem print_layout_output_tree :
    output_tree.newline_free = true ∧ print output_tree = .ok output_text ∧
    output_text.count '\n' = output_tree.size - 1 ∧ output_text.getLast? = some ')' :=
  ⟨by decide, rfl,
    ((print_layout output_tree (by decide)).2.1 output_text rfl).2⟩

/-! ## Lines, kinds and validators -/

theorem getline_snd (text str : Str) :
    (getline (istringstream text) str).2 = text.takeWhile (fun c => c ≠ '\n') := by
  unfold getline istringstream
  simp only [Bool.or_self, Bool.false_eq_true, if_false]
  split <;> rfl

/-- A string the line pattern does not match makes `MakeNode` throw the
runtime error `Bad format: '<line>'`, carrying the line unchanged, and no node
is built; and `parse` throws that error, whatever the fuel, on every input
whose first line is that string. -/
theorem malformed_line (line : Str) (h : regex_match line_re 5 line = none) :
    MakeNode line = .throw (.runtime_error (lit "Bad format: '" ++ line ++ lit "'")) ∧
    ∀ (fuel : Nat) (text : Str), text.takeWhile (fun c => c ≠ '\n') = line →
      parse_text fuel text =
        .throw (.runtime_error (lit "Bad format: '" ++ line ++ lit "'")) := by
  have hm : MakeNode line =
      .throw (.runtime_error (lit "Bad format: '" ++ line ++ lit "'")) := by
    unfold MakeNode line_arguments
    rw [h]
    rfl
  refine ⟨hm, ?_⟩
  intro fuel text ht
  simp only [parse_text, parse, StreamParser.new, getline_snd, ht, hm, Res.bind]

/-- The empty string is malformed: an instance of `malformed_line`. -/
theorem malformed_line_empty :
    regex_match line_re 5 [] = none ∧
    MakeNode [] = .throw (.runtime_error (lit "Bad format: ''")) ∧
    parse_text 0 (lit "\nScan(table=[[A]])\n") =
      .throw (.runtime_error (lit "Bad format: ''")) :=
  ⟨rfl, (malformed_line [] rfl).1, (malformed_line [] rfl).2 0 _ rfl⟩

theorem Res.bind_ok {α β : Type} (a : α) (f : α → Res β) : (Res.ok a).bind f = f a := rfl

theorem ne_of_take_ne (n : Nat) (s t : Str) (h : s.take n ≠ t.take n) : s ≠ t :=
  fun he => h (by rw [he])

theorem Res.bind_eq_ok {α β : Type} {r : Res α} {f : α → Res β} {b : β}
    (h : r.bind f = .ok b) : ∃ a, r = .ok a ∧ f a = .ok b := by
  cases r with
  | ok a => exact ⟨a, rfl, h⟩
  | throw e => simp [Res.bind] at h
  | undefined => simp [Res.bind] at h
  | outOfFuel => simp [Res.bind] at h

theorem stoul_not_runtime_error (s : Str) (w : Str) : stoul s ≠ .throw (.runtime_error w) := by
  unfold stoul
  split
  · simp
  · split <;> simp

theorem substr1_not_runtime_error (s : Str) (w : Str) :
    substr1 s ≠ .throw (.runtime_error w) := by
  cases s <;> simp [substr1]

theorem aggregate_convert_not_runtime_error (parts : List Str) (w : Str) :
    AggregatePropertiesBuilder.convert parts ≠ .throw (.runtime_error w) := by
  induction parts with
  | nil => simp [AggregatePropertiesBuilder.convert]
  | cons part rest ih =>
    rw [AggregatePropertiesBuilder.convert]
    have h1 := stoul_not_runtime_error part w
    revert h1 ih
    generalize stoul part = A
    generalize AggregatePropertiesBuilder.convert rest = B
    intro ih h1
    cases A <;> cases B <;> simp_all [Res.bind]

theorem project_convert_not_runtime_error (ps : Properties) (w : Str) :
    ProjectPropertiesBuilder.convert ps ≠ .throw (.runtime_error w) := by
  induction ps with
  | nil => simp [ProjectPropertiesBuilder.convert]
  | cons p rest ih =>
    rw [ProjectPropertiesBuilder.convert]
    have h0 := substr1_not_runtime_error p.2 w
    revert h0
    generalize substr1 p.2 = S
    intro h0
    cases S with
    | ok tail =>
      rw [Res.bind_ok]
      have h1 := stoul_not_runtime_error tail w
      revert h1 ih
      generalize stoul tail = A
      generalize ProjectPropertiesBuilder.convert rest = B
      intro ih h1
      cases A <;> cases B <;> simp_all [Res.bind]
    | throw e => simpa [Res.bind] using h0
    | undefined => simp [Res.bind]
    | outOfFuel => simp [Res.bind]

/-- What a validator returns is a node of its own kind without children, and
no validator throws the error of the dispatch. -/
theorem PropertiesBuilder.Build_spec (b : PropertiesBuilder) :
    (∀ node, b.Build = .ok node →
      node.children = [] ∧
      node.id = (match b with
        | .Aggregate _ => .AGGREGATE
        | .Union _ => .UNION
        | .Project _ => .PROJECT
        | .Scan _ => .SCAN)) ∧
    b.Build ≠ .throw (.runtime_error (lit "Unreachable MakePropertiesBuilder")) := by
  cases b with
  | Aggregate ps =>
    simp only [PropertiesBuilder.Build, AggregatePropertiesBuilder.Build]
    split
    · rename_i property
      split
      · refine ⟨fun node h => by simp at h, ?_⟩
        simp only [ne_eq, Res.throw.injEq, Error.runtime_error.injEq]
        exact ne_of_take_ne 1 _ _ (by simp [lit])
      · have h1 := aggregate_convert_not_runtime_error
          (parts_of (property.2.drop 1)) (lit "Unreachable MakePropertiesBuilder")
        revert h1
        generalize AggregatePropertiesBuilder.convert (parts_of (property.2.drop 1)) = C
        intro h1
        cases C <;> simp_all [Res.bind, Node.children, Node.id]
    · refine ⟨fun node h => by simp at h, ?_⟩
      simp only [ne_eq, Res.throw.injEq, Error.runtime_error.injEq]
      exact ne_of_take_ne 1 _ _ (by simp [lit])
  | Union ps =>
    simp only [PropertiesBuilder.Build, UnionPropertiesBuilder.Build]
    split
    · split
      · refine ⟨fun node h => by simp at h, ?_⟩
        simp only [ne_eq, Res.throw.injEq, Error.runtime_error.injEq]
        exact ne_of_take_ne 3 _ _ (by simp [lit])
      · split
        · simp [Node.children, Node.id]
        · split
          · simp [Node.children, Node.id]
          · refine ⟨fun node h => by simp at h, ?_⟩
            simp only [ne_eq, Res.throw.injEq, Error.runtime_error.injEq]
            exact ne_of_take_ne 3 _ _ (by simp [lit])
    · refine ⟨fun node h => by simp at h, ?_⟩
      simp only [ne_eq, Res.throw.injEq, Error.runtime_error.injEq]
      exact ne_of_take_ne 1 _ _ (by simp [lit])
  | Project ps =>
    simp only [PropertiesBuilder.Build, ProjectPropertiesBuilder.Build]
    split
    · refine ⟨fun node h => by simp at h, ?_⟩
      simp only [ne_eq, Res.throw.injEq, Error.runtime_error.injEq]
      exact ne_of_take_ne 1 _ _ (by simp [lit])
    · have h1 := project_convert_not_runtime_error ps
        (lit "Unreachable MakePropertiesBuilder")
      revert h1
      generalize ProjectPropertiesBuilder.convert ps = C
      intro h1
      cases C <;> simp_all [Res.bind, Node.children, Node.id]
  | Scan ps =>
    simp only [PropertiesBuilder.Build, ScanPropertiesBuilder.Build]
    split
    · split
      · refine ⟨fun node h => by simp at h, ?_⟩
        simp only [ne_eq, Res.throw.injEq, Error.runtime_error.injEq]
        exact ne_of_take_ne 1 _ _ (by simp [lit])
      · simp [Node.children, Node.id]
    · refine ⟨fun node h => by simp at h, ?_⟩
      simp only [ne_eq, Res.throw.injEq, Error.runtime_error.injEq]
      exact ne_of_take_ne 1 _ _ (by simp [lit])

/-- C7: on a property list whose length is not 1 the Union, Scan and Aggregate
validators throw, whatever the keys and values are; the Project validator
throws on the empty list. The message of each error is the one shown. -/
theorem arity_enforcement (ps : Properties) (h : ps.length ≠ 1) :
    UnionPropertiesBuilder.Build ps =
      .throw (.runtime_error (lit "Bad union properties with size = " ++ to_string ps.length)) ∧
    ScanPropertiesBuilder.Build ps =
      .throw (.runtime_error
        (lit "Bad scan properties builder size = " ++ to_string ps.length)) ∧
    AggregatePropertiesBuilder.Build ps =
      .throw (.runtime_error (lit "Bad union properties with size = " ++ to_string ps.length)) ∧
    ProjectPropertiesBuilder.Build [] =
      .throw (.runtime_error (lit "Bad project properties builder size = 0")) := by
  cases ps with
  | nil => exact ⟨rfl, rfl, rfl, rfl⟩
  | cons p rest =>
    cases rest with
    | nil => exact absurd rfl h
    | cons q rest => exact ⟨rfl, rfl, rfl, rfl⟩

/-- Instances of `arity_enforcement`: two properties that would each be valid
alone. -/
theorem arity_enforcement_two_properties :
    UnionPropertiesBuilder.Build [(lit "all", lit "true"), (lit "all", lit "true")] =
      .throw (.runtime_error (lit "Bad union properties with size = 2")) ∧
    ScanPropertiesBuilder.Build [(lit "all", lit "true"), (lit "all", lit "true")] =
      .throw (.runtime_error (lit "Bad scan properties builder size = 2")) ∧
    AggregatePropertiesBuilder.Build [(lit "all", lit "true"), (lit "all", lit "true")] =
      .throw (.runtime_error (lit "Bad union properties with size = 2")) ∧
    ProjectPropertiesBuilder.Build [] =
      .throw (.runtime_error (lit "Bad project properties builder size = 0")) :=
  arity_enforcement [(lit "all", lit "true"), (lit "all", lit "true")] (by decide)

/-- C8: the Union validator returns a node exactly on a list of one property
whose key is `all` and whose value is `true` or `false`; the node it returns is
a Union node without children whose flag is true exactly when the value is
`true`. -/
theorem union_validator (ps : Properties) :
    ((∃ node, UnionPropertiesBuilder.Build ps = .ok node) ↔
      ∃ v, ps = [(lit "all", v)] ∧ (v = lit "true" ∨ v = lit "false")) ∧
    (∀ node, UnionPropertiesBuilder.Build ps = .ok node →
      ∃ v, ps = [(lit "all", v)] ∧ node = .mk (.Union (decide (v = lit "true"))) [] ∧
        node.id = .UNION ∧ node.children = []) := by
  have key : ∀ node, UnionPropertiesBuilder.Build ps = .ok node →
      ∃ v, ps = [(lit "all", v)] ∧ (v = lit "true" ∨ v = lit "false") ∧
        node = .mk (.Union (decide (v = lit "true"))) [] := by
    intro node hn
    unfold UnionPropertiesBuilder.Build at hn
    split at hn
    · rename_i property
      obtain ⟨k, v⟩ := property
      simp only [ne_eq] at hn
      split at hn
      · simp at hn
      · rename_i hk
        have hk : k = lit "all" := by simpa using hk
        subst hk
        split at hn
        · rename_i hv
          refine ⟨v, rfl, Or.inl hv, ?_⟩
          simp only [Res.ok.injEq] at hn
          rw [← hn]
          simp [hv, lit]
        · split at hn
          · rename_i hv1 hv
            refine ⟨v, rfl, Or.inr hv, ?_⟩
            simp only [Res.ok.injEq] at hn
            rw [← hn]
            simp [hv, lit]
          · simp at hn
    · simp at hn
  refine ⟨⟨fun ⟨node, hn⟩ => ?_, ?_⟩, fun node hn => ?_⟩
  · obtain ⟨v, h1, h2, _⟩ := key node hn
    exact ⟨v, h1, h2⟩
  · rintro ⟨v, rfl, rfl | rfl⟩
    · exact ⟨_, rfl⟩
    · exact ⟨_, rfl⟩
  · obtain ⟨v, h1, _, h3⟩ := key node hn
    exact ⟨v, h1, h3, by rw [h3]; rfl, by rw [h3]; rfl⟩

/-! ## What the validators accept -/

theorem stoul_throw_iff (s : Str) :
    (∃ e, stoul s = .throw e) ↔
      leading_digits s = [] ∨ 2 ^ 64 ≤ digits_value (leading_digits s) := by
  unfold stoul
  by_cases h1 : leading_digits s = []
  · simp [h1]
  · by_cases h2 : digits_value (leading_digits s) < 2 ^ 64
    · simp only [h1, h2, if_false, if_true, false_or]
      constructor
      · rintro ⟨e, he⟩
        exact Res.noConfusion he
      · intro h
        omega
    · simp only [h1, h2, if_false, false_or]
      exact ⟨fun _ => by omega, fun _ => ⟨_, rfl⟩⟩

theorem stoul_ok_or_throw (s : Str) : (∃ v, stoul s = .ok v) ∨ ∃ e, stoul s = .throw e := by
  unfold stoul
  split
  · exact Or.inr ⟨_, rfl⟩
  · split
    · exact Or.inl ⟨_, rfl⟩
    · exact Or.inr ⟨_, rfl⟩

theorem aggregate_convert_ok_or_throw (parts : List Str) :
    (∃ vs, AggregatePropertiesBuilder.convert parts = .ok vs) ∨
    ∃ e, AggregatePropertiesBuilder.convert parts = .throw e := by
  induction parts with
  | nil => exact Or.inl ⟨_, rfl⟩
  | cons part rest ih =>
    rw [AggregatePropertiesBuilder.convert]
    rcases stoul_ok_or_throw part with ⟨v, hv⟩ | ⟨e, he⟩
    · rw [hv, Res.bind_ok]
      rcases ih with ⟨vs, hvs⟩ | ⟨e, he⟩
      · rw [hvs]; exact Or.inl ⟨_, rfl⟩
      · rw [he]; exact Or.inr ⟨_, rfl⟩
    · rw [he]; exact Or.inr ⟨_, rfl⟩

theorem aggregate_convert_throw_iff (parts : List Str) :
    (∃ e, AggregatePropertiesBuilder.convert parts = .throw e) ↔
      ∃ part ∈ parts, ∃ e, stoul part = .throw e := by
  induction parts with
  | nil =>
    simp only [AggregatePropertiesBuilder.convert, List.not_mem_nil, false_and, exists_false,
      iff_false]
    rintro ⟨e, he⟩
    exact Res.noConfusion he
  | cons part rest ih =>
    rw [AggregatePropertiesBuilder.convert]
    rcases stoul_ok_or_throw part with ⟨v, hv⟩ | ⟨e, he⟩
    · rw [hv, Res.bind_ok]
      constructor
      · rintro ⟨e, he⟩
        rcases aggregate_convert_ok_or_throw rest with ⟨vs, hvs⟩ | ⟨e1, he1⟩
        · rw [hvs] at he
          exact Res.noConfusion he
        · obtain ⟨q, hq, hq2⟩ := ih.mp ⟨e1, he1⟩
          exact ⟨q, List.mem_cons_of_mem _ hq, hq2⟩
      · rintro ⟨q, hq, e, hq2⟩
        rcases List.mem_cons.mp hq with rfl | hq
        · rw [hv] at hq2
          exact Res.noConfusion hq2
        · obtain ⟨e1, he1⟩ := ih.mpr ⟨q, hq, e, hq2⟩
          rw [he1]
          exact ⟨_, rfl⟩
    · rw [he]
      exact ⟨fun _ => ⟨part, List.mem_cons_self _ _, e, he⟩, fun _ => ⟨e, rfl⟩⟩

theorem project_convert_ok_or_throw (ps : Properties) :
    (∃ vs, ProjectPropertiesBuilder.convert ps = .ok vs) ∨
    ∃ e, ProjectPropertiesBuilder.convert ps = .throw e := by
  induction ps with
  | nil => exact Or.inl ⟨_, rfl⟩
  | cons p rest ih =>
    rw [ProjectPropertiesBuilder.convert]
    cases hp : p.2 with
    | nil => exact Or.inr ⟨_, rfl⟩
    | cons c tail =>
      rw [substr1, Res.bind_ok]
      rcases stoul_ok_or_throw tail with ⟨v, hv⟩ | ⟨e, he⟩
      · rw [hv, Res.bind_ok]
        rcases ih with ⟨vs, hvs⟩ | ⟨e, he⟩
        · rw [hvs]; exact Or.inl ⟨_, rfl⟩
        · rw [he]; exact Or.inr ⟨_, rfl⟩
      · rw [he]; exact Or.inr ⟨_, rfl⟩

theorem project_convert_throw_iff (ps : Properties) :
    (∃ e, ProjectPropertiesBuilder.convert ps = .throw e) ↔
      ∃ p ∈ ps, p.2 = [] ∨ ∃ e, stoul (p.2.drop 1) = .throw e := by
  induction ps with
  | nil =>
    simp only [ProjectPropertiesBuilder.convert, List.not_mem_nil, false_and, exists_false,
      iff_false]
    rintro ⟨e, he⟩
    exact Res.noConfusion he
  | cons p rest ih =>
    rw [ProjectPropertiesBuilder.convert]
    cases hp : p.2 with
    | nil =>
      exact ⟨fun _ => ⟨p, List.mem_cons_self _ _, Or.inl hp⟩, fun _ => ⟨_, rfl⟩⟩
    | cons c tail =>
      rw [substr1, Res.bind_ok]
      rcases stoul_ok_or_throw tail with ⟨v, hv⟩ | ⟨e, he⟩
      · rw [hv, Res.bind_ok]
        constructor
        · rintro ⟨e, he⟩
          rcases project_convert_ok_or_throw rest with ⟨vs, hvs⟩ | ⟨e1, he1⟩
          · rw [hvs] at he
            exact Res.noConfusion he
          · obtain ⟨q, hq, hq2⟩ := ih.mp ⟨e1, he1⟩
            exact ⟨q, List.mem_cons_of_mem _ hq, hq2⟩
        · rintro ⟨q, hq, hq2⟩
          rcases List.mem_cons.mp hq with rfl | hq
          · rcases hq2 with hq2 | ⟨e, hq2⟩
            · rw [hp] at hq2
              exact List.noConfusion hq2
            · rw [hp, List.drop_one, List.tail_cons, hv] at hq2
              exact Res.noConfusion hq2
          · obtain ⟨e1, he1⟩ := ih.mpr ⟨q, hq, hq2⟩
            rw [he1]
            exact ⟨_, rfl⟩
      · rw [he]
        refine ⟨fun _ => ⟨p, List.mem_cons_self _ _, Or.inr ⟨e, ?_⟩⟩, fun _ => ⟨e, rfl⟩⟩
        rw [hp, List.drop_one, List.tail_cons, he]

/-- C9, as stated, fails on the code: the Aggregate validator returns a node on
the group values `{1x, 2}` and `$5`, and the Project validator returns a node
on the values `$1x`, `x5` and `{5}`. -/
theorem aggregate_project_accept_malformed_values :
    AggregatePropertiesBuilder.Build [(lit "group", lit "\x7b1x, 2\x7d")] =
      .ok (.mk (.Aggregate [1, 2]) []) ∧
    AggregatePropertiesBuilder.Build [(lit "group", lit "$5")] =
      .ok (.mk (.Aggregate [5]) []) ∧
    ProjectPropertiesBuilder.Build [(lit "a", lit "$1x")] =
      .ok (.mk (.Project [(lit "a", 1)]) []) ∧
    ProjectPropertiesBuilder.Build [(lit "a", lit "x5")] =
      .ok (.mk (.Project [(lit "a", 5)]) []) ∧
    ProjectPropertiesBuilder.Build [(lit "a", lit "\x7b5\x7d")] =
      .ok (.mk (.Project [(lit "a", 5)]) []) :=
  ⟨rfl, rfl, rfl, rfl, rfl⟩

/-- C9, amended: the Aggregate validator, given its single `group` property,
throws exactly when some part of the value after its first character (the
parts being what the separators `,`, `]`, the closing brace and white space
leave) has no decimal digit right after its optional sign, or has leading
digits denoting `2 ^ 64` or more. The Project validator throws exactly when the
list is empty or some value is empty, or has, after its first character,
optional white space and an optional sign, no decimal digit, or leading digits
denoting `2 ^ 64` or more. Neither looks at the first character of a value nor
at what follows the leading digits. -/
theorem aggregate_project_value_check (v : Str) (ps : Properties) :
    ((∃ e, AggregatePropertiesBuilder.Build [(lit "group", v)] = .throw e) ↔
      ∃ part ∈ parts_of (v.drop 1),
        leading_digits part = [] ∨ 2 ^ 64 ≤ digits_value (leading_digits part)) ∧
    ((∃ e, ProjectPropertiesBuilder.Build ps = .throw e) ↔
      ps = [] ∨ ∃ p ∈ ps, p.2 = [] ∨ leading_digits (p.2.drop 1) = [] ∨
        2 ^ 64 ≤ digits_value (leading_digits (p.2.drop 1))) := by
  constructor
  · have h0 : AggregatePropertiesBuilder.Build [(lit "group", v)] =
        (AggregatePropertiesBuilder.convert (parts_of (v.drop 1))).bind fun parts =>
          .ok (.mk (.Aggregate parts) []) := by
      simp [AggregatePropertiesBuilder.Build, lit]
    rw [h0]
    have h1 := aggregate_convert_throw_iff (parts_of (v.drop 1))
    simp only [stoul_throw_iff] at h1
    rw [← h1]
    rcases aggregate_convert_ok_or_throw (parts_of (v.drop 1)) with
      ⟨vs, hvs⟩ | ⟨e, he⟩
    · rw [hvs, Res.bind_ok]
      exact ⟨fun ⟨e, he⟩ => Res.noConfusion he, fun ⟨e, he⟩ => Res.noConfusion he⟩
    · rw [he]
      exact ⟨fun _ => ⟨e, rfl⟩, fun _ => ⟨e, rfl⟩⟩
  · cases ps with
    | nil =>
      simp only [true_or, iff_true]
      exact ⟨_, rfl⟩
    | cons p rest =>
      have h0 : ProjectPropertiesBuilder.Build (p :: rest) =
          (ProjectPropertiesBuilder.convert (p :: rest)).bind fun pairs =>
            .ok (.mk (.Project pairs) []) := rfl
      rw [h0]
      have h1 := project_convert_throw_iff (p :: rest)
      simp only [stoul_throw_iff] at h1
      simp only [List.cons_ne_nil, false_or]
      rw [← h1]
      rcases project_convert_ok_or_throw (p :: rest) with ⟨vs, hvs⟩ | ⟨e, he⟩
      · rw [hvs, Res.bind_ok]
        exact ⟨fun ⟨e, he⟩ => Res.noConfusion he, fun ⟨e, he⟩ => Res.noConfusion he⟩
      · rw [he]
        exact ⟨fun _ => ⟨e, rfl⟩, fun _ => ⟨e, rfl⟩⟩

/-- C10, as stated, fails on the code: the Scan validator returns a node on the
table values `true`, `$5` and `{1, 2}`, and so does `MakeNode` on the lines
that carry them. -/
theorem scan_accepts_malformed_values :
    ScanPropertiesBuilder.Build [(lit "table", lit "true")] =
      .ok (.mk (.Scan [lit "rue"]) []) ∧
    ScanPropertiesBuilder.Build [(lit "table", lit "$5")] =
      .ok (.mk (.Scan [lit "5"]) []) ∧
    ScanPropertiesBuilder.Build [(lit "table", lit "\x7b1, 2\x7d")] =
      .ok (.mk (.Scan [lit "1", lit "2"]) []) ∧
    MakeNode (lit "Scan(table=[true])") = .ok (.mk (.Scan [lit "rue"]) []) ∧
    MakeNode (lit "Scan(table=[$5])") = .ok (.mk (.Scan [lit "5"]) []) ∧
    MakeNode (lit "Scan(table=[\x7b1, 2\x7d])") = .ok (.mk (.Scan [lit "1", lit "2"]) []) :=
  ⟨rfl, rfl, rfl, rfl, rfl, rfl⟩

/-- C10, amended: the Scan validator does not examine its value. It throws
exactly when its property list is not a single property with the key `table`;
on such a property, whatever the value, it returns a Scan node without children
whose path is the parts of the value after its first character. -/
theorem scan_validator (ps : Properties) (v : Str) :
    ((∃ e, ScanPropertiesBuilder.Build ps = .throw e) ↔ ¬ ∃ w, ps = [(lit "table", w)]) ∧
    ScanPropertiesBuilder.Build [(lit "table", v)] =
      .ok (.mk (.Scan (parts_of (v.drop 1))) []) := by
  have h2 : ∀ w, ScanPropertiesBuilder.Build [(lit "table", w)] =
      .ok (.mk (.Scan (parts_of (w.drop 1))) []) := by
    intro w
    simp [ScanPropertiesBuilder.Build, lit]
  refine ⟨⟨?_, ?_⟩, h2 v⟩
  · rintro ⟨e, he⟩ ⟨w, rfl⟩
    rw [h2] at he
    exact Res.noConfusion he
  · intro h
    unfold ScanPropertiesBuilder.Build
    split
    · rename_i property
      obtain ⟨k, w⟩ := property
      split
      · exact ⟨_, rfl⟩
      · rename_i hk
        have hk : k = lit "table" := by simpa [lit] using hk
        exact absurd ⟨w, by rw [hk]⟩ h
    · exact ⟨_, rfl⟩

/-! ## Decimal numbers -/

theorem digitChar_eq_core (d : Nat) (h : d < 10) : Nat.digitChar d = digitChar d := by
  interval_cases d <;> rfl

theorem digitChar_toNat (d : Nat) (h : d < 10) : (digitChar d).toNat = 48 + d := by
  interval_cases d <;> rfl

theorem toDigitsCore_eq_decimal (fuel : Nat) : ∀ (n : Nat) (ds : Str), n < fuel →
    Nat.toDigitsCore 10 fuel n ds = decimal fuel n ++ ds := by
  induction fuel with
  | zero => intro n ds h; omega
  | succ fuel ih =>
    intro n ds h
    rw [Nat.toDigitsCore, decimal]
    by_cases h10 : n < 10
    · have h0 : n / 10 = 0 := by omega
      have h1 : n % 10 = n := by omega
      simp only [h0, h1, h10, if_true, digitChar_eq_core n h10]
      rfl
    · have h0 : n / 10 ≠ 0 := by omega
      simp only [h0, h10, if_false]
      rw [ih (n / 10) _ (by omega), digitChar_eq_core _ (Nat.mod_lt _ (by decide)),
        List.append_assoc]
      rfl

/-- The text `to_string` writes is the standard decimal text. -/
theorem to_string_eq_decimal_text (n : Nat) : to_string n = decimal_text n := by
  unfold to_string decimal_text Nat.repr Nat.toDigits
  rw [toDigitsCore_eq_decimal (n + 1) n [] (by omega), List.append_nil]
  rfl

theorem digits_value_foldl (ds : Str) (acc : Nat) :
    ds.foldl (fun acc c => 10 * acc + (c.toNat - 48)) acc =
      acc * 10 ^ ds.length + decimal_value ds := by
  induction ds generalizing acc with
  | nil => simp [decimal_value]
  | cons c cs ih =>
    rw [List.foldl_cons, ih, decimal_value, List.length_cons, pow_succ]
    ring

/-- The value `strtoul` accumulates is the number the digits denote. -/
theorem digits_value_eq (ds : Str) : digits_value ds = decimal_value ds := by
  unfold digits_value
  rw [digits_value_foldl]
  simp

theorem decimal_value_append_singleton (ds : Str) (c : Char) :
    decimal_value (ds ++ [c]) = 10 * decimal_value ds + (c.toNat - 48) := by
  induction ds with
  | nil => simp [decimal_value]
  | cons x xs ih =>
    rw [List.cons_append, decimal_value, ih, decimal_value, List.length_append,
      List.length_singleton, pow_succ]
    ring

theorem decimal_value_decimal (fuel : Nat) : ∀ n, n < fuel →
    decimal_value (decimal fuel n) = n := by
  induction fuel with
  | zero => intro n h; omega
  | succ fuel ih =>
    intro n h
    rw [decimal]
    by_cases h10 : n < 10
    · simp only [h10, if_true, decimal_value, List.length_nil, pow_zero, digitChar_toNat n h10]
      omega
    · simp only [h10, if_false]
      rw [decimal_value_append_singleton, ih _ (by omega),
        digitChar_toNat _ (Nat.mod_lt _ (by decide))]
      omega

/-- The decimal text of a number denotes that number. -/
theorem decimal_value_to_string (n : Nat) : decimal_value (to_string n) = n :=
  decimal_value_decimal (n + 1) n (by omega)

theorem to_string_ne_nil (n : Nat) : to_string n ≠ [] := by
  unfold to_string
  rw [decimal]
  split
  · simp
  · simp

theorem isdigit_not_isspace (c : Char) (h : isdigit c = true) : isspace c = false := by
  unfold isdigit at h
  unfold isspace
  simp only [Bool.and_eq_true, decide_eq_true_eq] at h
  simp only [Bool.or_eq_false_iff, decide_eq_false_iff_not, Bool.and_eq_false_iff]
  omega

theorem takeWhile_eq_self {α : Type} (p : α → Bool) (l : List α) (h : ∀ x ∈ l, p x = true) :
    l.takeWhile p = l := by
  induction l with
  | nil => rfl
  | cons x xs ih =>
    rw [List.takeWhile_cons, h x (List.mem_cons_self _ _)]
    simp only [if_true]
    rw [ih fun y hy => h y (List.mem_cons_of_mem _ hy)]

/-- On a non-empty string of decimal digits `std::stoul` returns the number
the digits denote, when that number fits 64 bits. -/
theorem stoul_digits (ds : Str) (hne : ds ≠ []) (hd : ∀ c ∈ ds, isdigit c = true)
    (hv : decimal_value ds < 2 ^ 64) : stoul ds = .ok (decimal_value ds) := by
  cases ds with
  | nil => exact absurd rfl hne
  | cons c cs =>
    have hc := hd c (List.mem_cons_self _ _)
    have hsp : skip_space (c :: cs) = c :: cs := by
      unfold skip_space
      rw [List.dropWhile_cons, isdigit_not_isspace c hc]
      rfl
    have hm : c ≠ '-' := by
      intro h0
      rw [h0] at hc
      revert hc
      decide
    have hp : c ≠ '+' := by
      intro h0
      rw [h0] at hc
      revert hc
      decide
    have hsg : skip_sign (c :: cs) = c :: cs := by
      unfold skip_sign
      split
      · rename_i h0; exact absurd (List.cons.inj h0).1 hm
      · rename_i h0; exact absurd (List.cons.inj h0).1 hp
      · rfl
    have hmin : has_minus (c :: cs) = false := by
      unfold has_minus
      split
      · rename_i h0; exact absurd (List.cons.inj h0).1 hm
      · rfl
    have hl : leading_digits (c :: cs) = c :: cs := by
      unfold leading_digits
      rw [hsp, hsg, takeWhile_eq_self _ _ hd]
    unfold stoul
    rw [hl, hsp, hmin, digits_value_eq, if_neg (List.cons_ne_nil _ _), if_pos hv]
    rfl

/-- On the decimal text of a number below `2 ^ 64`, `std::stoul` returns the
number. -/
theorem stoul_to_string (n : Nat) (h : n < 2 ^ 64) : stoul (to_string n) = .ok n := by
  have := stoul_digits (to_string n) (to_string_ne_nil n) (to_string_isdigit n)
    (by rw [decimal_value_to_string]; exact h)
  rw [this, decimal_value_to_string]

/-! ## Decoding of property values -/

theorem project_convert_digits (ps : List (Str × Str))
    (hd : ∀ p ∈ ps, p.2 ≠ [] ∧ (∀ c ∈ p.2, isdigit c = true) ∧ decimal_value p.2 < 2 ^ 64) :
    ProjectPropertiesBuilder.convert (ps.map fun p => (p.1, '$' :: p.2)) =
      .ok (ps.map fun p => (p.1, decimal_value p.2)) := by
  induction ps with
  | nil => rfl
  | cons p rest ih =>
    obtain ⟨h1, h2, h3⟩ := hd p (List.mem_cons_self _ _)
    rw [List.map_cons, ProjectPropertiesBuilder.convert]
    simp only [substr1, Res.bind_ok]
    rw [stoul_digits p.2 h1 h2 h3, Res.bind_ok,
      ih fun q hq => hd q (List.mem_cons_of_mem _ hq), Res.bind_ok]
    rfl

/-- C11: on a non-empty property list whose values are `$` followed by a
non-empty string of decimal digits denoting a number below `2 ^ 64`, the
Project validator returns a Project node without children whose pairs are the
keys, unchanged, each with the number its digits denote, in the order of the
properties. -/
theorem project_decoding (ps : List (Str × Str)) (hne : ps ≠ [])
    (hd : ∀ p ∈ ps, p.2 ≠ [] ∧ (∀ c ∈ p.2, isdigit c = true) ∧ decimal_value p.2 < 2 ^ 64) :
    ProjectPropertiesBuilder.Build (ps.map fun p => (p.1, '$' :: p.2)) =
      .ok (.mk (.Project (ps.map fun p => (p.1, decimal_value p.2))) []) := by
  cases ps with
  | nil => exact absurd rfl hne
  | cons p rest =>
    have h := project_convert_digits (p :: rest) hd
    rw [List.map_cons] at h ⊢
    unfold ProjectPropertiesBuilder.Build
    simp only [h, Res.bind_ok]

/-- The properties of the test plan, an instance of `project_decoding`. -/
theorem project_decoding_sector_name :
    ProjectPropertiesBuilder.Build [(lit "SECTOR", lit "$0"), (lit "NAME", lit "$1")] =
      .ok (.mk (.Project [(lit "SECTOR", 0), (lit "NAME", 1)]) []) :=
  project_decoding [(lit "SECTOR", lit "0"), (lit "NAME", lit "1")] (by decide) (by decide)

theorem scan_parts_token (t s : Str) (ht : ∀ c ∈ t, ctype_space c = false) :
    scan_parts (t ++ s) = (t ++ (scan_parts s).1, (scan_parts s).2) := by
  induction t with
  | nil => rfl
  | cons c cs ih =>
    rw [List.cons_append, scan_parts, ht c (List.mem_cons_self _ _),
      ih fun x hx => ht x (List.mem_cons_of_mem _ hx)]
    rfl

theorem parts_of_separator (c : Char) (s : Str) (hc : ctype_space c = true) :
    parts_of (c :: s) = parts_of s := by
  unfold parts_of
  rw [scan_parts, hc]
  rfl

theorem parts_of_token (t s : Str) (c : Char) (hne : t ≠ [])
    (ht : ∀ x ∈ t, ctype_space x = false) (hc : ctype_space c = true) :
    parts_of (t ++ c :: s) = t :: parts_of s := by
  have h1 : scan_parts (c :: s) = ([], parts_of s) := by
    rw [scan_parts, hc]
    rfl
  unfold parts_of
  rw [scan_parts_token t (c :: s) ht, h1]
  simp only [List.append_nil, hne, if_false]
  rfl

/-- Tokens without separator characters, joined by `", "` and closed by a
separator, are read back one by one. -/
theorem parts_of_comma_join (ts : List Str) (closer : Char) (hc : ctype_space closer = true)
    (ht : ∀ t ∈ ts, t ≠ [] ∧ ∀ x ∈ t, ctype_space x = false) (hne : ts ≠ []) :
    parts_of (comma_join ts ++ [closer]) = ts := by
  induction ts with
  | nil => exact absurd rfl hne
  | cons x rest ih =>
    obtain ⟨hx1, hx2⟩ := ht x (List.mem_cons_self _ _)
    cases rest with
    | nil =>
      rw [comma_join, parts_of_token x [] closer hx1 hx2 hc]
      rfl
    | cons y rest =>
      have hrec := ih (fun t h => ht t (List.mem_cons_of_mem _ h)) (List.cons_ne_nil _ _)
      have h0 : comma_join (x :: y :: rest) ++ [closer] =
          x ++ ',' :: (' ' :: (comma_join (y :: rest) ++ [closer])) := by
        rw [comma_join]
        simp [lit]
      rw [h0, parts_of_token x _ ',' hx1 hx2 (by decide), parts_of_separator ' ' _ (by decide),
        hrec]

theorem isupper_not_ctype_space (c : Char) (h : isupper c = true) : ctype_space c = false := by
  have h1 : c ≠ ',' := by intro h0; rw [h0] at h; revert h; decide
  have h2 : c ≠ ']' := by intro h0; rw [h0] at h; revert h; decide
  have h3 : c ≠ '\x7d' := by intro h0; rw [h0] at h; revert h; decide
  have h4 : isspace c = false := by
    unfold isupper at h
    unfold isspace
    simp only [Bool.and_eq_true, decide_eq_true_eq] at h
    simp only [Bool.or_eq_false_iff, decide_eq_false_iff_not, Bool.and_eq_false_iff]
    omega
  unfold ctype_space
  simp [h1, h2, h3, h4]

theorem isdigit_not_ctype_space (c : Char) (h : isdigit c = true) : ctype_space c = false := by
  have h1 : c ≠ ',' := by intro h0; rw [h0] at h; revert h; decide
  have h2 : c ≠ ']' := by intro h0; rw [h0] at h; revert h; decide
  have h3 : c ≠ '\x7d' := by intro h0; rw [h0] at h; revert h; decide
  unfold ctype_space
  simp [h1, h2, h3, isdigit_not_isspace c h]

/-- C12: on the single property `table` whose value is `[`, the segments joined
by `", "`, and `]`, the segments being non-empty strings of upper-case letters
and at least one in number, the Scan validator returns a Scan node without
children whose path is the list of the segments, in order. -/
theorem scan_decoding (segs : List Str) (hne : segs ≠ [])
    (hs : ∀ s ∈ segs, s ≠ [] ∧ ∀ c ∈ s, isupper c = true) :
    ScanPropertiesBuilder.Build [(lit "table", '[' :: comma_join segs ++ lit "]")] =
      .ok (.mk (.Scan segs) []) := by
  have h := parts_of_comma_join segs ']' (by decide)
    (fun t ht => ⟨(hs t ht).1, fun x hx => isupper_not_ctype_space x ((hs t ht).2 x hx)⟩) hne
  have h2 : ('[' :: comma_join segs ++ lit "]").drop 1 = comma_join segs ++ [']'] := rfl
  unfold ScanPropertiesBuilder.Build
  simp only [h2, h]
  rfl

/-- The first Scan line of the test plan, an instance of `scan_decoding`. -/
theorem scan_decoding_records :
    ScanPropertiesBuilder.Build [(lit "table", lit "[RECORDS, SALES, NATIONAL]")] =
      .ok (.mk (.Scan [lit "RECORDS", lit "SALES", lit "NATIONAL"]) []) :=
  scan_decoding [lit "RECORDS", lit "SALES", lit "NATIONAL"] (by decide) (by decide)

theorem aggregate_convert_to_string (ns : List Nat) (hb : ∀ n ∈ ns, n < 2 ^ 64) :
    AggregatePropertiesBuilder.convert (ns.map to_string) = .ok ns := by
  induction ns with
  | nil => rfl
  | cons n rest ih =>
    rw [List.map_cons, AggregatePropertiesBuilder.convert,
      stoul_to_string n (hb n (List.mem_cons_self _ _)), Res.bind_ok,
      ih fun m hm => hb m (List.mem_cons_of_mem _ hm)]
    rfl

/-- C13: on the single property `group` whose value is an opening brace, the
decimal texts of the numbers joined by `", "`, and a closing brace, the numbers
being below `2 ^ 64` and at least one in number, the Aggregate validator
returns an Aggregate node without children whose group indices are the
numbers, in order. -/
theorem aggregate_decoding (ns : List Nat) (hne : ns ≠ []) (hb : ∀ n ∈ ns, n < 2 ^ 64) :
    AggregatePropertiesBuilder.Build
        [(lit "group", '\x7b' :: comma_join (ns.map decimal_text) ++ lit "\x7d")] =
      .ok (.mk (.Aggregate ns) []) := by
  have hmap : ns.map decimal_text = ns.map to_string :=
    List.map_congr_left fun n _ => (to_string_eq_decimal_text n).symm
  have h := parts_of_comma_join (ns.map to_string) '\x7d' (by decide)
    (fun t ht => by
      obtain ⟨n, _, rfl⟩ := List.mem_map.mp ht
      exact ⟨to_string_ne_nil n, fun x hx => isdigit_not_ctype_space x (to_string_isdigit n x hx)⟩)
    (by simpa using hne)
  have h2 : ('\x7b' :: comma_join (ns.map to_string) ++ lit "\x7d").drop 1 =
      comma_join (ns.map to_string) ++ ['\x7d'] := rfl
  rw [hmap]
  unfold AggregatePropertiesBuilder.Build
  simp only [h2, h, aggregate_convert_to_string ns hb, Res.bind_ok]
  rfl

/-- The Aggregate line of the test plan and the largest index, instances of
`aggregate_decoding`. -/
theorem aggregate_decoding_examples :
    AggregatePropertiesBuilder.Build [(lit "group", lit "\x7b0, 1\x7d")] =
      .ok (.mk (.Aggregate [0, 1]) []) ∧
    AggregatePropertiesBuilder.Build [(lit "group", lit "\x7b18446744073709551615\x7d")] =
      .ok (.mk (.Aggregate [18446744073709551615]) []) :=
  ⟨aggregate_decoding [0, 1] (by decide) (by decide),
   aggregate_decoding [18446744073709551615] (by decide) (by decide)⟩

/-! ## Line bodies -/

theorem comma_join_map_cons {α : Type} (f : α → Str) (x : α) (xs : List α) :
    comma_join ((x :: xs).map f) = f x ++ inserts_rest f xs := by
  induction xs generalizing x with
  | nil => simp [comma_join, inserts_rest]
  | cons y ys ih =>
    rw [List.map_cons, List.map_cons, comma_join, ← List.map_cons, ih y, inserts_rest]
    simp [lit]

/-- On a non-empty container `inserts` writes the elements joined by `", "`. -/
theorem inserts_eq_comma_join {α : Type} (f : α → Str) (xs : List α) (hne : xs ≠ []) :
    inserts f xs = .ok (comma_join (xs.map f)) := by
  cases xs with
  | nil => exact absurd rfl hne
  | cons x xs => rw [inserts, comma_join_map_cons]

/-- C15: the string conversion of a Project node with a non-empty list of
pairs is `Project(`, then the items `alias=[$index]` in stored order joined by
`", "`, the index in decimal, then `)`. -/
theorem project_line_body (pairs : List (Str × Nat)) (cs : List Node) (hne : pairs ≠ []) :
    (Node.mk (.Project pairs) cs).toStr =
      .ok (lit "Project(" ++
        comma_join (pairs.map fun p => p.1 ++ lit "=[$" ++ decimal_text p.2 ++ lit "]") ++
        lit ")") := by
  have hf : (fun p : Str × Nat => p.1 ++ lit "=[$" ++ decimal_text p.2 ++ lit "]") =
      project_item := by
    funext p
    rw [project_item, to_string_eq_decimal_text]
    rfl
  rw [hf, Node.toStr, inserts_eq_comma_join project_item pairs hne]
  rfl

/-- The Project node of the test tree, an instance of `project_line_body`. -/
theorem project_line_body_sector_name :
    (Node.mk (.Project [(lit "SECTOR", 0), (lit "NAME", 1)]) []).toStr =
      .ok (lit "Project(SECTOR=[$0], NAME=[$1])") :=
  project_line_body [(lit "SECTOR", 0), (lit "NAME", 1)] [] (by decide)

/-- C16: the string conversion of a Scan node with a non-empty path is
`Scan(table=[[`, the segments joined by `", "`, `]])`; that of an Aggregate
node with a non-empty group is the same with braces around the decimal texts
of the indices; that of a Union node is `Union(all=[true])` when its flag is
true and `Union(all=[false])` otherwise. -/
theorem scan_aggregate_union_line_body (path : List Str) (group : List Nat) (all : Bool)
    (cs : List Node) (hp : path ≠ []) (hg : group ≠ []) :
    (Node.mk (.Scan path) cs).toStr =
      .ok (lit "Scan(table=[[" ++ comma_join path ++ lit "]])") ∧
    (Node.mk (.Aggregate group) cs).toStr =
      .ok (lit "Aggregate(group=[\x7b" ++ comma_join (group.map decimal_text) ++ lit "\x7d])") ∧
    (Node.mk (.Union all) cs).toStr =
      .ok (if all = true then lit "Union(all=[true])" else lit "Union(all=[false])") := by
  refine ⟨?_, ?_, ?_⟩
  · rw [Node.toStr, inserts_eq_comma_join _ path hp, List.map_id']
    rfl
  · have hmap : group.map decimal_text = group.map to_string :=
      List.map_congr_left fun n _ => (to_string_eq_decimal_text n).symm
    rw [hmap, Node.toStr, inserts_eq_comma_join _ group hg]
    rfl
  · cases all <;> rfl

/-- The nodes of the test tree, instances of `scan_aggregate_union_line_body`. -/
theorem line_body_of_test_nodes :
    (Node.mk (.Scan [lit "CATALOG", lit "SALES", lit "NATIONAL"]) []).toStr =
      .ok (lit "Scan(table=[[CATALOG, SALES, NATIONAL]])") ∧
    (Node.mk (.Aggregate [0, 1]) []).toStr = .ok (lit "Aggregate(group=[\x7b0, 1\x7d])") ∧
    (Node.mk (.Union true) []).toStr = .ok (lit "Union(all=[true])") :=
  scan_aggregate_union_line_body [lit "CATALOG", lit "SALES", lit "NATIONAL"] [0, 1] true []
    (by decide) (by decide)

/-! ## Children -/

theorem Node.children_after_append (n child : Node) :
    (n.append child).children = n.children ++ [child] := by
  cases n with
  | mk p cs => rfl

theorem Node.children_foldl_append (n : Node) (added : List Node) :
    (added.foldl Node.append n).children = n.children ++ added := by
  induction added generalizing n with
  | nil => simp
  | cons c rest ih => rw [List.foldl_cons, ih, Node.children_after_append, List.append_assoc]; rfl

theorem Node.id_foldl_append (n : Node) (added : List Node) :
    (added.foldl Node.append n).id = n.id := by
  induction added generalizing n with
  | nil => rfl
  | cons c rest ih =>
    rw [List.foldl_cons, ih]
    cases n with
    | mk p cs => cases p <;> rfl

/-- C14, as stated, fails on the code: a Scan node constructed directly reports
one child after one `append`, and on a Scan line followed by a more indented
line `parse` returns, for every amount of fuel from 2 on, a Scan node with one
child. -/
theorem scan_node_with_child :
    ((Node.mk (.Scan [lit "A"]) []).append (.mk (.Scan [lit "B"]) [])).children_.size = 1 ∧
    ((Node.mk (.Scan [lit "A"]) []).append (.mk (.Scan [lit "B"]) [])).id = .SCAN ∧
    ∀ k, parse_text (2 + k) scan_under_scan =
      .ok (.mk (.Scan [lit "A"]) [.mk (.Scan [lit "B"]) []]) := by
  refine ⟨rfl, rfl, ?_⟩
  intro k
  have h : parse_text 2 scan_under_scan =
      .ok (.mk (.Scan [lit "A"]) [.mk (.Scan [lit "B"]) []]) := rfl
  rw [parse_text_fuel_add 2 k _ (by rw [h]; exact fun h0 => Res.noConfusion h0), h]

/-- C14, amended: a Scan node reports zero children when it is constructed,
directly or by the Scan validator; its children container is the one every
node has, so after a sequence of `append` calls it is still a Scan node and
reports exactly the appended nodes, in the order of the calls. -/
theorem scan_node_children (path : List Str) (added : List Node) (ps : Properties) :
    (Node.mk (.Scan path) []).children_.size = 0 ∧
    (∀ node, ScanPropertiesBuilder.Build ps = .ok node →
      node.id = .SCAN ∧ node.children_.size = 0) ∧
    (added.foldl Node.append (.mk (.Scan path) [])).id = .SCAN ∧
    (added.foldl Node.append (.mk (.Scan path) [])).children_.iterate = added ∧
    (added.foldl Node.append (.mk (.Scan path) [])).children_.size = added.length := by
  refine ⟨rfl, ?_, ?_, ?_, ?_⟩
  · intro node hn
    have h := (PropertiesBuilder.Build_spec (.Scan ps)).1 node hn
    refine ⟨h.2, ?_⟩
    show node.children.length = 0
    rw [h.1]
    rfl
  · rw [Node.id_foldl_append]
    rfl
  · show (added.foldl Node.append (.mk (.Scan path) [])).children = added
    rw [Node.children_foldl_append]
    rfl
  · show (added.foldl Node.append (.mk (.Scan path) [])).children.length = added.length
    rw [Node.children_foldl_append]
    rfl

/-- C19: after `append(c)` on a children container the size is one more, the
element at the old size is `c`, the element at every smaller index is the one
that was there, and an iteration visits the old elements in their order and
then `c`; so a container filled by `append` calls from empty holds the
appended nodes in the order of the calls. -/
theorem children_append (cs : ContiguousChildren) (c : Node) (added : List Node) :
    (cs.append c).size = cs.size + 1 ∧
    (cs.append c).at cs.size = .ok c ∧
    (∀ i, i < cs.size → (cs.append c).at i = cs.at i) ∧
    (cs.append c).iterate = cs.iterate ++ [c] ∧
    (added.foldl ContiguousChildren.append ⟨[]⟩).iterate = added := by
  refine ⟨?_, ?_, ?_, rfl, ?_⟩
  · simp [ContiguousChildren.append, ContiguousChildren.size]
  · simp [ContiguousChildren.append, ContiguousChildren.size, ContiguousChildren.at]
  · intro i hi
    unfold ContiguousChildren.size at hi
    simp [ContiguousChildren.append, ContiguousChildren.at, List.getElem?_append_left hi]
  · have h : ∀ (start : ContiguousChildren),
        (added.foldl ContiguousChildren.append start).iterate = start.iterate ++ added := by
      induction added with
      | nil => intro start; simp
      | cons x rest ih =>
        intro start
        rw [List.foldl_cons, ih]
        simp [ContiguousChildren.append, ContiguousChildren.iterate]
    rw [h]
    rfl

/-! ## Printer and validators at their limits -/

/-- C17, on the code: a Scan node with an empty path, an Aggregate node with no
group index and a Project node with no pair can be constructed, and printing
any of them has no defined result: `inserts` writes the first element of the
empty sequence before it compares the iterator with `cend`. The first two are
also what `parse` returns on the lines shown. -/
theorem print_empty_payload_is_undefined :
    inserts (fun part : Str => part) [] = .undefined ∧
    print (.mk (.Scan []) []) = .undefined ∧
    print (.mk (.Aggregate []) []) = .undefined ∧
    print (.mk (.Project []) []) = .undefined ∧
    print (.mk (.Union true) [.mk (.Scan []) []]) = .undefined ∧
    parse_text 1 (lit "Scan(table=[a])\n") = .ok (.mk (.Scan []) []) ∧
    parse_text 1 (lit "Aggregate(group=[a])\n") = .ok (.mk (.Aggregate []) []) :=
  ⟨rfl, rfl, rfl, rfl, rfl, rfl, rfl⟩

/-- C18, on the code: the Aggregate validator reports a wrong number of
properties with the message of the Union validator, which does not contain the
word Aggregate in either case; and a value that cannot be converted leaves the
Aggregate and the Project validator as the exception of `std::stoul`, whose
message is `stoul`. -/
theorem aggregate_errors_do_not_name_aggregate :
    AggregatePropertiesBuilder.Build [] =
      .throw (.runtime_error (lit "Bad union properties with size = 0")) ∧
    AggregatePropertiesBuilder.Build [] = UnionPropertiesBuilder.Build [] ∧
    ¬ lit "ggregate" <:+: lit "Bad union properties with size = 0" ∧
    AggregatePropertiesBuilder.Build [(lit "group", lit "\x7bx\x7d")] =
      .throw (.invalid_argument (lit "stoul")) ∧
    ProjectPropertiesBuilder.Build [(lit "a", lit "$x")] =
      .throw (.invalid_argument (lit "stoul")) ∧
    ProjectPropertiesBuilder.Build [(lit "a", lit "$18446744073709551616")] =
      .throw (.out_of_range (lit "stoul")) :=
  ⟨rfl, rfl, by decide, rfl, rfl, rfl⟩

theorem stoul_throw_cases (s : Str) (e : Error) (h : stoul s = .throw e) :
    e = .invalid_argument (lit "stoul") ∨ e = .out_of_range (lit "stoul") := by
  unfold stoul at h
  split at h
  · simp only [Res.throw.injEq] at h
    exact Or.inl h.symm
  · split at h
    · exact Res.noConfusion h
    · simp only [Res.throw.injEq] at h
      exact Or.inr h.symm

theorem aggregate_convert_throw_cases (parts : List Str) (e : Error)
    (h : AggregatePropertiesBuilder.convert parts = .throw e) :
    e = .invalid_argument (lit "stoul") ∨ e = .out_of_range (lit "stoul") := by
  induction parts with
  | nil => exact Res.noConfusion h
  | cons part rest ih =>
    rw [AggregatePropertiesBuilder.convert] at h
    cases hs : stoul part with
    | ok v =>
      rw [hs, Res.bind_ok] at h
      cases hr : AggregatePropertiesBuilder.convert rest with
      | ok vs => rw [hr] at h; exact Res.noConfusion h
      | throw e1 =>
        rw [hr] at h
        simp only [Res.bind, Res.throw.injEq] at h
        exact ih (by rw [hr, h])
      | undefined => rw [hr] at h; exact Res.noConfusion h
      | outOfFuel => rw [hr] at h; exact Res.noConfusion h
    | throw e1 =>
      rw [hs] at h
      simp only [Res.bind, Res.throw.injEq] at h
      exact stoul_throw_cases part e (by rw [hs, h])
    | undefined => rw [hs] at h; exact Res.noConfusion h
    | outOfFuel => rw [hs] at h; exact Res.noConfusion h

theorem project_convert_throw_cases (ps : Properties) (e : Error)
    (h : ProjectPropertiesBuilder.convert ps = .throw e) :
    e = .invalid_argument (lit "stoul") ∨ e = .out_of_range (lit "stoul") ∨
    e = .out_of_range
      (lit "basic_string::substr: __pos (which is 1) > this->size() (which is 0)") := by
  induction ps with
  | nil => exact Res.noConfusion h
  | cons p rest ih =>
    rw [ProjectPropertiesBuilder.convert] at h
    cases hp : p.2 with
    | nil =>
      rw [hp] at h
      simp only [substr1, Res.bind, Res.throw.injEq] at h
      exact Or.inr (Or.inr h.symm)
    | cons c tail =>
      rw [hp, substr1, Res.bind_ok] at h
      cases hs : stoul tail with
      | ok v =>
        rw [hs, Res.bind_ok] at h
        cases hr : ProjectPropertiesBuilder.convert rest with
        | ok vs => rw [hr] at h; exact Res.noConfusion h
        | throw e1 =>
          rw [hr] at h
          simp only [Res.bind, Res.throw.injEq] at h
          exact ih (by rw [hr, h])
        | undefined => rw [hr] at h; exact Res.noConfusion h
        | outOfFuel => rw [hr] at h; exact Res.noConfusion h
      | throw e1 =>
        rw [hs] at h
        simp only [Res.bind, Res.throw.injEq] at h
        rcases stoul_throw_cases tail e (by rw [hs, h]) with h1 | h1
        · exact Or.inl h1
        · exact Or.inr (Or.inl h1)
      | undefined => rw [hs] at h; exact Res.noConfusion h
      | outOfFuel => rw [hs] at h; exact Res.noConfusion h

/-- C18, amended: every failure of the Union and of the Scan validator, the
key failure of the Aggregate validator and the arity failure of the Project
validator is a runtime error whose message names the kind and the rule, with
the size, the key or the value it objects to. A value that cannot be converted
leaves the Aggregate and the Project validator as the exception `std::stoul`
(or `substr`) raised, whose message does not name a kind. Nothing is said here
of the message for a wrong number of Aggregate properties. -/
theorem validator_error_messages (ps : Properties) (e : Error) :
    (UnionPropertiesBuilder.Build ps = .throw e →
      (ps.length ≠ 1 ∧
        e = .runtime_error (lit "Bad union properties with size = " ++ to_string ps.length)) ∨
      (∃ k v, ps = [(k, v)] ∧ k ≠ lit "all" ∧
        e = .runtime_error (lit "Union property builder with property " ++ k)) ∨
      (∃ v, ps = [(lit "all", v)] ∧ v ≠ lit "true" ∧ v ≠ lit "false" ∧
        e = .runtime_error (lit "Union property builder with value " ++ v))) ∧
    (ScanPropertiesBuilder.Build ps = .throw e →
      (ps.length ≠ 1 ∧
        e = .runtime_error (lit "Bad scan properties builder size = " ++ to_string ps.length)) ∨
      (∃ k v, ps = [(k, v)] ∧ k ≠ lit "table" ∧
        e = .runtime_error (lit "Scan property builder with property " ++ k))) ∧
    (AggregatePropertiesBuilder.Build ps = .throw e → ps.length = 1 →
      (∃ k v, ps = [(k, v)] ∧ k ≠ lit "group" ∧
        e = .runtime_error (lit "Aggregate property builder with property " ++ k)) ∨
      (∃ v, ps = [(lit "group", v)] ∧
        (e = .invalid_argument (lit "stoul") ∨ e = .out_of_range (lit "stoul")))) ∧
    (ProjectPropertiesBuilder.Build ps = .throw e →
      (ps = [] ∧ e = .runtime_error (lit "Bad project properties builder size = 0")) ∨
      (ps ≠ [] ∧ (e = .invalid_argument (lit "stoul") ∨ e = .out_of_range (lit "stoul") ∨
        e = .out_of_range
          (lit "basic_string::substr: __pos (which is 1) > this->size() (which is 0)")))) := by
  refine ⟨?_, ?_, ?_, ?_⟩
  · intro h
    unfold UnionPropertiesBuilder.Build at h
    split at h
    · rename_i property
      obtain ⟨k, v⟩ := property
      simp only [ne_eq] at h
      split at h
      · rename_i hk
        simp only [Res.throw.injEq] at h
        exact Or.inr (Or.inl ⟨k, v, rfl, hk, h.symm⟩)
      · rename_i hk
        have hk : k = lit "all" := by simpa using hk
        subst hk
        split at h
        · exact Res.noConfusion h
        · split at h
          · exact Res.noConfusion h
          · rename_i h1 h2
            simp only [Res.throw.injEq] at h
            exact Or.inr (Or.inr ⟨v, rfl, h1, h2, h.symm⟩)
    · rename_i hne
      simp only [Res.throw.injEq] at h
      refine Or.inl ⟨?_, h.symm⟩
      intro hl
      obtain ⟨p, hp⟩ := List.length_eq_one.mp hl
      exact hne p hp
  · intro h
    unfold ScanPropertiesBuilder.Build at h
    split at h
    · rename_i property
      obtain ⟨k, v⟩ := property
      simp only [ne_eq] at h
      split at h
      · rename_i hk
        simp only [Res.throw.injEq] at h
        exact Or.inr ⟨k, v, rfl, hk, h.symm⟩
      · exact Res.noConfusion h
    · rename_i hne
      simp only [Res.throw.injEq] at h
      refine Or.inl ⟨?_, h.symm⟩
      intro hl
      obtain ⟨p, hp⟩ := List.length_eq_one.mp hl
      exact hne p hp
  · intro h hl
    obtain ⟨p, hp⟩ := List.length_eq_one.mp hl
    obtain ⟨k, v⟩ := p
    subst hp
    simp only [AggregatePropertiesBuilder.Build, ne_eq] at h
    split at h
    · rename_i hk
      simp only [Res.throw.injEq] at h
      exact Or.inl ⟨k, v, rfl, hk, h.symm⟩
    · rename_i hk
      have hk : k = lit "group" := by simpa using hk
      subst hk
      refine Or.inr ⟨v, rfl, ?_⟩
      cases hc : AggregatePropertiesBuilder.convert (parts_of (List.drop 1 v)) with
      | ok vs => rw [hc] at h; exact Res.noConfusion h
      | throw e1 =>
        rw [hc] at h
        simp only [Res.bind, Res.throw.injEq] at h
        exact aggregate_convert_throw_cases _ e (by rw [hc, h])
      | undefined => rw [hc] at h; exact Res.noConfusion h
      | outOfFuel => rw [hc] at h; exact Res.noConfusion h
  · intro h
    cases ps with
    | nil =>
      simp only [ProjectPropertiesBuilder.Build, Res.throw.injEq] at h
      exact Or.inl ⟨rfl, h.symm⟩
    | cons p rest =>
      refine Or.inr ⟨List.cons_ne_nil _ _, ?_⟩
      simp only [ProjectPropertiesBuilder.Build] at h
      cases hc : ProjectPropertiesBuilder.convert (p :: rest) with
      | ok vs => rw [hc] at h; exact Res.noConfusion h
      | throw e1 =>
        rw [hc] at h
        simp only [Res.bind, Res.throw.injEq] at h
        exact project_convert_throw_cases _ e (by rw [hc, h])
      | undefined => rw [hc] at h; exact Res.noConfusion h
      | outOfFuel => rw [hc] at h; exact Res.noConfusion h

/-! ## Lines read and nodes built -/

theorem level_add_sub (level : Nat) (h : level < 2 ^ 64) :
    ((level + 2) % 2 ^ 64 + 2 ^ 64 - 2) % 2 ^ 64 = level := by
  omega

theorem string_at_not_space (s : Str) (pos : Nat) (c : Char) (h : string_at s pos = .ok c)
    (hc : c ≠ ' ') : s.get? pos ≠ some ' ' := by
  unfold string_at at h
  split at h
  · rename_i hlt
    simp only [Res.ok.injEq] at h
    rw [List.getD_eq_getElem?_getD, List.getElem?_eq_getElem hlt] at h
    simp only [Option.getD_some] at h
    rw [List.get?_eq_getElem?, List.getElem?_eq_getElem hlt, h]
    simpa using hc
  · rename_i hge
    rw [List.get?_eq_getElem?, List.getElem?_eq_none (by omega)]
    simp

theorem getline_dead (is : istream) (str : Str) (h : (is.eofbit || is.failbit) = true) :
    getline is str = (⟨is.text, is.eofbit, true⟩, str) := by
  unfold getline
  rw [if_pos h]

theorem split_at_newline (text : Str) :
    ('\n' ∉ text ∧ text.takeWhile (fun c => c ≠ '\n') = text ∧
      text.dropWhile (fun c => c ≠ '\n') = []) ∨
    ∃ l t, text = l ++ '\n' :: t ∧ '\n' ∉ l ∧ text.takeWhile (fun c => c ≠ '\n') = l ∧
      text.dropWhile (fun c => c ≠ '\n') = '\n' :: t := by
  induction text with
  | nil => exact Or.inl ⟨by simp, rfl, rfl⟩
  | cons c cs ih =>
    by_cases hc : c = '\n'
    · subst hc
      exact Or.inr ⟨[], cs, rfl, by simp, by simp, by simp⟩
    · have ht : (c :: cs).takeWhile (fun c => c ≠ '\n') =
          c :: cs.takeWhile (fun c => c ≠ '\n') := by
        simp [List.takeWhile_cons, hc]
      have hd : (c :: cs).dropWhile (fun c => c ≠ '\n') = cs.dropWhile (fun c => c ≠ '\n') := by
        simp [List.dropWhile_cons, hc]
      rw [ht, hd]
      rcases ih with ⟨h1, h2, h3⟩ | ⟨l, t, h1, h2, h3, h4⟩
      · refine Or.inl ⟨?_, by rw [h2], h3⟩
        intro hm
        rcases List.mem_cons.mp hm with hm | hm
        · exact hc hm.symm
        · exact h1 hm
      · refine Or.inr ⟨c :: l, t, by rw [h1]; rfl, ?_, by rw [h3], h4⟩
        intro hm
        rcases List.mem_cons.mp hm with hm | hm
        · exact hc hm.symm
        · exact h2 hm

/-- What `std::getline` leaves on a good stream: the line read holds no
newline, and together with what is still to be extracted it makes up the text
the stream held. -/
theorem getline_live (is : istream) (str : Str) (level : Nat)
    (h : (is.eofbit || is.failbit) = false) :
    '\n' ∉ (getline is str).2 ∧
    (StreamParser.mk (getline is str).1 (getline is str).2 level).pending = is.text := by
  unfold getline
  rw [if_neg (by simp [h])]
  rcases split_at_newline is.text with ⟨h1, h2, h3⟩ | ⟨l, t, h1, h2, h3, h4⟩
  · rw [h3]
    simp only [h2, StreamParser.pending, Bool.true_or, if_true]
    exact ⟨h1, trivial⟩
  · rw [h4]
    simp only [h3, StreamParser.pending, Bool.or_self, Bool.false_eq_true, if_false]
    exact ⟨h2, h1.symm⟩

/-- One step of `Traverse` with the two values of `level` it computes named. -/
theorem Traverse_succ_named (fuel : Nat) (st : StreamParser) (parent : Node) :
    ∃ down up : Nat, down = (st.level + 2 ^ 64 - 2) % 2 ^ 64 ∧ up = (st.level + 2) % 2 ^ 64 ∧
      Traverse (fuel + 1) st parent =
        if st.format = [] then .ok (st, parent)
        else
          (string_at st.format st.level).bind fun c =>
          if c ≠ ' ' then .ok (⟨st.istream_, st.format, down⟩, parent)
          else
            (MakeNode st.format).bind fun node =>
            (Traverse fuel
              ⟨(getline st.istream_ st.format).1, (getline st.istream_ st.format).2, up⟩
              node).bind fun r =>
            Traverse fuel r.1 (parent.append r.2) :=
  ⟨_, _, rfl, rfl, Traverse_succ fuel st parent⟩

/-- The ways an execution of `Traverse` returns: on an empty `format`; at a
character other than a space at index `level`, with `level` lowered by 2; or
after a node was made from `format`, the next line was read into the state
`st1`, the children of the node were traversed from `st1`, and the loop went on
with the node appended. -/
theorem Traverse_succ_ok (fuel : Nat) (st : StreamParser) (parent : Node)
    (r : StreamParser × Node) (h : Traverse (fuel + 1) st parent = .ok r) :
    (st.format = [] ∧ r = (st, parent)) ∨
    (st.format ≠ [] ∧ ∃ c, string_at st.format st.level = .ok c ∧
      ((c ≠ ' ' ∧ r.2 = parent ∧ r.1.istream_ = st.istream_ ∧ r.1.format = st.format ∧
          r.1.level = (st.level + 2 ^ 64 - 2) % 2 ^ 64) ∨
        (c = ' ' ∧ ∃ (node : Node) (st1 : StreamParser) (r1 : StreamParser × Node),
          MakeNode st.format = .ok node ∧
          st1.istream_ = (getline st.istream_ st.format).1 ∧
          st1.format = (getline st.istream_ st.format).2 ∧
          st1.level = (st.level + 2) % 2 ^ 64 ∧
          Traverse fuel st1 node = .ok r1 ∧
          Traverse fuel r1.1 (parent.append r1.2) = .ok r))) := by
  obtain ⟨down, up, hdown, hup, hT⟩ := Traverse_succ_named fuel st parent
  rw [hT] at h
  by_cases hf : st.format = []
  · rw [if_pos hf] at h
    exact Or.inl ⟨hf, (Res.ok.inj h).symm⟩
  · rw [if_neg hf] at h
    refine Or.inr ⟨hf, ?_⟩
    cases hc : string_at st.format st.level with
    | ok c =>
      rw [hc, Res.bind_ok] at h
      refine ⟨c, rfl, ?_⟩
      by_cases hsp : c ≠ ' '
      · rw [if_pos hsp] at h
        have hr := Res.ok.inj h
        subst hr
        exact Or.inl ⟨hsp, rfl, rfl, rfl, hdown⟩
      · rw [if_neg hsp] at h
        refine Or.inr ⟨not_not.mp hsp, ?_⟩
        cases hm : MakeNode st.format with
        | ok node =>
          rw [hm, Res.bind_ok] at h
          cases hr : Traverse fuel ⟨(getline st.istream_ st.format).1,
              (getline st.istream_ st.format).2, up⟩ node with
          | ok r1 =>
            rw [hr, Res.bind_ok] at h
            exact ⟨node, ⟨(getline st.istream_ st.format).1,
              (getline st.istream_ st.format).2, up⟩, r1, rfl, rfl, rfl, hup, hr, h⟩
          | throw e => rw [hr] at h; cases h
          | undefined => rw [hr] at h; cases h
          | outOfFuel => rw [hr] at h; cases h
        | throw e => rw [hm] at h; cases h
        | undefined => rw [hm] at h; cases h
        | outOfFuel => rw [hm] at h; cases h
    | throw e => rw [hc] at h; cases h
    | undefined => rw [hc] at h; cases h
    | outOfFuel => rw [hc] at h; cases h

theorem pow64_pos : 0 < 2 ^ 64 := Nat.two_pow_pos 64

/-- Once the stream is not good, an execution of `Traverse` that returns has
built no node: it found `format` empty, or a character other than a space at
index `level`. -/
theorem Traverse_dead (fuel : Nat) :
    ∀ (st : StreamParser) (parent : Node) (r : StreamParser × Node),
      (st.istream_.eofbit || st.istream_.failbit) = true → st.level < 2 ^ 64 →
      Traverse fuel st parent = .ok r →
      r.2 = parent ∧ r.1.format = st.format ∧
      (r.1.istream_.eofbit || r.1.istream_.failbit) = true ∧ r.1.level < 2 ^ 64 ∧
      (st.format = [] ∨
        (r.1.level = (st.level + 2 ^ 64 - 2) % 2 ^ 64 ∧
          ∃ c, string_at st.format st.level = .ok c ∧ c ≠ ' ')) := by
  induction fuel with
  | zero => intro st parent r _ _ h; exact Res.noConfusion h
  | succ fuel ih =>
    intro st parent r hdead hlev h
    rcases Traverse_succ_ok fuel st parent r h with ⟨hf, hr⟩ | ⟨hf, c, hc, hcase⟩
    · subst hr
      exact ⟨rfl, rfl, hdead, hlev, Or.inl hf⟩
    · rcases hcase with ⟨hsp, h2, hi, hfm, hl⟩ |
        ⟨hsp, node, st1, r1, hm, hi1, hf1, hl1, hr1, hr2⟩
      · refine ⟨h2, hfm, ?_, ?_, Or.inr ⟨hl, c, hc, hsp⟩⟩
        · rw [hi]
          exact hdead
        · rw [hl]
          exact Nat.mod_lt _ pow64_pos
      · exfalso
        have hg := getline_dead st.istream_ st.format hdead
        have hd1 : (st1.istream_.eofbit || st1.istream_.failbit) = true := by
          rw [hi1, hg]
          simp
        have hfmt1 : st1.format = st.format := by rw [hf1, hg]
        have hlev1 : st1.level < 2 ^ 64 := by
          rw [hl1]
          exact Nat.mod_lt _ pow64_pos
        obtain ⟨_, h2, h3, h4, h5⟩ := ih st1 node r1 hd1 hlev1 hr1
        have hl : r1.1.level = st.level := by
          rcases h5 with h5 | ⟨h5, _⟩
          · rw [hfmt1] at h5
            exact absurd h5 hf
          · rw [h5, hl1]
            exact level_add_sub st.level hlev
        obtain ⟨_, _, _, _, h6⟩ := ih r1.1 (parent.append r1.2) r h3 h4 hr2
        rcases h6 with h6 | ⟨_, c1, h6, h7⟩
        · rw [h2, hfmt1] at h6
          exact hf h6
        · rw [h2, hfmt1, hl, hc] at h6
          exact h7 ((Res.ok.inj h6).symm.trans hsp)

mutual
theorem Node.preorder_payload_depth : ∀ (T : Node) (d e : Nat),
    (T.preorder d).map (fun nd => nd.1.payload) = (T.preorder e).map (fun nd => nd.1.payload)
  | .mk p cs, d, e => by
    rw [Node.preorder, Node.preorder, List.map_cons, List.map_cons,
      Node.preorders_payload_depth cs (d + 1) (e + 1)]
theorem Node.preorders_payload_depth : ∀ (cs : List Node) (d e : Nat),
    (Node.preorders cs d).map (fun nd => nd.1.payload) =
      (Node.preorders cs e).map (fun nd => nd.1.payload)
  | [], d, e => by rw [Node.preorders, Node.preorders]
  | c :: cs, d, e => by
    rw [Node.preorders, Node.preorders, List.map_append, List.map_append,
      Node.preorder_payload_depth c d e, Node.preorders_payload_depth cs d e]
end

theorem Node.preorders_append (cs : List Node) (c : Node) (d : Nat) :
    Node.preorders (cs ++ [c]) d = Node.preorders cs d ++ c.preorder d := by
  induction cs with
  | nil => simp [Node.preorders]
  | cons x xs ih => rw [List.cons_append, Node.preorders, ih, Node.preorders, List.append_assoc]

/-- Appending a child puts its nodes after all the nodes the tree had. -/
theorem Node.payloads_append (n c : Node) : (n.append c).payloads = n.payloads ++ c.payloads := by
  cases n with
  | mk p cs =>
    unfold Node.payloads
    rw [Node.append, Node.preorder, Node.preorder, Node.preorders_append, List.map_cons,
      List.map_cons, List.map_append, Node.preorder_payload_depth c (0 + 1) 0]
    rfl

theorem MakeNode_children (format : Str) (node : Node) (h : MakeNode format = .ok node) :
    node.children = [] := by
  unfold MakeNode at h
  split at h
  · obtain ⟨builder, _, hb⟩ := Res.bind_eq_ok h
    exact ((PropertiesBuilder.Build_spec builder).1 node hb).1
  · cases h

theorem MakeNode_payloads (format : Str) (node : Node) (h : MakeNode format = .ok node) :
    node.payloads.map Res.ok = [(MakeNode format).map Node.payload] := by
  have hc := MakeNode_children format node h
  rw [h]
  cases node with
  | mk p cs =>
    have : cs = [] := hc
    subst this
    rfl

theorem unlines_append (a b : List Str) : unlines (a ++ b) = unlines a ++ unlines b := by
  induction a with
  | nil => rfl
  | cons l ls ih => simp [unlines, ih]

theorem pending_dead (st : StreamParser)
    (h : (st.istream_.eofbit || st.istream_.failbit) = true) : st.pending = st.format := by
  unfold StreamParser.pending
  rw [if_pos h]

theorem pending_live (st : StreamParser)
    (h : (st.istream_.eofbit || st.istream_.failbit) = false) :
    st.pending = st.format ++ '\n' :: st.istream_.text := by
  unfold StreamParser.pending
  rw [if_neg (by simp [h])]

theorem pending_congr (a b : StreamParser) (h1 : a.istream_ = b.istream_)
    (h2 : a.format = b.format) : a.pending = b.pending := by
  unfold StreamParser.pending
  rw [h1, h2]

/-- What `std::getline` leaves on a good stream, for a state holding its
results. -/
theorem pending_after_getline (st st1 : StreamParser)
    (hlive : (st.istream_.eofbit || st.istream_.failbit) = false)
    (h1 : st1.istream_ = (getline st.istream_ st.format).1)
    (h2 : st1.format = (getline st.istream_ st.format).2) :
    '\n' ∉ st1.format ∧ st1.pending = st.istream_.text := by
  have h := getline_live st.istream_ st.format st1.level hlive
  refine ⟨by rw [h2]; exact h.1, ?_⟩
  rw [← h.2]
  exact pending_congr _ _ h1 h2

/-- The lines an execution of `Traverse` that returns has taken from the
pending text: each went through `MakeNode` and added one node, after all the
nodes the parent had and in the order of the lines; and the execution stopped
on an empty `format` or on a character other than a space at index `level`. -/
theorem Traverse_lines (fuel : Nat) :
    ∀ (st : StreamParser) (parent : Node) (r : StreamParser × Node),
      '\n' ∉ st.format → st.level < 2 ^ 64 → Traverse fuel st parent = .ok r →
      ∃ ls : List Str,
        st.pending = unlines ls ++ r.1.pending ∧ (∀ l ∈ ls, '\n' ∉ l) ∧
        r.2.payloads.map Res.ok =
          parent.payloads.map Res.ok ++ ls.map (fun l => (MakeNode l).map Node.payload) ∧
        '\n' ∉ r.1.format ∧ r.1.level < 2 ^ 64 ∧
        (r.1.format = [] ∨
          (r.1.level = (st.level + 2 ^ 64 - 2) % 2 ^ 64 ∧
            ∃ c, string_at r.1.format st.level = .ok c ∧ c ≠ ' ')) := by
  induction fuel with
  | zero => intro st parent r _ _ h; exact Res.noConfusion h
  | succ fuel ih =>
    intro st parent r hnl hlev h
    by_cases hdead : (st.istream_.eofbit || st.istream_.failbit) = true
    · obtain ⟨h1, h2, h3, h4, h5⟩ := Traverse_dead (fuel + 1) st parent r hdead hlev h
      refine ⟨[], ?_, ?_, ?_, ?_, h4, ?_⟩
      · rw [pending_dead st hdead, pending_dead r.1 h3, h2]
        rfl
      · intro l hl
        cases hl
      · rw [h1, List.map_nil, List.append_nil]
      · rw [h2]
        exact hnl
      · rw [h2]
        exact h5
    · have hlive : (st.istream_.eofbit || st.istream_.failbit) = false := by
        simpa using hdead
      rcases Traverse_succ_ok fuel st parent r h with ⟨hf, hr⟩ | ⟨hf, c, hc, hcase⟩
      · subst hr
        refine ⟨[], rfl, ?_, ?_, hnl, hlev, Or.inl hf⟩
        · intro l hl
          cases hl
        · rw [List.map_nil, List.append_nil]
      · rcases hcase with ⟨hsp, h2, hi, hfm, hl⟩ |
          ⟨hsp, node, st1, r1, hm, hi1, hf1, hl1, hr1, hr2⟩
        · refine ⟨[], ?_, ?_, ?_, ?_, ?_, Or.inr ⟨hl, c, ?_, hsp⟩⟩
          · rw [pending_congr r.1 st hi hfm]
            rfl
          · intro l hl
            cases hl
          · rw [h2, List.map_nil, List.append_nil]
          · rw [hfm]
            exact hnl
          · rw [hl]
            exact Nat.mod_lt _ pow64_pos
          · rw [hfm]
            exact hc
        · obtain ⟨hg1, hg2⟩ := pending_after_getline st st1 hlive hi1 hf1
          have hlev1 : st1.level < 2 ^ 64 := by
            rw [hl1]
            exact Nat.mod_lt _ pow64_pos
          obtain ⟨ls1, a1, a2, a3, a4, a5, a6⟩ := ih st1 node r1 hg1 hlev1 hr1
          obtain ⟨ls2, b1, b2, b3, b4, b5, b6⟩ := ih r1.1 (parent.append r1.2) r a4 a5 hr2
          refine ⟨st.format :: (ls1 ++ ls2), ?_, ?_, ?_, b4, b5, ?_⟩
          · rw [pending_live st hlive, ← hg2, a1, b1, unlines, unlines_append]
            simp only [List.append_assoc, List.cons_append]
          · intro l hl
            rcases List.mem_cons.mp hl with rfl | hl
            · exact hnl
            · rcases List.mem_append.mp hl with hl | hl
              · exact a2 l hl
              · exact b2 l hl
          · rw [b3, Node.payloads_append, List.map_append, a3, MakeNode_payloads _ _ hm,
              List.map_cons, List.map_append, List.append_assoc, List.append_assoc]
            rfl
          · rcases b6 with b6 | ⟨b6, c1, b7, b8⟩
            · exact Or.inl b6
            · rcases a6 with a6 | ⟨a6, _⟩
              · left
                cases fuel with
                | zero => exact Res.noConfusion hr2
                | succ fuel =>
                  rcases Traverse_succ_ok fuel _ _ r hr2 with ⟨_, hr3⟩ | ⟨hne, _⟩
                  · rw [hr3]
                    exact a6
                  · exact absurd a6 hne
              · have hl : r1.1.level = st.level := by
                  rw [a6, hl1]
                  exact level_add_sub st.level hlev
                rw [hl] at b6 b7
                exact Or.inr ⟨b6, c1, b7, b8⟩

theorem getline_cases (is : istream) (str : Str)
    (h : (is.eofbit || is.failbit) = false) :
    ('\n' ∉ is.text ∧ getline is str = (⟨[], true, is.text.isEmpty⟩, is.text)) ∨
    ∃ l t, is.text = l ++ '\n' :: t ∧ '\n' ∉ l ∧ getline is str = (⟨t, false, false⟩, l) := by
  unfold getline
  rw [if_neg (by simp [h])]
  rcases split_at_newline is.text with ⟨h1, h2, h3⟩ | ⟨l, t, h1, h2, h3, h4⟩
  · left
    rw [h3]
    simp only [h2]
    exact ⟨h1, trivial⟩
  · right
    refine ⟨l, t, h1, h2, ?_⟩
    rw [h4]
    simp only [h3]

theorem first_line_of_pending (st : StreamParser) (h : '\n' ∉ st.format) :
    st.pending.takeWhile (fun c => c ≠ '\n') = st.format := by
  have hall : ∀ x ∈ st.format, (fun c : Char => decide (c ≠ '\n')) x = true := by
    intro x hx
    have : x ≠ '\n' := fun h0 => h (h0 ▸ hx)
    simpa using this
  unfold StreamParser.pending
  split
  · exact takeWhile_eq_self _ _ hall
  · rw [List.takeWhile_append_of_pos hall]
    simp

theorem size_eq_of_payloads (T : Node) (ls : List Str)
    (h : ls.map (fun l => (MakeNode l).map Node.payload) = T.payloads.map Res.ok) :
    T.size = ls.length := by
  have := congrArg List.length h
  rw [List.length_map, List.length_map] at this
  unfold Node.payloads at this
  rw [List.length_map, Node.preorder_length] at this
  exact this.symm

/-- C20, as stated, fails on the code: of the two lines of `two_roots`, both
before the end of the input and neither empty, `parse` makes a tree of one
node, for every amount of fuel from 1 on; and it returns a tree on
`root_then_garbage` as well, whose second line does not match the line
pattern. -/
theorem second_unindented_line_is_dropped :
    ((two_roots.splitOn '\n').takeWhile (fun l => l ≠ [])).length = 2 ∧
    (∀ k, parse_text (1 + k) two_roots = .ok (.mk (.Union true) [])) ∧
    (Node.mk (.Union true) []).size = 1 ∧
    (∀ k, parse_text (1 + k) root_then_garbage = .ok (.mk (.Union true) [])) ∧
    MakeNode (lit "garbage") = .throw (.runtime_error (lit "Bad format: 'garbage'")) := by
  refine ⟨by decide, ?_, rfl, ?_, rfl⟩
  · intro k
    have h : parse_text 1 two_roots = .ok (.mk (.Union true) []) := rfl
    rw [parse_text_fuel_add 1 k _ (by rw [h]; exact fun h0 => Res.noConfusion h0), h]
  · intro k
    have h : parse_text 1 root_then_garbage = .ok (.mk (.Union true) []) := rfl
    rw [parse_text_fuel_add 1 k _ (by rw [h]; exact fun h0 => Res.noConfusion h0), h]

theorem made_lines_ne_nil (ls : List Str) (ps : List Payload)
    (h : ls.map (fun l => (MakeNode l).map Node.payload) = ps.map Res.ok) :
    ∀ l ∈ ls, l ≠ [] := by
  intro l hl h0
  have hm : (MakeNode l).map Node.payload ∈ ps.map Res.ok := by
    rw [← h]
    exact List.mem_map.mpr ⟨l, hl, rfl⟩
  obtain ⟨p, _, hp⟩ := List.mem_map.mp hm
  rw [h0] at hp
  have he : (MakeNode []).map Node.payload =
      .throw (.runtime_error (lit "Bad format: ''")) := rfl
  rw [he] at hp
  exact Res.noConfusion hp

/-- C20, amended: when `parse` returns a tree, the input starts with lines
`ls`, each ended by a newline (or is one line without a newline), none of them
empty, such that every line of `ls` went through `MakeNode` and the nodes of
the tree in pre-order are the nodes made from these lines, one per line and in
their order; so the tree has as many nodes as `ls` has lines. What follows,
`rest`, contributes no node and is not checked; its first line, the one held
when `parse` returns, is empty or missing, or has no space at index 1. -/
theorem parse_lines_and_nodes (fuel : Nat) (text : Str) (T : Node)
    (h : parse_text fuel text = .ok T) :
    ∃ (ls : List Str) (rest : Str),
      (text = unlines ls ++ rest ∨ (ls = [text] ∧ rest = [])) ∧
      (∀ l ∈ ls, '\n' ∉ l) ∧ (∀ l ∈ ls, l ≠ []) ∧
      ls.map (fun l => (MakeNode l).map Node.payload) = T.payloads.map Res.ok ∧
      T.size = ls.length ∧
      (rest.takeWhile (fun c => c ≠ '\n')).get? 1 ≠ some ' ' := by
  simp only [parse_text, parse, StreamParser.new, istringstream] at h
  obtain ⟨root, hroot, h⟩ := Res.bind_eq_ok h
  obtain ⟨r, hr, hT⟩ := Res.bind_eq_ok h
  have hT : r.2 = T := Res.ok.inj hT
  have hlev : (1 : Nat) < 2 ^ 64 := Nat.one_lt_two_pow (by decide)
  rcases getline_cases ⟨text, false, false⟩ [] rfl with ⟨hnl, hg⟩ | ⟨l, t, htext, hnl, hg⟩
  · rw [hg] at hroot hr
    simp only at hroot hr
    rw [getline_dead _ _ (by rfl)] at hr
    obtain ⟨h1, _⟩ := Traverse_dead fuel _ root r (by rfl) hlev hr
    have hTroot : T = root := by rw [← hT, h1]
    have hp : [text].map (fun l => (MakeNode l).map Node.payload) = T.payloads.map Res.ok := by
      rw [hTroot, MakeNode_payloads text root hroot]
      rfl
    refine ⟨[text], [], Or.inr ⟨rfl, rfl⟩, ?_, made_lines_ne_nil _ _ hp, hp,
      size_eq_of_payloads T _ hp, by simp⟩
    intro x hx
    rw [List.mem_singleton.mp hx]
    exact hnl
  · rw [hg] at hroot hr
    simp only at hroot hr
    obtain ⟨hg1, hg2⟩ := getline_live ⟨t, false, false⟩ l 1 rfl
    obtain ⟨ls, a1, a2, a3, a4, _, a6⟩ := Traverse_lines fuel _ root r hg1 hlev hr
    have hp : (l :: ls).map (fun l => (MakeNode l).map Node.payload) =
        T.payloads.map Res.ok := by
      rw [← hT, a3, MakeNode_payloads l root hroot]
      rfl
    refine ⟨l :: ls, r.1.pending, Or.inl ?_, ?_, made_lines_ne_nil _ _ hp, hp,
      size_eq_of_payloads T _ hp, ?_⟩
    · have htext : text = l ++ '\n' :: t := htext
      have hg2 : _ = t := hg2
      rw [htext, unlines, List.append_assoc, List.cons_append, ← a1, hg2]
    · intro x hx
      rcases List.mem_cons.mp hx with rfl | hx
      · exact hnl
      · exact a2 x hx
    · rw [first_line_of_pending r.1 a4]
      rcases a6 with a6 | ⟨_, c, a6, a7⟩
      · rw [a6]
        simp
      · exact string_at_not_space _ _ c a6 a7

/-- The plan of the test, the two lines without indentation, of which only
the first is read, and the plan `deep_then_unindented`, whose last line has no
indentation and yet is read, being tested at index 15: instances of
`parse_lines_and_nodes`. -/
theorem parse_lines_and_nodes_examples :
    parse_text 7 six_line_plan = .ok six_line_tree ∧
    (∃ (ls : List Str) (rest : Str),
      (six_line_plan = unlines ls ++ rest ∨ (ls = [six_line_plan] ∧ rest = [])) ∧
      (∀ l ∈ ls, '\n' ∉ l) ∧ (∀ l ∈ ls, l ≠ []) ∧
      ls.map (fun l => (MakeNode l).map Node.payload) = six_line_tree.payloads.map Res.ok ∧
      six_line_tree.size = ls.length ∧
      (rest.takeWhile (fun c => c ≠ '\n')).get? 1 ≠ some ' ') ∧
    parse_text 1 two_roots = .ok (.mk (.Union true) []) ∧
    (∃ (ls : List Str) (rest : Str),
      (two_roots = unlines ls ++ rest ∨ (ls = [two_roots] ∧ rest = [])) ∧
      (∀ l ∈ ls, '\n' ∉ l) ∧ (∀ l ∈ ls, l ≠ []) ∧
      ls.map (fun l => (MakeNode l).map Node.payload) =
        (Node.mk (.Union true) []).payloads.map Res.ok ∧
      (Node.mk (.Union true) []).size = ls.length ∧
      (rest.takeWhile (fun c => c ≠ '\n')).get? 1 ≠ some ' ') ∧
    parse_text 9 deep_then_unindented =
      .ok (union_chain 8 (.mk (.Scan [lit "A", lit "B"]) [])) ∧
    (union_chain 8 (.mk (.Scan [lit "A", lit "B"]) [])).size = 9 ∧
    (lit "Scan(table=[[A, B]])").get? 1 = some 'c' ∧
    string_at (lit "Scan(table=[[A, B]])") 15 = .ok ' ' ∧
    (∃ (ls : List Str) (rest : Str),
      (deep_then_unindented = unlines ls ++ rest ∨
        (ls = [deep_then_unindented] ∧ rest = [])) ∧
      (∀ l ∈ ls, '\n' ∉ l) ∧ (∀ l ∈ ls, l ≠ []) ∧
      ls.map (fun l => (MakeNode l).map Node.payload) =
        (union_chain 8 (.mk (.Scan [lit "A", lit "B"]) [])).payloads.map Res.ok ∧
      (union_chain 8 (.mk (.Scan [lit "A", lit "B"]) [])).size = ls.length ∧
      (rest.takeWhile (fun c => c ≠ '\n')).get? 1 ≠ some ' ') :=
  ⟨rfl, parse_lines_and_nodes 7 six_line_plan six_line_tree rfl,
    rfl, parse_lines_and_nodes 1 two_roots _ rfl,
    rfl, rfl, rfl, rfl, parse_lines_and_nodes 9 deep_then_unindented _ rfl⟩

/-! ## Streams that end without a newline -/

theorem string_at_cases (s : Str) (pos : Nat) :
    (∃ c, string_at s pos = .ok c) ∨ string_at s pos = .undefined := by
  unfold string_at
  split
  · exact Or.inl ⟨_, rfl⟩
  · split
    · exact Or.inl ⟨_, rfl⟩
    · exact Or.inr rfl

/-- On a stream that is not good `std::getline` reads nothing and leaves
`format` as it was, so `Traverse` sees the same line again: it never throws
(the line made a node before), and when the line has a space at index `level`
it does not return either, whatever the fuel. -/
theorem Traverse_exhausted (f : Str) (node : Node) (hf : f ≠ [])
    (hm : MakeNode f = .ok node) (fuel : Nat) :
    ∀ (st : StreamParser) (parent : Node),
      (st.istream_.eofbit || st.istream_.failbit) = true → st.level < 2 ^ 64 →
      st.format = f →
      (∀ e, Traverse fuel st parent ≠ .throw e) ∧
      (string_at f st.level = .ok ' ' →
        Traverse fuel st parent = .outOfFuel ∨ Traverse fuel st parent = .undefined) := by
  induction fuel with
  | zero =>
    intro st parent _ _ _
    have h0 : Traverse 0 st parent = .outOfFuel := rfl
    rw [h0]
    exact ⟨fun e h => Res.noConfusion h, fun _ => Or.inl rfl⟩
  | succ fuel ih =>
    intro st parent hdead hlev hfmt
    obtain ⟨down, up, hdown, hup, heq⟩ := Traverse_succ_named fuel st parent
    have hne : st.format ≠ [] := by rw [hfmt]; exact hf
    have hm1 : MakeNode st.format = .ok node := by rw [hfmt]; exact hm
    rw [heq, if_neg hne]
    rcases string_at_cases st.format st.level with ⟨c, hc⟩ | hu
    · rw [hc, Res.bind_ok]
      by_cases hsp : c = ' '
      · rw [if_neg (not_not.mpr hsp), hm1, Res.bind_ok, getline_dead _ _ hdead]
        have hup1 : up < 2 ^ 64 := by rw [hup]; exact Nat.mod_lt _ pow64_pos
        have hback : (up + 2 ^ 64 - 2) % 2 ^ 64 = st.level := by
          rw [hup]; exact level_add_sub st.level hlev
        generalize hst1 : (StreamParser.mk (istream.mk st.istream_.text st.istream_.eofbit true)
          st.format up) = st1
        have s1 : st1.format = f := by rw [← hst1]; exact hfmt
        have s2 : st1.level = up := by rw [← hst1]
        have s3 : (st1.istream_.eofbit || st1.istream_.failbit) = true := by
          rw [← hst1]; exact Bool.or_true _
        have s4 : st1.level < 2 ^ 64 := by rw [s2]; exact hup1
        cases hres : Traverse fuel st1 node with
        | ok r =>
          rw [Res.bind_ok]
          obtain ⟨_, r2, r3, r4, r5⟩ := Traverse_dead fuel st1 node r s3 s4 hres
          have r6 : r.1.format = f := by rw [r2, s1]
          have r7 : r.1.level = st.level := by
            rcases r5 with r5 | ⟨r5, _⟩
            · exact absurd (s1 ▸ r5) hf
            · rw [r5, s2, hback]
          obtain ⟨i1, i2⟩ := ih r.1 (parent.append r.2) r3 r4 r6
          refine ⟨i1, fun h => i2 ?_⟩
          rw [r7]
          exact h
        | throw e => exact absurd hres ((ih st1 node s3 s4 s1).1 e)
        | undefined => exact ⟨fun e h => Res.noConfusion h, fun _ => Or.inr rfl⟩
        | outOfFuel => exact ⟨fun e h => Res.noConfusion h, fun _ => Or.inl rfl⟩
      · rw [if_pos hsp]
        refine ⟨fun e h => Res.noConfusion h, fun h => ?_⟩
        rw [hfmt] at hc
        rw [hc] at h
        exact absurd (Res.ok.inj h) hsp
    · rw [hu]
      exact ⟨fun e h => Res.noConfusion h, fun _ => Or.inr rfl⟩

theorem append_cons_inj (a : Char) :
    ∀ (l l1 t t1 : Str), a ∉ l → a ∉ l1 → l ++ a :: t = l1 ++ a :: t1 → l = l1 ∧ t = t1
  | [], [], _, _, _, _, h => ⟨rfl, (List.cons.inj h).2⟩
  | [], y :: l1, _, _, _, h2, h =>
    absurd ((List.cons.inj h).1 ▸ List.mem_cons_self _ _) h2
  | x :: l, [], _, _, h1, _, h =>
    absurd ((List.cons.inj h).1.symm ▸ List.mem_cons_self _ _) h1
  | x :: l, y :: l1, t, t1, h1, h2, h => by
    obtain ⟨e1, e2⟩ := List.cons.inj h
    obtain ⟨i1, i2⟩ := append_cons_inj a l l1 t t1
      (fun hm => h1 (List.mem_cons_of_mem _ hm)) (fun hm => h2 (List.mem_cons_of_mem _ hm)) e2
    exact ⟨by rw [e1, i1], i2⟩

theorem getline_line (l t str : Str) (h : '\n' ∉ l) :
    getline ⟨l ++ '\n' :: t, false, false⟩ str = (⟨t, false, false⟩, l) := by
  rcases getline_cases ⟨l ++ '\n' :: t, false, false⟩ str rfl with ⟨h1, _⟩ | ⟨l1, t1, h1, h2, h3⟩
  · exact absurd (List.mem_append_right l (List.mem_cons_self _ _)) h1
  · have h1 : l ++ '\n' :: t = l1 ++ '\n' :: t1 := h1
    obtain ⟨e1, e2⟩ := append_cons_inj _ _ _ _ _ h h2 h1
    rw [h3, e1, e2]

theorem getline_last (l str : Str) (h : '\n' ∉ l) :
    getline ⟨l, false, false⟩ str = (⟨[], true, l.isEmpty⟩, l) := by
  rcases getline_cases ⟨l, false, false⟩ str rfl with ⟨_, h1⟩ | ⟨l1, t1, h1, _, _⟩
  · exact h1
  · have h1 : l = l1 ++ '\n' :: t1 := h1
    exact absurd (h1 ▸ List.mem_append_right l1 (List.mem_cons_self _ _)) h

/-- C21, on the code: an input of two lines of which the second is indented
and has no newline after it (both lines make a node) is a finite stream on
which `parse` neither returns a tree nor fails, whatever the fuel: the second
`std::getline` reaches the end of the stream, every later one fails and leaves
`format` as it was, and the loop of `Traverse` makes and appends a node from
the last line again and again. -/
theorem parse_of_unterminated_last_line_never_returns (fuel : Nat) (first last : Str)
    (root node : Node) (h1 : '\n' ∉ first) (h2 : '\n' ∉ last)
    (hroot : MakeNode first = .ok root) (hnode : MakeNode last = .ok node)
    (hsp : string_at last 1 = .ok ' ') :
    parse_text fuel (first ++ '\n' :: last) = .outOfFuel ∨
      parse_text fuel (first ++ '\n' :: last) = .undefined := by
  have hne : last ≠ [] := by
    intro h
    rw [h] at hsp
    exact Res.noConfusion hsp
  have hlev : (1 : Nat) < 2 ^ 64 := Nat.one_lt_two_pow (by decide)
  simp only [parse_text, parse, StreamParser.new, istringstream]
  rw [getline_line first last [] h1]
  simp only
  rw [hroot, Res.bind_ok, getline_last last first h2]
  simp only
  rcases (Traverse_exhausted last node hne hnode fuel ⟨⟨[], true, last.isEmpty⟩, last, 1⟩ root
    rfl hlev rfl).2 hsp with h | h
  · left
    rw [h]
    rfl
  · right
    rw [h]
    rfl

/-- The text the printer writes for a Union node over a Scan node, an instance
of `parse_of_unterminated_last_line_never_returns`. -/
theorem parse_of_printed_union_over_scan_never_returns :
    print union_over_scan = .ok (lit "Union(all=[true])" ++ '\n' :: lit "  Scan(table=[[A]])") ∧
    (parse_text 1000 (lit "Union(all=[true])" ++ '\n' :: lit "  Scan(table=[[A]])") = .outOfFuel ∨
      parse_text 1000 (lit "Union(all=[true])" ++ '\n' :: lit "  Scan(table=[[A]])") =
        .undefined) :=
  ⟨rfl, parse_of_unterminated_last_line_never_returns 1000 (lit "Union(all=[true])")
    (lit "  Scan(table=[[A]])") (.mk (.Union true) []) (.mk (.Scan [lit "A"]) [])
    (by decide) (by decide) rfl rfl rfl⟩

/-! ## Deep plans -/

/-- The plan `deep_then_spaced` is read inside every line, and its last line,
at depth 1, becomes the child of the node at depth 8 instead of the second
child of the root: when it is tested `level` is 17, and the character at index
17 of the line is the space after the comma of its list. -/
theorem parse_attaches_shallow_line_to_deepest_node :
    (deep_then_spaced.splitOn '\n').map (fun l => (l.takeWhile (fun c => c = ' ')).length) =
      [0, 2, 4, 6, 8, 10, 12, 14, 16, 2, 0] ∧
    string_at (lit "  Scan(table=[[A, B]])") 17 = .ok ' ' ∧
    (union_chain 9 (.mk (.Scan [lit "A", lit "B"]) [])).children.length = 1 ∧
    ∀ k, parse_text (10 + k) deep_then_spaced =
      .ok (union_chain 9 (.mk (.Scan [lit "A", lit "B"]) [])) := by
  refine ⟨rfl, rfl, rfl, ?_⟩
  intro k
  have h : parse_text 10 deep_then_spaced =
      .ok (union_chain 9 (.mk (.Scan [lit "A", lit "B"]) [])) := rfl
  rw [parse_text_fuel_add 10 k _ (by rw [h]; exact fun h0 => Res.noConfusion h0), h]

/-- C23, on the code: `deep_left_branch` is a valid tree, a Union node over a
chain that reaches depth 10 and over a Scan node; its canonical text has the
twelve lines of the lengths shown, the last one `  Scan(table=[[B]])` of 19
characters. On that text with a newline after every line, `Traverse` tests the
last line with `level` 21, the index for the children of the line before it:
`format[21]` lies outside the line, and for every amount of fuel from 11 on the
parse reads there and returns no tree. -/
theorem parse_of_canonical_text_reads_outside_line :
    deep_left_branch.valid = true ∧
    (print deep_left_branch).map (fun t => (t.splitOn '\n').map List.length) =
      .ok [17, 17, 19, 21, 23, 25, 27, 29, 31, 33, 37, 19] ∧
    (print deep_left_branch).map (fun t => (t.splitOn '\n').getLast?) =
      .ok (some (lit "  Scan(table=[[B]])")) ∧
    string_at (lit "  Scan(table=[[B]])") 21 = .undefined ∧
    ∀ k, (print deep_left_branch).bind (fun t => parse_text (11 + k) (t ++ ['\n'])) =
      .undefined := by
  refine ⟨rfl, rfl, rfl, rfl, ?_⟩
  intro k
  obtain ⟨t, ht, hp⟩ : ∃ t, print deep_left_branch = .ok t ∧
      parse_text 11 (t ++ ['\n']) = .undefined := ⟨_, rfl, rfl⟩
  rw [ht, Res.bind_ok,
    parse_text_fuel_add 11 k _ (by rw [hp]; exact fun h0 => Res.noConfusion h0), hp]

/-! ## One tree per canonical text -/

theorem token_of_spec (p : Char → Bool) (t : Str) (h : token_of p t = true) :
    t ≠ [] ∧ ∀ c ∈ t, p c = true := by
  unfold token_of at h
  rw [Bool.and_eq_true] at h
  refine ⟨?_, List.all_eq_true.mp h.2⟩
  intro h0
  rw [h0] at h
  exact absurd h.1 (by decide)

theorem isupper_plain (c : Char) (h : isupper c = true) : c ≠ ',' ∧ c ≠ '\n' ∧ c ≠ ' ' := by
  refine ⟨?_, ?_, ?_⟩ <;> intro hc <;> subst hc <;> exact absurd h (by decide)

theorem isalpha_plain (c : Char) (h : isalpha c = true) :
    c ≠ ',' ∧ c ≠ '\n' ∧ c ≠ ' ' ∧ c ≠ '=' := by
  refine ⟨?_, ?_, ?_, ?_⟩ <;> intro hc <;> subst hc <;> exact absurd h (by decide)

theorem isdigit_plain (c : Char) (h : isdigit c = true) : c ≠ ',' ∧ c ≠ '\n' ∧ c ≠ ' ' := by
  refine ⟨?_, ?_, ?_⟩ <;> intro hc <;> subst hc <;> exact absurd h (by decide)

theorem comma_join_cons (x : Str) (xs : List Str) (hne : xs ≠ []) :
    comma_join (x :: xs) = x ++ ',' :: ' ' :: comma_join xs := by
  cases xs with
  | nil => exact absurd rfl hne
  | cons y rest =>
    show x ++ lit ", " ++ comma_join (y :: rest) = _
    rw [List.append_assoc]
    rfl

/-- Strings without a comma are recovered from their join. -/
theorem comma_join_injective :
    ∀ (xs ys : List Str), xs ≠ [] → ys ≠ [] → (∀ x ∈ xs, ',' ∉ x) → (∀ y ∈ ys, ',' ∉ y) →
      comma_join xs = comma_join ys → xs = ys
  | [], _, h, _, _, _, _ => absurd rfl h
  | _ :: _, [], _, h, _, _, _ => absurd rfl h
  | [x], [y], _, _, _, _, h => by
    have h : x = y := h
    rw [h]
  | [x], y :: y2 :: r, _, _, hx, _, h => by
    rw [comma_join_cons y (y2 :: r) (List.cons_ne_nil _ _)] at h
    have h : x = y ++ ',' :: ' ' :: comma_join (y2 :: r) := h
    exact absurd (h ▸ List.mem_append_right y (List.mem_cons_self _ _))
      (hx x (List.mem_cons_self _ _))
  | x :: x2 :: r, [y], _, _, _, hy, h => by
    rw [comma_join_cons x (x2 :: r) (List.cons_ne_nil _ _)] at h
    have h : x ++ ',' :: ' ' :: comma_join (x2 :: r) = y := h
    exact absurd (h ▸ List.mem_append_right x (List.mem_cons_self _ _))
      (hy y (List.mem_cons_self _ _))
  | x :: x2 :: r, y :: y2 :: r2, _, _, hx, hy, h => by
    rw [comma_join_cons x (x2 :: r) (List.cons_ne_nil _ _),
      comma_join_cons y (y2 :: r2) (List.cons_ne_nil _ _)] at h
    obtain ⟨e1, e2⟩ := append_cons_inj ',' _ _ _ _ (hx x (List.mem_cons_self _ _))
      (hy y (List.mem_cons_self _ _)) h
    have ih := comma_join_injective (x2 :: r) (y2 :: r2) (List.cons_ne_nil _ _)
      (List.cons_ne_nil _ _) (fun a ha => hx a (List.mem_cons_of_mem _ ha))
      (fun a ha => hy a (List.mem_cons_of_mem _ ha)) (List.cons.inj e2).2
    rw [e1, ih]

theorem to_string_injective (a b : Nat) (h : to_string a = to_string b) : a = b := by
  rw [← decimal_value_to_string a, ← decimal_value_to_string b, h]

theorem project_item_eq (pair : Str × Nat) :
    project_item pair = pair.1 ++ '=' :: ('[' :: '$' :: (to_string pair.2 ++ [']'])) := by
  simp [project_item]

theorem project_item_injective (p q : Str × Nat) (hp : ∀ c ∈ p.1, isalpha c = true)
    (hq : ∀ c ∈ q.1, isalpha c = true) (h : project_item p = project_item q) : p = q := by
  rw [project_item_eq, project_item_eq] at h
  obtain ⟨e1, e2⟩ := append_cons_inj '=' _ _ _ _
    (fun hm => (isalpha_plain _ (hp _ hm)).2.2.2 rfl)
    (fun hm => (isalpha_plain _ (hq _ hm)).2.2.2 rfl) h
  have e3 : to_string p.2 ++ [']'] = to_string q.2 ++ [']'] :=
    (List.cons.inj (List.cons.inj e2).2).2
  exact Prod.ext e1 (to_string_injective _ _ (List.append_cancel_right e3))

theorem comma_not_mem_project_item (p : Str × Nat) (hp : ∀ c ∈ p.1, isalpha c = true) :
    ',' ∉ project_item p := by
  rw [project_item_eq]
  intro hm
  rcases List.mem_append.mp hm with hm | hm
  · exact (isalpha_plain _ (hp _ hm)).1 rfl
  · simp only [List.mem_cons, List.mem_append, List.mem_singleton] at hm
    rcases hm with hm | hm | hm | hm | hm
    · exact absurd hm (by decide)
    · exact absurd hm (by decide)
    · exact absurd hm (by decide)
    · exact (isdigit_plain _ (to_string_isdigit _ _ hm)).1 rfl
    · rcases hm with hm | hm
      · exact absurd hm (by decide)
      · exact absurd hm (List.not_mem_nil _)

theorem Payload.valid_nonempty (p : Payload) (h : p.valid = true) : p.nonempty = true := by
  cases p with
  | Scan path =>
    simp only [Payload.valid, Bool.and_eq_true] at h
    exact h.1
  | Union all => rfl
  | Aggregate g => exact h
  | Project pairs =>
    simp only [Payload.valid, Bool.and_eq_true] at h
    exact h.1

theorem ne_nil_of_not_isEmpty {α : Type} (l : List α) (h : (!l.isEmpty) = true) : l ≠ [] := by
  intro h0
  rw [h0] at h
  exact Bool.noConfusion h

/-- The string conversion of a node whose payload sequence is not empty is the
line body of its payload. -/
theorem toStr_eq_body (p : Payload) (cs : List Node) (h : p.nonempty = true) :
    (Node.mk p cs).toStr = .ok p.body := by
  cases p with
  | Scan path =>
    have hne : path ≠ [] := ne_nil_of_not_isEmpty path h
    simp only [Node.toStr, inserts_eq_comma_join _ path hne, Res.map, List.map_id', Payload.body]
    rfl
  | Union all => cases all <;> rfl
  | Aggregate g =>
    have hne : g ≠ [] := ne_nil_of_not_isEmpty g h
    simp only [Node.toStr, inserts_eq_comma_join _ g hne, Res.map, Payload.body]
    rfl
  | Project pairs =>
    have hne : pairs ≠ [] := ne_nil_of_not_isEmpty pairs h
    simp only [Node.toStr, inserts_eq_comma_join _ pairs hne, Res.map, Payload.body]
    rfl

theorem Payload.body_head (p : Payload) :
    p.body.head? = some 'S' ∧ (∃ path, p = .Scan path) ∨
    p.body.head? = some 'U' ∧ (∃ all, p = .Union all) ∨
    p.body.head? = some 'A' ∧ (∃ g, p = .Aggregate g) ∨
    p.body.head? = some 'P' ∧ (∃ pairs, p = .Project pairs) := by
  cases p with
  | Scan path => exact Or.inl ⟨rfl, _, rfl⟩
  | Union all => cases all <;> exact Or.inr (Or.inl ⟨rfl, _, rfl⟩)
  | Aggregate g => exact Or.inr (Or.inr (Or.inl ⟨rfl, _, rfl⟩))
  | Project pairs => exact Or.inr (Or.inr (Or.inr ⟨rfl, _, rfl⟩))

theorem Payload.body_head_not_space (p : Payload) :
    ∃ c, p.body.head? = some c ∧ c ≠ ' ' := by
  rcases Payload.body_head p with ⟨h, _⟩ | ⟨h, _⟩ | ⟨h, _⟩ | ⟨h, _⟩ <;>
    exact ⟨_, h, by decide⟩

/-- Valid payloads with the same line body are equal. -/
theorem Payload.body_injective (p q : Payload) (hp : p.valid = true) (hq : q.valid = true)
    (h : p.body = q.body) : p = q := by
  have hh := congrArg List.head? h
  rcases Payload.body_head p with ⟨h1, x, rfl⟩ | ⟨h1, x, rfl⟩ | ⟨h1, x, rfl⟩ | ⟨h1, x, rfl⟩ <;>
    rcases Payload.body_head q with ⟨h2, y, rfl⟩ | ⟨h2, y, rfl⟩ | ⟨h2, y, rfl⟩ | ⟨h2, y, rfl⟩ <;>
    rw [h1, h2] at hh <;>
    first
    | exact absurd hh (by decide)
    | skip
  · simp only [Payload.valid, Bool.and_eq_true] at hp hq
    have e : comma_join x = comma_join y :=
      List.append_cancel_left (List.append_cancel_right h)
    have hx : ∀ s ∈ x, ',' ∉ s := fun s hs hm =>
      (isupper_plain _ ((token_of_spec _ _ (List.all_eq_true.mp hp.2 s hs)).2 _ hm)).1 rfl
    have hy : ∀ s ∈ y, ',' ∉ s := fun s hs hm =>
      (isupper_plain _ ((token_of_spec _ _ (List.all_eq_true.mp hq.2 s hs)).2 _ hm)).1 rfl
    rw [comma_join_injective x y (ne_nil_of_not_isEmpty _ hp.1) (ne_nil_of_not_isEmpty _ hq.1)
      hx hy e]
  · cases x <;> cases y <;> first | rfl | exact absurd h (by decide)
  · have e : comma_join (x.map to_string) = comma_join (y.map to_string) :=
      List.append_cancel_left (List.append_cancel_right h)
    have hc : ∀ (l : List Nat), ∀ s ∈ l.map to_string, ',' ∉ s := by
      intro l s hs hm
      obtain ⟨n, _, rfl⟩ := List.mem_map.mp hs
      exact (isdigit_plain _ (to_string_isdigit _ _ hm)).1 rfl
    have hne : ∀ (l : List Nat), (!l.isEmpty) = true → l.map to_string ≠ [] := by
      intro l hl h0
      exact ne_nil_of_not_isEmpty l hl (List.map_eq_nil_iff.mp h0)
    have e2 := comma_join_injective _ _ (hne x hp) (hne y hq) (hc x) (hc y) e
    rw [List.map_injective_iff.mpr (fun a b => to_string_injective a b) e2]
  · simp only [Payload.valid, Bool.and_eq_true] at hp hq
    have e : comma_join (x.map project_item) = comma_join (y.map project_item) :=
      List.append_cancel_left (List.append_cancel_right h)
    have ha : ∀ (l : List (Str × Nat)),
        (l.all fun pair => token_of isalpha pair.1) = true →
        ∀ pr ∈ l, ∀ c ∈ pr.1, isalpha c = true := fun l hl pr hpr =>
      (token_of_spec _ _ (List.all_eq_true.mp hl pr hpr)).2
    have hc : ∀ (l : List (Str × Nat)),
        (l.all fun pair => token_of isalpha pair.1) = true →
        ∀ s ∈ l.map project_item, ',' ∉ s := by
      intro l hl s hs
      obtain ⟨pr, hpr, rfl⟩ := List.mem_map.mp hs
      exact comma_not_mem_project_item pr (ha l hl pr hpr)
    have hne : ∀ (l : List (Str × Nat)), (!l.isEmpty) = true → l.map project_item ≠ [] := by
      intro l hl h0
      exact ne_nil_of_not_isEmpty l hl (List.map_eq_nil_iff.mp h0)
    have e2 := comma_join_injective _ _ (hne x hp.1) (hne y hq.1) (hc x hp.2) (hc y hq.2) e
    have e3 : ∀ (l1 l2 : List (Str × Nat)),
        (∀ pr ∈ l1, ∀ c ∈ pr.1, isalpha c = true) → (∀ pr ∈ l2, ∀ c ∈ pr.1, isalpha c = true) →
        l1.map project_item = l2.map project_item → l1 = l2 := by
      intro l1
      induction l1 with
      | nil =>
        intro l2 _ _ hm
        cases l2 with
        | nil => rfl
        | cons b l2 => cases hm
      | cons a l1 ih =>
        intro l2 h1 h2 hm
        cases l2 with
        | nil => cases hm
        | cons b l2 =>
          obtain ⟨m1, m2⟩ := List.cons.inj hm
          rw [project_item_injective a b (h1 a (List.mem_cons_self _ _))
            (h2 b (List.mem_cons_self _ _)) m1,
            ih l2 (fun pr hpr => h1 pr (List.mem_cons_of_mem _ hpr))
              (fun pr hpr => h2 pr (List.mem_cons_of_mem _ hpr)) m2]
    rw [e3 x y (ha x hp.2) (ha y hq.2) e2]

theorem Payload.valid_newline_free (p : Payload) (h : p.valid = true) :
    p.newline_free = true := by
  cases p with
  | Scan path =>
    simp only [Payload.valid, Bool.and_eq_true] at h
    simp only [Payload.newline_free, List.all_eq_true]
    intro part hpart
    have ht := (token_of_spec _ _ (List.all_eq_true.mp h.2 part hpart)).2
    simp only [Bool.not_eq_true', List.contains_eq_any_beq, List.any_eq_false, beq_iff_eq]
    intro c hc hcn
    exact (isupper_plain c (ht c hc)).2.1 hcn.symm
  | Union all => rfl
  | Aggregate g => rfl
  | Project pairs =>
    simp only [Payload.valid, Bool.and_eq_true] at h
    simp only [Payload.newline_free, List.all_eq_true]
    intro pr hpr
    have ht := (token_of_spec _ _ (List.all_eq_true.mp h.2 pr hpr)).2
    simp only [Bool.not_eq_true', List.contains_eq_any_beq, List.any_eq_false, beq_iff_eq]
    intro c hc hcn
    exact (isalpha_plain c (ht c hc)).2.1 hcn.symm

theorem replicate_space_inj :
    ∀ (a b : Nat) (x y : Str), (∃ c, x.head? = some c ∧ c ≠ ' ') →
      (∃ c, y.head? = some c ∧ c ≠ ' ') →
      List.replicate a ' ' ++ x = List.replicate b ' ' ++ y → a = b ∧ x = y
  | 0, 0, _, _, _, _, h => ⟨rfl, h⟩
  | 0, b + 1, x, y, ⟨c, hc, hne⟩, _, h => by
    have h : x = ' ' :: (List.replicate b ' ' ++ y) := h
    rw [h] at hc
    exact absurd (Option.some.inj hc).symm hne
  | a + 1, 0, x, y, _, ⟨c, hc, hne⟩, h => by
    have h : ' ' :: (List.replicate a ' ' ++ x) = y := h
    rw [← h] at hc
    exact absurd (Option.some.inj hc).symm hne
  | a + 1, b + 1, x, y, hx, hy, h => by
    have h : ' ' :: (List.replicate a ' ' ++ x) = ' ' :: (List.replicate b ' ' ++ y) := h
    obtain ⟨e1, e2⟩ := replicate_space_inj a b x y hx hy (List.cons.inj h).2
    exact ⟨by rw [e1], e2⟩

theorem line_split (l l1 X X1 : Str) (hl : '\n' ∉ l) (hl1 : '\n' ∉ l1)
    (hX : X = [] ∨ ∃ t, X = '\n' :: t) (hX1 : X1 = [] ∨ ∃ t, X1 = '\n' :: t)
    (h : l ++ X = l1 ++ X1) : l = l1 ∧ X = X1 := by
  rcases hX with rfl | ⟨t, rfl⟩ <;> rcases hX1 with rfl | ⟨t1, rfl⟩
  · rw [List.append_nil, List.append_nil] at h
    exact ⟨h, rfl⟩
  · rw [List.append_nil] at h
    exact absurd (h ▸ List.mem_append_right l1 (List.mem_cons_self _ _)) hl
  · rw [List.append_nil] at h
    exact absurd (h ▸ List.mem_append_right l (List.mem_cons_self _ _)) hl1
  · obtain ⟨e1, e2⟩ := append_cons_inj '\n' _ _ _ _ hl hl1 h
    exact ⟨e1, by rw [e2]⟩

theorem join_rest_form (ls : List Str) : join_rest ls = [] ∨ ∃ t, join_rest ls = '\n' :: t := by
  cases ls with
  | nil => exact Or.inl rfl
  | cons l ls => exact Or.inr ⟨_, rfl⟩

theorem join_rest_injective :
    ∀ (ls ls1 : List Str), (∀ l ∈ ls, '\n' ∉ l) → (∀ l ∈ ls1, '\n' ∉ l) →
      join_rest ls = join_rest ls1 → ls = ls1
  | [], [], _, _, _ => rfl
  | [], _ :: _, _, _, h => List.noConfusion h
  | _ :: _, [], _, _, h => List.noConfusion h
  | l :: ls, l1 :: ls1, hl, hl1, h => by
    have h : '\n' :: (l ++ join_rest ls) = '\n' :: (l1 ++ join_rest ls1) := h
    obtain ⟨e1, e2⟩ := line_split l l1 _ _ (hl l (List.mem_cons_self _ _))
      (hl1 l1 (List.mem_cons_self _ _)) (join_rest_form ls) (join_rest_form ls1)
      (List.cons.inj h).2
    rw [e1, join_rest_injective ls ls1 (fun a ha => hl a (List.mem_cons_of_mem _ ha))
      (fun a ha => hl1 a (List.mem_cons_of_mem _ ha)) e2]

/-- Lines without a newline are recovered from their join. -/
theorem join_lines_injective (ls ls1 : List Str) (hne : ls ≠ []) (hne1 : ls1 ≠ [])
    (hl : ∀ l ∈ ls, '\n' ∉ l) (hl1 : ∀ l ∈ ls1, '\n' ∉ l)
    (h : join_lines ls = join_lines ls1) : ls = ls1 := by
  cases ls with
  | nil => exact absurd rfl hne
  | cons l ls =>
    cases ls1 with
    | nil => exact absurd rfl hne1
    | cons l1 ls1 =>
      have h : l ++ join_rest ls = l1 ++ join_rest ls1 := h
      obtain ⟨e1, e2⟩ := line_split l l1 _ _ (hl l (List.mem_cons_self _ _))
        (hl1 l1 (List.mem_cons_self _ _)) (join_rest_form ls) (join_rest_form ls1) h
      rw [e1, join_rest_injective ls ls1 (fun a ha => hl a (List.mem_cons_of_mem _ ha))
        (fun a ha => hl1 a (List.mem_cons_of_mem _ ha)) e2]

theorem Res.sequence_map_ok {α β : Type} (f : α → β) :
    ∀ xs : List α, Res.sequence (xs.map fun x => Res.ok (f x)) = .ok (xs.map f)
  | [] => rfl
  | x :: xs => by
    rw [List.map_cons, Res.sequence_cons, Res.bind_ok, Res.sequence_map_ok f xs, Res.bind_ok]
    rfl

theorem Node.line_valid (n : Node) (d : Nat) (h : n.payload.valid = true) :
    n.line d = .ok (List.replicate (2 * d) ' ' ++ n.payload.body) := by
  cases n with
  | mk p cs =>
    unfold Node.line
    rw [toStr_eq_body p cs (Payload.valid_nonempty p h)]
    rfl

/-- The canonical text of a valid tree: for each node in pre-order the line of
`2 * depth` spaces and the line body of its payload, the lines joined by single
newlines. -/
theorem print_valid (T : Node) (h : T.valid = true) :
    print T = .ok (join_lines ((T.preorder 0).map fun nd =>
      List.replicate (2 * nd.2) ' ' ++ nd.1.payload.body)) := by
  have hv : ∀ nd ∈ T.preorder 0, nd.1.payload.valid = true := List.all_eq_true.mp h
  have hm : ((T.preorder 0).map fun nd => nd.1.line nd.2) =
      (T.preorder 0).map fun nd =>
        Res.ok (List.replicate (2 * nd.2) ' ' ++ nd.1.payload.body) :=
    List.map_congr_left fun nd hnd => Node.line_valid nd.1 nd.2 (hv nd hnd)
  rw [print_eq_lines, Node.lines, hm,
    Res.sequence_map_ok (fun nd : Node × Nat =>
      List.replicate (2 * nd.2) ' ' ++ nd.1.payload.body)]
  rfl

theorem line_text_injective (p q : Payload) (d e : Nat) (hp : p.valid = true)
    (hq : q.valid = true)
    (h : List.replicate (2 * d) ' ' ++ p.body = List.replicate (2 * e) ' ' ++ q.body) :
    p = q ∧ d = e := by
  obtain ⟨e1, e2⟩ := replicate_space_inj _ _ _ _ (Payload.body_head_not_space p)
    (Payload.body_head_not_space q) h
  exact ⟨Payload.body_injective p q hp hq e2, by omega⟩

theorem newline_not_mem_line_text (p : Payload) (d : Nat) (hp : p.valid = true) :
    '\n' ∉ List.replicate (2 * d) ' ' ++ p.body := by
  have h := Node.line_newline_free (.mk p []) d _ (Payload.valid_newline_free p hp)
    (Node.line_valid (.mk p []) d hp)
  exact h

/-- Lists of valid nodes with depths that give the same lines have the same
payloads and depths. -/
theorem payload_depth_of_lines :
    ∀ (P Q : List (Node × Nat)), (∀ nd ∈ P, nd.1.payload.valid = true) →
      (∀ nd ∈ Q, nd.1.payload.valid = true) →
      (P.map fun nd => List.replicate (2 * nd.2) ' ' ++ nd.1.payload.body) =
        (Q.map fun nd => List.replicate (2 * nd.2) ' ' ++ nd.1.payload.body) →
      (P.map fun nd => (nd.1.payload, nd.2)) = (Q.map fun nd => (nd.1.payload, nd.2))
  | [], [], _, _, _ => rfl
  | [], _ :: _, _, _, h => List.noConfusion h
  | _ :: _, [], _, _, h => List.noConfusion h
  | a :: P, b :: Q, hP, hQ, h => by
    rw [List.map_cons, List.map_cons] at h
    obtain ⟨e1, e2⟩ := List.cons.inj h
    obtain ⟨i1, i2⟩ := line_text_injective _ _ _ _ (hP a (List.mem_cons_self _ _))
      (hQ b (List.mem_cons_self _ _)) e1
    rw [List.map_cons, List.map_cons, i1, i2,
      payload_depth_of_lines P Q (fun nd hnd => hP nd (List.mem_cons_of_mem _ hnd))
        (fun nd hnd => hQ nd (List.mem_cons_of_mem _ hnd)) e2]

theorem head_preorders (cs : List Node) (d : Nat) (rest : List (Payload × Nat))
    (hr : ∀ x, rest.head? = some x → x.2 < d) :
    ∀ x, (((Node.preorders cs d).map fun nd => (nd.1.payload, nd.2)) ++ rest).head? = some x →
      x.2 ≤ d := by
  intro x hx
  cases cs with
  | nil => exact Nat.le_of_lt (hr x hx)
  | cons c cs =>
    cases c with
    | mk p cs0 =>
      have hx : some (p, d) = some x := hx
      rw [← Option.some.inj hx]

mutual
/-- A tree is determined by the payloads and depths of its nodes in pre-order,
also when these are followed by entries that start at a depth not below its
root. -/
theorem Node.preorder_injective :
    ∀ (T T1 : Node) (d : Nat) (rest rest1 : List (Payload × Nat)),
      (∀ x, rest.head? = some x → x.2 ≤ d) → (∀ x, rest1.head? = some x → x.2 ≤ d) →
      ((T.preorder d).map fun nd => (nd.1.payload, nd.2)) ++ rest =
        ((T1.preorder d).map fun nd => (nd.1.payload, nd.2)) ++ rest1 →
      T = T1 ∧ rest = rest1
  | .mk p cs, .mk p1 cs1, d, rest, rest1, hr, hr1, h => by
    have h : (p, d) :: (((Node.preorders cs (d + 1)).map fun nd => (nd.1.payload, nd.2)) ++ rest) =
        (p1, d) :: (((Node.preorders cs1 (d + 1)).map fun nd => (nd.1.payload, nd.2)) ++ rest1) :=
      h
    obtain ⟨e1, e2⟩ := List.cons.inj h
    obtain ⟨i1, i2⟩ := Node.preorders_injective cs cs1 (d + 1) rest rest1
      (fun x hx => Nat.lt_succ_of_le (hr x hx)) (fun x hx => Nat.lt_succ_of_le (hr1 x hx)) e2
    rw [(Prod.mk.inj e1).1, i1]
    exact ⟨rfl, i2⟩
theorem Node.preorders_injective :
    ∀ (cs cs1 : List Node) (d : Nat) (rest rest1 : List (Payload × Nat)),
      (∀ x, rest.head? = some x → x.2 < d) → (∀ x, rest1.head? = some x → x.2 < d) →
      ((Node.preorders cs d).map fun nd => (nd.1.payload, nd.2)) ++ rest =
        ((Node.preorders cs1 d).map fun nd => (nd.1.payload, nd.2)) ++ rest1 →
      cs = cs1 ∧ rest = rest1
  | [], [], _, _, _, _, _, h => ⟨rfl, h⟩
  | [], .mk p1 cs0 :: cs1, d, rest, rest1, hr, _, h => by
    have h : rest = (p1, d) :: ((((Node.preorders cs0 (d + 1)) ++ Node.preorders cs1 d).map
        fun nd => (nd.1.payload, nd.2)) ++ rest1) := h
    exact absurd (hr (p1, d) (by rw [h]; rfl)) (Nat.lt_irrefl d)
  | .mk p cs0 :: cs, [], d, rest, rest1, _, hr1, h => by
    have h : (p, d) :: ((((Node.preorders cs0 (d + 1)) ++ Node.preorders cs d).map
        fun nd => (nd.1.payload, nd.2)) ++ rest) = rest1 := h
    exact absurd (hr1 (p, d) (by rw [← h]; rfl)) (Nat.lt_irrefl d)
  | c :: cs, c1 :: cs1, d, rest, rest1, hr, hr1, h => by
    rw [Node.preorders, Node.preorders, List.map_append, List.map_append, List.append_assoc,
      List.append_assoc] at h
    obtain ⟨e1, e2⟩ := Node.preorder_injective c c1 d _ _ (head_preorders cs d rest hr)
      (head_preorders cs1 d rest1 hr1) h
    obtain ⟨i1, i2⟩ := Node.preorders_injective cs cs1 d rest rest1 hr hr1 e2
    rw [e1, i1]
    exact ⟨rfl, i2⟩
end

/-- C24: two trees with valid payloads (the path of a Scan not empty and made
of upper-case tokens, the group of an Aggregate not empty, the pairs of a
Project not empty with alphabetic aliases) that the printer writes as the same
text are the same tree: same shape, kinds, payloads and order of children. -/
theorem canonical_form_unique (T1 T2 : Node) (h1 : T1.valid = true) (h2 : T2.valid = true)
    (h : print T1 = print T2) : T1 = T2 := by
  have hv1 : ∀ nd ∈ T1.preorder 0, nd.1.payload.valid = true := List.all_eq_true.mp h1
  have hv2 : ∀ nd ∈ T2.preorder 0, nd.1.payload.valid = true := List.all_eq_true.mp h2
  rw [print_valid T1 h1, print_valid T2 h2] at h
  have hl : ∀ (T : Node), (∀ nd ∈ T.preorder 0, nd.1.payload.valid = true) →
      ∀ l ∈ (T.preorder 0).map (fun nd => List.replicate (2 * nd.2) ' ' ++ nd.1.payload.body),
        '\n' ∉ l := by
    intro T hv l hmem
    obtain ⟨nd, hnd, rfl⟩ := List.mem_map.mp hmem
    exact newline_not_mem_line_text _ _ (hv nd hnd)
  have hne : ∀ (T : Node),
      (T.preorder 0).map (fun nd => List.replicate (2 * nd.2) ' ' ++ nd.1.payload.body) ≠ [] :=
    fun T h0 => Node.preorder_ne_nil T 0 (List.map_eq_nil_iff.mp h0)
  have hlines := join_lines_injective _ _ (hne T1) (hne T2) (hl T1 hv1) (hl T2 hv2)
    (Res.ok.inj h)
  have hpd := payload_depth_of_lines _ _ hv1 hv2 hlines
  have hfin := Node.preorder_injective T1 T2 0 [] [] (fun x hx => Option.noConfusion hx)
    (fun x hx => Option.noConfusion hx) (by rw [List.append_nil, List.append_nil]; exact hpd)
  exact hfin.1

/-- A Union node over a Scan node, written down and built by `append`, an
instance of `canonical_form_unique`; and the trees of the printer test and of
the parser test, which are valid and differ in one segment of a path, so that
their texts differ. -/
theorem canonical_form_unique_test_trees :
    (union_over_scan.valid = true ∧
      print union_over_scan =
        print ((Node.mk (.Union true) []).append (.mk (.Scan [lit "A"]) [])) ∧
      union_over_scan = (Node.mk (.Union true) []).append (.mk (.Scan [lit "A"]) [])) ∧
    (output_tree.valid = true ∧ six_line_tree.valid = true ∧
      output_tree.payloads ≠ six_line_tree.payloads ∧
      print output_tree ≠ print six_line_tree) :=
  ⟨⟨rfl, rfl, canonical_form_unique _ _ rfl rfl rfl⟩, rfl, rfl, by decide,
    fun h => absurd (congrArg Node.payloads
      (canonical_form_unique output_tree six_line_tree rfl rfl h)) (by decide)⟩

/-! ## What the line pattern accepts -/

theorem Regex.star_run_sound (body : Str → Captures → Kont → Option Captures)
    (L : Str → Prop)
    (hbody : ∀ s m k res, body s m k = some res →
      ∃ s1 s2 m1, s = s1 ++ s2 ∧ L s1 ∧ k s2 m1 = some res) :
    ∀ (fuel : Nat) (s : Str) (m : Captures) (k : Kont) (res : Captures),
      Regex.star_run body fuel s m k = some res →
      ∃ parts s2 m1, s = List.flatten parts ++ s2 ∧ (∀ p ∈ parts, L p) ∧ k s2 m1 = some res
  | 0, s, m, k, res, h => ⟨[], s, m, rfl, fun _ hp => absurd hp (List.not_mem_nil _), h⟩
  | fuel + 1, s, m, k, res, h => by
    rw [Regex.star_run] at h
    split at h
    · rename_i r hb
      obtain ⟨s1, s2, m1, e1, l1, hk⟩ := hbody _ _ _ _ hb
      split at hk
      · obtain ⟨parts, s3, m2, e2, l2, hk2⟩ := Regex.star_run_sound body L hbody fuel _ _ _ _ hk
        refine ⟨s1 :: parts, s3, m2, ?_, ?_, ?_⟩
        · rw [e1, e2, List.flatten_cons, List.append_assoc]
        · intro p hp
          rcases List.mem_cons.mp hp with rfl | hp
          · exact l1
          · exact l2 p hp
        · rw [← Option.some.inj h]
          exact hk2
      · exact Option.noConfusion hk
    · exact ⟨[], s, m, rfl, fun _ hp => absurd hp (List.not_mem_nil _), h⟩

/-- Soundness of the matcher: a match consumes a text of the language of the
pattern and hands the rest to the continuation. -/
theorem Regex.run_sound (n : Nat) :
    ∀ (r : Regex) (s : Str) (m : Captures) (k : Kont) (res : Captures),
      r.run n s m k = some res →
      ∃ s1 s2 m1, s = s1 ++ s2 ∧ r.lang s1 ∧ k s2 m1 = some res := by
  intro r
  induction r with
  | chr c =>
    intro s m k res h
    cases s with
    | nil => exact Option.noConfusion h
    | cons x xs =>
      simp only [Regex.run] at h
      split at h
      · rename_i hx
        exact ⟨[c], xs, m, by rw [hx]; rfl, rfl, h⟩
      · exact Option.noConfusion h
  | cls p =>
    intro s m k res h
    cases s with
    | nil => exact Option.noConfusion h
    | cons x xs =>
      simp only [Regex.run] at h
      split at h
      · rename_i hx
        exact ⟨[x], xs, m, rfl, ⟨x, hx, rfl⟩, h⟩
      · exact Option.noConfusion h
  | seq a b iha ihb =>
    intro s m k res h
    simp only [Regex.run] at h
    obtain ⟨u, s2, m1, e1, la, h2⟩ := iha _ _ _ _ h
    obtain ⟨v, s3, m2, e2, lb, h3⟩ := ihb _ _ _ _ h2
    exact ⟨u ++ v, s3, m2, by rw [e1, e2, List.append_assoc], ⟨u, v, rfl, la, lb⟩, h3⟩
  | alt a b iha ihb =>
    intro s m k res h
    simp only [Regex.run] at h
    split at h
    · rename_i r ha
      obtain ⟨u, s2, m1, e1, la, h2⟩ := iha _ _ _ _ ha
      exact ⟨u, s2, m1, e1, Or.inl la, by rw [← Option.some.inj h]; exact h2⟩
    · obtain ⟨u, s2, m1, e1, lb, h2⟩ := ihb _ _ _ _ h
      exact ⟨u, s2, m1, e1, Or.inr lb, h2⟩
  | star a iha =>
    intro s m k res h
    simp only [Regex.run] at h
    obtain ⟨parts, s2, m1, e1, l1, h2⟩ :=
      Regex.star_run_sound (a.run n) a.lang (fun s m k res => iha s m k res) _ _ _ _ _ h
    exact ⟨parts.flatten, s2, m1, e1, ⟨parts, rfl, l1⟩, h2⟩
  | group i a iha =>
    intro s m k res h
    simp only [Regex.run] at h
    obtain ⟨u, s2, m1, e1, la, h2⟩ := iha _ _ _ _ h
    exact ⟨u, s2, _, e1, la, h2⟩
  | bol =>
    intro s m k res h
    simp only [Regex.run] at h
    split at h
    · exact ⟨[], s, m, rfl, rfl, h⟩
    · exact Option.noConfusion h
  | eol =>
    intro s m k res h
    simp only [Regex.run] at h
    split at h
    · exact ⟨[], s, m, rfl, rfl, h⟩
    · exact Option.noConfusion h

/-- A text `std::regex_match` accepts is in the language of the pattern. -/
theorem regex_match_sound (re : Regex) (groups : Nat) (s : Str) (m : Captures)
    (h : regex_match re groups s = some m) : re.lang s := by
  unfold regex_match at h
  obtain ⟨s1, s2, m1, e1, l1, h2⟩ := Regex.run_sound _ _ _ _ _ _ h
  split at h2
  · rename_i h0
    have h3 : s2 = [] := List.length_eq_zero.mp h0
    rw [h3, List.append_nil] at e1
    rw [e1]
    exact l1
  · exact Option.noConfusion h2

theorem lang_star_cls (p : Char → Bool) (s : Str) (h : (Regex.star (.cls p)).lang s) :
    s.all p = true := by
  obtain ⟨parts, rfl, hp⟩ := h
  rw [List.all_eq_true]
  intro c hc
  obtain ⟨part, hpart, hc⟩ := List.mem_flatten.mp hc
  obtain ⟨x, hx, rfl⟩ := hp part hpart
  rw [List.mem_singleton.mp hc]
  exact hx

theorem lang_plus_cls (p : Char → Bool) (s : Str) (h : (Regex.plus (.cls p)).lang s) :
    token_of p s = true := by
  obtain ⟨u, v, rfl, ⟨x, hx, rfl⟩, hv⟩ := h
  have hv := lang_star_cls p v hv
  unfold token_of
  rw [Bool.and_eq_true]
  refine ⟨rfl, ?_⟩
  rw [List.all_eq_true] at hv ⊢
  intro c hc
  rcases List.mem_cons.mp hc with rfl | hc
  · exact hx
  · exact hv c hc

theorem more_text_cons {α : Type} (f : α → Str) (e : Str × α) (more : List (Str × α)) :
    more_text f (e :: more) = (',' :: e.1 ++ f e.2) ++ more_text f more := rfl

/-- The repeated group of a list or of the properties: every iteration is a
comma, white space and an item. -/
theorem lang_star_separated {α : Type} (item : Regex) (f : α → Str) (good : α → Bool)
    (hitem : ∀ s, item.lang s → ∃ a, good a = true ∧ f a = s) (t : Str)
    (h : (Regex.star (.seq (.chr ',') (.seq (.star (.cls isspace)) item))).lang t) :
    ∃ more : List (Str × α),
      (more.all fun e => e.1.all isspace && good e.2) = true ∧ more_text f more = t := by
  obtain ⟨parts, rfl, hp⟩ := h
  induction parts with
  | nil => exact ⟨[], rfl, rfl⟩
  | cons part parts ih =>
    obtain ⟨more, hm, ht⟩ := ih (fun q hq => hp q (List.mem_cons_of_mem _ hq))
    obtain ⟨u, v, rfl, hu, w, x, rfl, hw, hx⟩ := hp part (List.mem_cons_self _ _)
    have hu : u = [','] := hu
    obtain ⟨a, ha, rfl⟩ := hitem x hx
    refine ⟨(w, a) :: more, ?_, ?_⟩
    · rw [List.all_cons, hm, Bool.and_true, Bool.and_eq_true]
      exact ⟨lang_star_cls _ _ hw, ha⟩
    · rw [more_text_cons, ht, hu, List.flatten_cons]
      rfl

/-- The texts the value alternatives match are the well-formed derivations of
`value`. -/
theorem value_re_lang (v : Str) (h : value_re.lang v) :
    ∃ d : ValueText, d.wellformed = true ∧ d.text = v := by
  rcases h with h | h | h | h
  · exact ⟨.word v, lang_plus_cls _ _ h, rfl⟩
  · obtain ⟨u, ds, rfl, hu, hds⟩ := h
    have hu : u = ['$'] := hu
    exact ⟨.column ds, lang_plus_cls _ _ hds, by rw [hu]; rfl⟩
  · obtain ⟨u, v1, rfl, hu, first, v2, rfl, hfirst, t, v3, rfl, ht, hv3⟩ := h
    have hu : u = ['\x7b'] := hu
    have hv3 : v3 = ['\x7d'] := hv3
    obtain ⟨more, hm, rfl⟩ := lang_star_separated _ id (token_of isdigit)
      (fun s hs => ⟨s, lang_plus_cls _ _ hs, rfl⟩) t ht
    refine ⟨.braces first more, ?_, by rw [hu, hv3]; simp [ValueText.text]⟩
    show (token_of isdigit first && _) = true
    rw [lang_plus_cls _ _ hfirst, Bool.true_and]
    exact hm
  · obtain ⟨u, v1, rfl, hu, first, v2, rfl, hfirst, t, v3, rfl, ht, hv3⟩ := h
    have hu : u = ['['] := hu
    have hv3 : v3 = [']'] := hv3
    obtain ⟨more, hm, rfl⟩ := lang_star_separated _ id (token_of isupper)
      (fun s hs => ⟨s, lang_plus_cls _ _ hs, rfl⟩) t ht
    refine ⟨.brackets first more, ?_, by rw [hu, hv3]; simp [ValueText.text]⟩
    show (token_of isupper first && _) = true
    rw [lang_plus_cls _ _ hfirst, Bool.true_and]
    exact hm

theorem prop_lang (i j : Nat) (s : Str)
    (h : (Regex.seq (.group i (Regex.plus (.cls isalpha)))
      (.seq (.chr '=') (.seq (.chr '[') (.seq (.group j value_re) (.chr ']'))))).lang s) :
    ∃ p : PropText, p.wellformed = true ∧ p.text = s := by
  obtain ⟨key, v1, rfl, hkey, u2, v2, rfl, hu2, u3, v3, rfl, hu3, val, v4, rfl, hval, hv4⟩ := h
  have hu2 : u2 = ['='] := hu2
  have hu3 : u3 = ['['] := hu3
  have hv4 : v4 = [']'] := hv4
  obtain ⟨d, hd, rfl⟩ := value_re_lang val hval
  refine ⟨⟨key, d⟩, ?_, ?_⟩
  · show (token_of isalpha key && d.wellformed) = true
    rw [lang_plus_cls _ _ hkey, hd]
    rfl
  · rw [hu2, hu3, hv4]
    simp [PropText.text, lit]

/-- The texts of the language of the line pattern are the well-formed
derivations of `node-line`. -/
theorem line_re_lang (s : Str) (h : line_re.lang s) :
    ∃ d : LineText, d.wellformed = true ∧ d.text = s := by
  obtain ⟨u0, v0, rfl, hu0, ind, v1, rfl, hind, kind, v2, rfl, hkind, u3, v3, rfl, hu3, h⟩ := h
  obtain ⟨key, v4, rfl, hkey, u5, v5, rfl, hu5, u6, v6, rfl, hu6, val, v7, rfl, hval, h⟩ := h
  obtain ⟨u8, v8, rfl, hu8, t, v9, rfl, ht, u10, v10, rfl, hu10, hv10⟩ := h
  have hu0 : u0 = [] := hu0
  have hu3 : u3 = ['('] := hu3
  have hu8 : u8 = [']'] := hu8
  have hu10 : u10 = [')'] := hu10
  have hv10 : v10 = [] := hv10
  obtain ⟨first, hfirst, hft⟩ := prop_lang 2 3 (key ++ (u5 ++ (u6 ++ (val ++ u8))))
    ⟨key, _, rfl, hkey, u5, _, rfl, hu5, u6, _, rfl, hu6, val, _, rfl, hval, hu8⟩
  obtain ⟨more, hm, rfl⟩ := lang_star_separated _ PropText.text PropText.wellformed
    (fun s hs => prop_lang 4 5 s hs) t ht
  refine ⟨⟨ind, kind, first, more⟩, ?_, ?_⟩
  · show (ind.all isspace && token_of isword kind && first.wellformed && _) = true
    rw [lang_star_cls _ _ hind, lang_plus_cls _ _ hkind, hfirst]
    exact hm
  · rw [hu0, hu3, hu10, hv10]
    simp only [LineText.text, hft, List.nil_append, List.append_nil, List.append_assoc,
      List.cons_append, List.singleton_append]

/-- Every line the pattern of `MakeNode` accepts is derivable
from the production `node-line` with its separators relaxed: the indentation
is any number of white-space characters, the kind a token of word characters,
the keys alphabetic tokens, the values as in the production `value`, and both
between properties and between list elements the separator is a comma followed
by any number of white-space characters, none included. -/
theorem accepted_line_derivation (s : Str) (m : Captures)
    (h : regex_match line_re 5 s = some m) :
    ∃ d : LineText, d.wellformed = true ∧ d.text = s :=
  line_re_lang s (regex_match_sound line_re 5 s m h)

theorem Regex.star_run_complete (body : Str → Captures → Kont → Option Captures)
    (L : Str → Prop) (k : Kont) (s2 : Str)
    (hbody : ∀ (s1 rest : Str) (m : Captures) (k1 : Kont), L s1 →
      (∀ m1, (k1 rest m1).isSome = true) → (body (s1 ++ rest) m k1).isSome = true)
    (hk : ∀ m1, (k s2 m1).isSome = true) :
    ∀ (parts : List Str) (fuel : Nat) (m : Captures), parts.flatten.length ≤ fuel →
      (∀ p ∈ parts, L p) →
      (Regex.star_run body fuel (parts.flatten ++ s2) m k).isSome = true
  | [], fuel, m, _, _ => by
    cases fuel with
    | zero => exact hk m
    | succ fuel =>
      rw [Regex.star_run]
      split
      · rfl
      · exact hk m
  | p :: ps, fuel, m, hfuel, hp => by
    by_cases hnil : p = []
    · rw [hnil, List.flatten_cons, List.nil_append]
      rw [hnil, List.flatten_cons, List.nil_append] at hfuel
      exact Regex.star_run_complete body L k s2 hbody hk ps fuel m hfuel
        (fun q hq => hp q (List.mem_cons_of_mem _ hq))
    · have hpos : 0 < p.length := List.length_pos.mpr hnil
      rw [List.flatten_cons, List.length_append] at hfuel
      cases fuel with
      | zero => omega
      | succ fuel =>
        rw [List.flatten_cons, List.append_assoc]
        have hlt : (ps.flatten ++ s2).length < (p ++ (ps.flatten ++ s2)).length := by
          rw [List.length_append p]
          omega
        have hb := hbody p (ps.flatten ++ s2) m
          (fun s1 m1 =>
            if s1.length < (p ++ (ps.flatten ++ s2)).length then
              Regex.star_run body fuel s1 m1 k
            else none)
          (hp p (List.mem_cons_self _ _))
          (fun m1 => by
            show (if (ps.flatten ++ s2).length < (p ++ (ps.flatten ++ s2)).length then
              Regex.star_run body fuel (ps.flatten ++ s2) m1 k else none).isSome = true
            rw [if_pos hlt]
            exact Regex.star_run_complete body L k s2 hbody hk ps fuel m1 (by omega)
              (fun q hq => hp q (List.mem_cons_of_mem _ hq)))
        rw [Regex.star_run]
        split
        · rfl
        · rename_i heq
          rw [heq] at hb
          exact Bool.noConfusion hb

/-- Completeness of the matcher for patterns without anchors: a text of the
language followed by a rest the continuation accepts is matched. -/
theorem Regex.run_complete (n : Nat) :
    ∀ (r : Regex), r.anchor_free = true → ∀ (s1 s2 : Str) (m : Captures) (k : Kont),
      r.lang s1 → (∀ m1, (k s2 m1).isSome = true) →
      (r.run n (s1 ++ s2) m k).isSome = true := by
  intro r
  induction r with
  | chr c =>
    intro _ s1 s2 m k hl hk
    have hl : s1 = [c] := hl
    rw [hl]
    simp only [Regex.run, List.singleton_append, if_true]
    exact hk m
  | cls p =>
    intro _ s1 s2 m k hl hk
    obtain ⟨x, hx, rfl⟩ := hl
    simp only [Regex.run, List.singleton_append, hx, if_true]
    exact hk m
  | seq a b iha ihb =>
    intro haf s1 s2 m k hl hk
    simp only [Regex.anchor_free, Bool.and_eq_true] at haf
    obtain ⟨u, v, rfl, la, lb⟩ := hl
    simp only [Regex.run, List.append_assoc]
    exact iha haf.1 u (v ++ s2) m _ la (fun m1 => ihb haf.2 v s2 m1 k lb hk)
  | alt a b iha ihb =>
    intro haf s1 s2 m k hl hk
    simp only [Regex.anchor_free, Bool.and_eq_true] at haf
    simp only [Regex.run]
    rcases hl with la | lb
    · have h := iha haf.1 s1 s2 m k la hk
      split
      · rfl
      · rename_i heq
        rw [heq] at h
        exact Bool.noConfusion h
    · split
      · rfl
      · exact ihb haf.2 s1 s2 m k lb hk
  | star a iha =>
    intro haf s1 s2 m k hl hk
    obtain ⟨parts, rfl, hp⟩ := hl
    simp only [Regex.run]
    exact Regex.star_run_complete (a.run n) a.lang k s2
      (fun s1 rest m k1 h1 h2 => iha haf s1 rest m k1 h1 h2) hk parts _ m
      (by rw [List.length_append]; omega) hp
  | group i a iha =>
    intro haf s1 s2 m k hl hk
    simp only [Regex.run]
    exact iha haf s1 s2 m _ hl (fun m1 => hk _)
  | bol => intro haf; exact Bool.noConfusion haf
  | eol => intro haf; exact Bool.noConfusion haf

theorem Regex.seq_complete (n : Nat) (a b : Regex) (ha : a.anchor_free = true)
    (s1 rest : Str) (k : Kont) (hl : a.lang s1)
    (hb : ∀ m1, (b.run n rest m1 k).isSome = true) (m : Captures) :
    ((Regex.seq a b).run n (s1 ++ rest) m k).isSome = true :=
  Regex.run_complete n a ha s1 rest m _ hl hb

theorem flatten_singletons (s : Str) : (s.map fun c => [c]).flatten = s := by
  induction s with
  | nil => rfl
  | cons c s ih => rw [List.map_cons, List.flatten_cons, ih]; rfl

theorem lang_star_cls_of (p : Char → Bool) (s : Str) (h : s.all p = true) :
    (Regex.star (.cls p)).lang s := by
  refine ⟨s.map fun c => [c], (flatten_singletons s).symm, ?_⟩
  intro part hpart
  obtain ⟨c, hc, rfl⟩ := List.mem_map.mp hpart
  exact ⟨c, List.all_eq_true.mp h c hc, rfl⟩

theorem lang_plus_cls_of (p : Char → Bool) (t : Str) (h : token_of p t = true) :
    (Regex.plus (.cls p)).lang t := by
  obtain ⟨hne, ht⟩ := token_of_spec p t h
  cases t with
  | nil => exact absurd rfl hne
  | cons x xs =>
    refine ⟨[x], xs, rfl, ⟨x, ht x (List.mem_cons_self _ _), rfl⟩, lang_star_cls_of p xs ?_⟩
    rw [List.all_eq_true]
    exact fun c hc => ht c (List.mem_cons_of_mem _ hc)

theorem lang_star_separated_of {α : Type} (item : Regex) (f : α → Str) (good : α → Bool)
    (hitem : ∀ a, good a = true → item.lang (f a)) :
    ∀ (more : List (Str × α)),
      (more.all fun e => e.1.all isspace && good e.2) = true →
      (Regex.star (.seq (.chr ',') (.seq (.star (.cls isspace)) item))).lang (more_text f more) := by
  intro more hm
  refine ⟨more.map fun (e : Str × α) => ',' :: e.1 ++ f e.2, rfl, ?_⟩
  intro part hpart
  obtain ⟨e, he, rfl⟩ := List.mem_map.mp hpart
  have h := List.all_eq_true.mp hm e he
  rw [Bool.and_eq_true] at h
  exact ⟨[','], e.1 ++ f e.2, rfl, rfl, e.1, f e.2, rfl, lang_star_cls_of _ _ h.1,
    hitem e.2 h.2⟩

theorem value_re_lang_of (d : ValueText) (h : d.wellformed = true) : value_re.lang d.text := by
  cases d with
  | word w => exact Or.inl (lang_plus_cls_of _ _ h)
  | column ds => exact Or.inr (Or.inl ⟨['$'], ds, rfl, rfl, lang_plus_cls_of _ _ h⟩)
  | braces first more =>
    simp only [ValueText.wellformed, Bool.and_eq_true] at h
    refine Or.inr (Or.inr (Or.inl ⟨['\x7b'], first ++ (more_text id more ++ ['\x7d']), ?_, rfl,
      first, more_text id more ++ ['\x7d'], rfl, lang_plus_cls_of _ _ h.1,
      more_text id more, ['\x7d'], rfl, ?_, rfl⟩))
    · simp [ValueText.text]
    · exact lang_star_separated_of _ id (token_of isdigit)
        (fun a ha => lang_plus_cls_of _ _ ha) more h.2
  | brackets first more =>
    simp only [ValueText.wellformed, Bool.and_eq_true] at h
    refine Or.inr (Or.inr (Or.inr ⟨['['], first ++ (more_text id more ++ [']']), ?_, rfl,
      first, more_text id more ++ [']'], rfl, lang_plus_cls_of _ _ h.1,
      more_text id more, [']'], rfl, ?_, rfl⟩))
    · simp [ValueText.text]
    · exact lang_star_separated_of _ id (token_of isupper)
        (fun a ha => lang_plus_cls_of _ _ ha) more h.2

theorem prop_lang_of (i j : Nat) (p : PropText) (h : p.wellformed = true) :
    (Regex.seq (.group i (Regex.plus (.cls isalpha)))
      (.seq (.chr '=') (.seq (.chr '[') (.seq (.group j value_re) (.chr ']'))))).lang p.text := by
  unfold PropText.wellformed at h
  rw [Bool.and_eq_true] at h
  refine ⟨p.key, '=' :: '[' :: (p.value.text ++ [']']), ?_, lang_plus_cls_of _ _ h.1,
    ['='], '[' :: (p.value.text ++ [']']), rfl, rfl, ['['], p.value.text ++ [']'], rfl, rfl,
    p.value.text, [']'], rfl, value_re_lang_of _ h.2, rfl⟩
  simp [PropText.text, lit]

theorem LineText.text_parts (d : LineText) :
    d.text = d.indent ++ (d.kind ++ (['('] ++ (d.first.key ++ (['='] ++ (['['] ++
      (d.first.value.text ++ ([']'] ++ (more_text PropText.text d.more ++ [')'])))))))) := by
  simp [LineText.text, PropText.text, lit]

theorem Regex.bol_seq_run (n : Nat) (b : Regex) (s : Str) (m : Captures) (k : Kont)
    (hn : s.length = n) : (Regex.seq .bol b).run n s m k = b.run n s m k := by
  simp only [Regex.run, hn, if_true]

/-- The matcher accepts the text of every well-formed derivation. -/
theorem line_re_complete (n : Nat) (d : LineText) (h : d.wellformed = true) (k : Kont)
    (hk : ∀ m, (k [] m).isSome = true) (m : Captures) (hn : d.text.length = n) :
    (line_re.run n d.text m k).isSome = true := by
  simp only [LineText.wellformed, Bool.and_eq_true] at h
  obtain ⟨⟨⟨hind, hkind⟩, hfirst⟩, hmore⟩ := h
  unfold PropText.wellformed at hfirst
  rw [Bool.and_eq_true] at hfirst
  obtain ⟨hkey, hval⟩ := hfirst
  have t11 : ∀ m1, ((Regex.seq (.chr ')') .eol).run n [')'] m1 k).isSome = true := by
    intro m1
    simp only [Regex.run, if_true, List.length_nil]
    exact hk m1
  have t10 := fun m1 => Regex.seq_complete n
    (.star (.seq (.chr ',') (.seq (.star (.cls isspace))
      (.seq (.group 4 (Regex.plus (.cls isalpha)))
        (.seq (.chr '=') (.seq (.chr '[') (.seq (.group 5 value_re) (.chr ']'))))))))
    _ rfl (more_text PropText.text d.more) [')'] k
    (lang_star_separated_of _ PropText.text PropText.wellformed
      (fun a ha => prop_lang_of 4 5 a ha) d.more hmore) t11 m1
  have t9 := fun m1 => Regex.seq_complete n (.chr ']') _ rfl [']'] _ k rfl t10 m1
  have t8 := fun m1 => Regex.seq_complete n (.group 3 value_re) _ rfl d.first.value.text _ k
    (value_re_lang_of _ hval) t9 m1
  have t7 := fun m1 => Regex.seq_complete n (.chr '[') _ rfl ['['] _ k rfl t8 m1
  have t6 := fun m1 => Regex.seq_complete n (.chr '=') _ rfl ['='] _ k rfl t7 m1
  have t5 := fun m1 => Regex.seq_complete n (.group 2 (Regex.plus (.cls isalpha))) _ rfl
    d.first.key _ k (lang_plus_cls_of _ _ hkey) t6 m1
  have t4 := fun m1 => Regex.seq_complete n (.chr '(') _ rfl ['('] _ k rfl t5 m1
  have t3 := fun m1 => Regex.seq_complete n (.group 1 (Regex.plus (.cls isword))) _ rfl
    d.kind _ k (lang_plus_cls_of _ _ hkind) t4 m1
  have t2 := fun m1 => Regex.seq_complete n (.star (.cls isspace)) _ rfl d.indent _ k
    (lang_star_cls_of _ _ hind) t3 m1
  rw [LineText.text_parts] at hn ⊢
  rw [show line_re = Regex.seq .bol _ from rfl, Regex.bol_seq_run n _ _ m k hn]
  exact t2 m

theorem regex_match_of_derivation (d : LineText) (h : d.wellformed = true) :
    (regex_match line_re 5 d.text).isSome = true := by
  unfold regex_match
  exact line_re_complete _ d h
    (fun rest m => if rest.length = 0 then some (m.set 0 (some d.text)) else none)
    (fun _ => rfl) _ rfl

/-- C22, amended: the lines the pattern of `MakeNode` accepts are exactly the
texts derivable from the production `node-line` with its separators relaxed:
the indentation is any number of white-space characters, the kind a token of
word characters, the keys alphabetic tokens, the values as in the production
`value`, and both between properties and between list elements the separator
is a comma followed by any number of white-space characters, none included. -/
theorem accepted_lines (s : Str) :
    (regex_match line_re 5 s).isSome = true ↔
      ∃ d : LineText, d.wellformed = true ∧ d.text = s := by
  constructor
  · intro h
    cases hm : regex_match line_re 5 s with
    | none =>
      rw [hm] at h
      exact Bool.noConfusion h
    | some m => exact line_re_lang s (regex_match_sound line_re 5 s m hm)
  · rintro ⟨d, hw, rfl⟩
    exact regex_match_of_derivation d hw

theorem spaced_nil : spaced [] := ⟨rfl, List.not_mem_nil _⟩

theorem spaced_append (u v : Str) (hu : spaced u) (hv : spaced v) : spaced (u ++ v) := by
  refine ⟨?_, ?_⟩
  · rw [List.count_append, List.count_append, hu.1, hv.1]
  · intro h
    rcases List.mem_append.mp h with h | h
    · exact hu.2 h
    · exact hv.2 h

theorem spaced_cons (c : Char) (t : Str) (h1 : c ≠ ' ') (h2 : c ≠ ',') (h3 : c ≠ '\t')
    (ht : spaced t) : spaced (c :: t) := by
  refine ⟨?_, ?_⟩
  · rw [List.count_cons_of_ne h1.symm, List.count_cons_of_ne h2.symm, ht.1]
  · intro h
    rcases List.mem_cons.mp h with h | h
    · exact h3 h.symm
    · exact ht.2 h

theorem spaced_separator (t : Str) (ht : spaced t) : spaced (',' :: ' ' :: t) := by
  refine ⟨?_, ?_⟩
  · rw [List.count_cons_of_ne (by decide), List.count_cons_self, List.count_cons_self,
      List.count_cons_of_ne (by decide), ht.1]
  · intro h
    rcases List.mem_cons.mp h with h | h
    · exact absurd h (by decide)
    · rcases List.mem_cons.mp h with h | h
      · exact absurd h (by decide)
      · exact ht.2 h

theorem spaced_token (p : Char → Bool)
    (hp : ∀ c, p c = true → c ≠ ' ' ∧ c ≠ ',' ∧ c ≠ '\t') :
    ∀ (t : Str), (∀ c ∈ t, p c = true) → spaced t
  | [], _ => spaced_nil
  | c :: t, h =>
    spaced_cons c t (hp c (h c (List.mem_cons_self _ _))).1
      (hp c (h c (List.mem_cons_self _ _))).2.1 (hp c (h c (List.mem_cons_self _ _))).2.2
      (spaced_token p hp t (fun x hx => h x (List.mem_cons_of_mem _ hx)))

theorem isword_plain (c : Char) (h : isword c = true) : c ≠ ' ' ∧ c ≠ ',' ∧ c ≠ '\t' := by
  refine ⟨?_, ?_, ?_⟩ <;> intro hc <;> subst hc <;> exact absurd h (by decide)

theorem isalpha_spaced (c : Char) (h : isalpha c = true) : c ≠ ' ' ∧ c ≠ ',' ∧ c ≠ '\t' := by
  refine ⟨?_, ?_, ?_⟩ <;> intro hc <;> subst hc <;> exact absurd h (by decide)

theorem islower_spaced (c : Char) (h : islower c = true) : c ≠ ' ' ∧ c ≠ ',' ∧ c ≠ '\t' := by
  refine ⟨?_, ?_, ?_⟩ <;> intro hc <;> subst hc <;> exact absurd h (by decide)

theorem isupper_spaced (c : Char) (h : isupper c = true) : c ≠ ' ' ∧ c ≠ ',' ∧ c ≠ '\t' := by
  refine ⟨?_, ?_, ?_⟩ <;> intro hc <;> subst hc <;> exact absurd h (by decide)

theorem isdigit_spaced (c : Char) (h : isdigit c = true) : c ≠ ' ' ∧ c ≠ ',' ∧ c ≠ '\t' := by
  refine ⟨?_, ?_, ?_⟩ <;> intro hc <;> subst hc <;> exact absurd h (by decide)

theorem spaced_token_of (p : Char → Bool)
    (hp : ∀ c, p c = true → c ≠ ' ' ∧ c ≠ ',' ∧ c ≠ '\t') (t : Str)
    (h : token_of p t = true) : spaced t :=
  spaced_token p hp t (token_of_spec p t h).2

theorem spaced_more_text {α : Type} (f : α → Str) :
    ∀ (more : List (Str × α)), (∀ e ∈ more, e.1 = [' '] ∧ spaced (f e.2)) →
      spaced (more_text f more)
  | [], _ => spaced_nil
  | e :: more, h => by
    rw [more_text_cons]
    obtain ⟨h1, h2⟩ := h e (List.mem_cons_self _ _)
    rw [h1]
    exact spaced_append _ _ (spaced_separator _ h2)
      (spaced_more_text f more (fun x hx => h x (List.mem_cons_of_mem _ hx)))

theorem spaced_list (p : Char → Bool)
    (hp : ∀ c, p c = true → c ≠ ' ' ∧ c ≠ ',' ∧ c ≠ '\t') (first : Str)
    (more : List (Str × Str)) (hf : token_of p first = true)
    (hw : (more.all fun e => e.1.all isspace && token_of p e.2) = true)
    (hs : (more.all fun e => e.1 == [' ']) = true) :
    spaced (first ++ more_text id more) := by
  refine spaced_append _ _ (spaced_token_of p hp first hf) (spaced_more_text id more ?_)
  intro e he
  have h1 := List.all_eq_true.mp hw e he
  have h2 := List.all_eq_true.mp hs e he
  rw [Bool.and_eq_true] at h1
  exact ⟨beq_iff_eq.mp h2, spaced_token_of p hp e.2 h1.2⟩

theorem ValueText.spaced_value (v : ValueText) (hw : v.wellformed = true)
    (hs : v.strict = true) : spaced v.text := by
  cases v with
  | word w => exact spaced_token_of _ islower_spaced w hw
  | column ds =>
    exact spaced_cons _ _ (by decide) (by decide) (by decide)
      (spaced_token_of _ isdigit_spaced ds hw)
  | braces first more =>
    simp only [ValueText.wellformed, Bool.and_eq_true] at hw
    have h := spaced_list _ isdigit_spaced first more hw.1 hw.2 hs
    exact spaced_append _ _ (spaced_cons _ _ (by decide) (by decide) (by decide) h)
      (spaced_cons _ _ (by decide) (by decide) (by decide) spaced_nil)
  | brackets first more =>
    simp only [ValueText.wellformed, Bool.and_eq_true] at hw
    have h := spaced_list _ isupper_spaced first more hw.1 hw.2 hs
    exact spaced_append _ _ (spaced_cons _ _ (by decide) (by decide) (by decide) h)
      (spaced_cons _ _ (by decide) (by decide) (by decide) spaced_nil)

theorem PropText.spaced_prop (p : PropText) (hw : p.wellformed = true)
    (hs : p.value.strict = true) : spaced p.text := by
  unfold PropText.wellformed at hw
  rw [Bool.and_eq_true] at hw
  have h : p.text = p.key ++ ('=' :: '[' :: (p.value.text ++ [']'])) := by
    simp [PropText.text, lit]
  rw [h]
  exact spaced_append _ _ (spaced_token_of _ isalpha_spaced _ hw.1)
    (spaced_cons _ _ (by decide) (by decide) (by decide)
      (spaced_cons _ _ (by decide) (by decide) (by decide)
        (spaced_append _ _ (ValueText.spaced_value _ hw.2 hs)
          (spaced_cons _ _ (by decide) (by decide) (by decide) spaced_nil))))

/-- A line of the grammar as written: after an indentation of spaces it has as
many spaces as commas, and it has no tab. -/
theorem LineText.strict_text (d : LineText) (hw : d.wellformed = true)
    (hs : d.strict = true) :
    '\t' ∉ d.text ∧ d.text.count ' ' = d.indent.length + d.text.count ',' ∧
      (d.indent ≠ [] → d.text.head? = some ' ') := by
  simp only [LineText.wellformed, Bool.and_eq_true] at hw
  obtain ⟨⟨⟨_, hkind⟩, hfirst⟩, hmore⟩ := hw
  simp only [LineText.strict, Bool.and_eq_true] at hs
  obtain ⟨⟨hind, hfs⟩, hms⟩ := hs
  have hind : ∀ c ∈ d.indent, c = ' ' := fun c hc =>
    beq_iff_eq.mp (List.all_eq_true.mp hind c hc)
  have hbody : spaced (d.kind ++ ('(' :: (d.first.text ++
      (more_text PropText.text d.more ++ [')'])))) := by
    refine spaced_append _ _ (spaced_token_of _ isword_plain _ hkind)
      (spaced_cons _ _ (by decide) (by decide) (by decide)
        (spaced_append _ _ (PropText.spaced_prop _ hfirst hfs)
          (spaced_append _ _ (spaced_more_text _ _ ?_)
            (spaced_cons _ _ (by decide) (by decide) (by decide) spaced_nil))))
    intro e he
    have h1 := List.all_eq_true.mp hmore e he
    have h2 := List.all_eq_true.mp hms e he
    rw [Bool.and_eq_true] at h1 h2
    exact ⟨beq_iff_eq.mp h2.1, PropText.spaced_prop _ h1.2 h2.2⟩
  have htext : d.text = d.indent ++ (d.kind ++ ('(' :: (d.first.text ++
      (more_text PropText.text d.more ++ [')'])))) := by
    simp [LineText.text]
  have hrep : d.indent = List.replicate d.indent.length ' ' :=
    List.eq_replicate_iff.mpr ⟨rfl, hind⟩
  generalize d.kind ++ ('(' :: (d.first.text ++
      (more_text PropText.text d.more ++ [')']))) = body at hbody htext
  refine ⟨?_, ?_, ?_⟩
  · rw [htext]
    intro h
    rcases List.mem_append.mp h with h | h
    · exact absurd (hind _ h) (by decide)
    · exact hbody.2 h
  · rw [htext, List.count_append, List.count_append, hbody.1]
    have h1 : d.indent.count ' ' = d.indent.length := by
      rw [hrep, List.count_replicate_self, List.length_replicate]
    have h2 : d.indent.count ',' = 0 :=
      List.count_eq_zero.mpr (fun h => absurd (hind _ h) (by decide))
    rw [h1, h2, Nat.zero_add]
  · intro hne
    rw [htext]
    cases hi : d.indent with
    | nil => exact absurd hi hne
    | cons c rest =>
      have hc : c = ' ' := hind c (by rw [hi]; exact List.mem_cons_self _ _)
      rw [hc]
      rfl

/-- C22, as stated, fails on the code: the pattern accepts, and `MakeNode`
turns into a node, a line indented with a tab, a line whose properties are
separated by a comma alone, a line whose list elements are separated by a comma
alone, and a line whose list elements are separated by a comma and two spaces;
none of them is derivable from the production `node-line` with space
indentation and the separator comma, space. -/
theorem pattern_accepts_lines_outside_grammar :
    (MakeNode (lit "\tUnion(all=[true])") = .ok (.mk (.Union true) []) ∧
      ∀ d : LineText, d.wellformed = true → d.strict = true →
        d.text ≠ lit "\tUnion(all=[true])") ∧
    (MakeNode (lit "Project(a=[$0],b=[$1])") =
        .ok (.mk (.Project [(lit "a", 0), (lit "b", 1)]) []) ∧
      ∀ d : LineText, d.wellformed = true → d.strict = true →
        d.text ≠ lit "Project(a=[$0],b=[$1])") ∧
    (MakeNode (lit "Scan(table=[[A,B]])") = .ok (.mk (.Scan [lit "A", lit "B"]) []) ∧
      ∀ d : LineText, d.wellformed = true → d.strict = true →
        d.text ≠ lit "Scan(table=[[A,B]])") ∧
    (MakeNode (lit "Aggregate(group=[\x7b0,  1\x7d])") = .ok (.mk (.Aggregate [0, 1]) []) ∧
      ∀ d : LineText, d.wellformed = true → d.strict = true →
        d.text ≠ lit "Aggregate(group=[\x7b0,  1\x7d])") := by
  refine ⟨⟨rfl, ?_⟩, ⟨rfl, ?_⟩, ⟨rfl, ?_⟩, ⟨rfl, ?_⟩⟩
  · intro d hw hs heq
    have h := (LineText.strict_text d hw hs).1
    rw [heq] at h
    exact h (by decide)
  · intro d hw hs heq
    have h := (LineText.strict_text d hw hs).2.1
    rw [heq] at h
    have h : (0 : Nat) = d.indent.length + 1 := h
    omega
  · intro d hw hs heq
    have h := (LineText.strict_text d hw hs).2.1
    rw [heq] at h
    have h : (0 : Nat) = d.indent.length + 1 := h
    omega
  · intro d hw hs heq
    obtain ⟨_, h, h3⟩ := LineText.strict_text d hw hs
    rw [heq] at h h3
    have h : (2 : Nat) = d.indent.length + 1 := h
    have hne : d.indent ≠ [] := by
      intro h0
      rw [h0] at h
      exact absurd h (by decide)
    exact absurd (h3 hne) (by decide)

/-- The lines of the test plan are accepted, and so are lines with a tab for
indentation and with commas not followed by a space. -/
theorem accepted_lines_examples :
    (∃ d : LineText, d.wellformed = true ∧ d.strict = true ∧
      d.text = lit "    Project(SECTOR=[$0], NAME=[$1])") ∧
    (∃ d : LineText, d.wellformed = true ∧ d.strict = false ∧
      d.text = lit "\tScan(table=[[A,B]])") ∧
    (regex_match line_re 5 (lit "    Project(SECTOR=[$0], NAME=[$1])")).isSome = true ∧
    (regex_match line_re 5 (lit "\tScan(table=[[A,B]])")).isSome = true ∧
    (regex_match line_re 5 (lit "Scan(table=[[A;B]])")).isSome = false ∧
    ¬ ∃ d : LineText, d.wellformed = true ∧ d.text = lit "Scan(table=[[A;B]])" :=
  ⟨⟨⟨lit "    ", lit "Project", ⟨lit "SECTOR", .column (lit "0")⟩,
      [(lit " ", ⟨lit "NAME", .column (lit "1")⟩)]⟩, rfl, rfl, rfl⟩,
    ⟨⟨lit "\t", lit "Scan", ⟨lit "table", .brackets (lit "A") [([], lit "B")]⟩, []⟩,
      rfl, rfl, rfl⟩,
    rfl, rfl, rfl,
    fun h => absurd ((accepted_lines _).mpr h) (by decide)⟩

/-! ## Inputs whose lines all end with a newline -/

theorem union_build_ok_or_throw (ps : Properties) :
    (∃ node, UnionPropertiesBuilder.Build ps = .ok node) ∨
    ∃ e, UnionPropertiesBuilder.Build ps = .throw e := by
  unfold UnionPropertiesBuilder.Build
  split
  · split
    · exact Or.inr ⟨_, rfl⟩
    · split
      · exact Or.inl ⟨_, rfl⟩
      · split
        · exact Or.inl ⟨_, rfl⟩
        · exact Or.inr ⟨_, rfl⟩
  · exact Or.inr ⟨_, rfl⟩

theorem scan_build_ok_or_throw (ps : Properties) :
    (∃ node, ScanPropertiesBuilder.Build ps = .ok node) ∨
    ∃ e, ScanPropertiesBuilder.Build ps = .throw e := by
  unfold ScanPropertiesBuilder.Build
  split
  · split
    · exact Or.inr ⟨_, rfl⟩
    · exact Or.inl ⟨_, rfl⟩
  · exact Or.inr ⟨_, rfl⟩

theorem aggregate_build_ok_or_throw (ps : Properties) :
    (∃ node, AggregatePropertiesBuilder.Build ps = .ok node) ∨
    ∃ e, AggregatePropertiesBuilder.Build ps = .throw e := by
  unfold AggregatePropertiesBuilder.Build
  split
  · rename_i property
    split
    · exact Or.inr ⟨_, rfl⟩
    · rcases aggregate_convert_ok_or_throw (parts_of (List.drop 1 property.2)) with
        ⟨vs, h⟩ | ⟨e, h⟩
      · rw [h]
        exact Or.inl ⟨_, rfl⟩
      · rw [h]
        exact Or.inr ⟨_, rfl⟩
  · exact Or.inr ⟨_, rfl⟩

theorem project_build_ok_or_throw (ps : Properties) :
    (∃ node, ProjectPropertiesBuilder.Build ps = .ok node) ∨
    ∃ e, ProjectPropertiesBuilder.Build ps = .throw e := by
  unfold ProjectPropertiesBuilder.Build
  split
  · exact Or.inr ⟨_, rfl⟩
  · rcases project_convert_ok_or_throw ps with ⟨vs, h⟩ | ⟨e, h⟩
    · rw [h]
      exact Or.inl ⟨_, rfl⟩
    · rw [h]
      exact Or.inr ⟨_, rfl⟩

/-- A call of `MakeNode` returns a node or throws. -/
theorem MakeNode_ok_or_throw (format : Str) :
    (∃ node, MakeNode format = .ok node) ∨ ∃ e, MakeNode format = .throw e := by
  unfold MakeNode
  split
  · rename_i name arguments _
    unfold MakePropertiesBuilder
    split
    · rw [Res.bind_ok]
      exact aggregate_build_ok_or_throw _
    · split
      · rw [Res.bind_ok]
        exact union_build_ok_or_throw _
      · split
        · rw [Res.bind_ok]
          exact project_build_ok_or_throw _
        · split
          · rw [Res.bind_ok]
            exact scan_build_ok_or_throw _
          · exact Or.inr ⟨_, rfl⟩
  · exact Or.inr ⟨_, rfl⟩

theorem newline_terminated_tail (l t : Str) (h : newline_terminated (l ++ '\n' :: t)) :
    newline_terminated t := by
  cases t with
  | nil => exact Or.inl rfl
  | cons c t =>
    rcases h with h | h
    · exact absurd h (by simp)
    · right
      rw [List.getLast?_append, List.getLast?_cons_cons] at h
      simpa using h

theorem settled_congr (a b : StreamParser) (h1 : a.istream_ = b.istream_)
    (h2 : a.format = b.format) (h : b.settled) : a.settled := by
  unfold StreamParser.settled at h ⊢
  rw [h1, h2]
  exact h

/-- Reading the next line keeps a state settled and, when a line was held,
leaves less text to look at. -/
theorem getline_settled (st st1 : StreamParser) (hs : st.settled)
    (h1 : st1.istream_ = (getline st.istream_ st.format).1)
    (h2 : st1.format = (getline st.istream_ st.format).2) :
    st1.settled ∧ (st.format ≠ [] → st1.pending.length < st.pending.length) := by
  by_cases hdead : (st.istream_.eofbit || st.istream_.failbit) = true
  · have hf : st.format = [] := by
      unfold StreamParser.settled at hs
      rw [if_pos hdead] at hs
      exact hs
    rw [getline_dead _ _ hdead] at h1 h2
    refine ⟨?_, fun hne => absurd hf hne⟩
    unfold StreamParser.settled
    rw [h1, h2]
    simp only [Bool.or_true, if_true]
    exact hf
  · have hlive : (st.istream_.eofbit || st.istream_.failbit) = false := by simpa using hdead
    have ht : newline_terminated st.istream_.text := by
      unfold StreamParser.settled at hs
      rw [if_neg hdead] at hs
      exact hs
    rcases getline_cases st.istream_ st.format hlive with ⟨hno, hg⟩ | ⟨l, t, htext, _, hg⟩
    · have hempty : st.istream_.text = [] := by
        rcases ht with ht | ht
        · exact ht
        · exact absurd (List.mem_of_mem_getLast? ht) hno
      rw [hg] at h1 h2
      have h2 : st1.format = [] := by rw [h2]; exact hempty
      have hd1 : (st1.istream_.eofbit || st1.istream_.failbit) = true := by rw [h1]; rfl
      refine ⟨?_, fun _ => ?_⟩
      · unfold StreamParser.settled
        rw [if_pos hd1]
        exact h2
      · rw [pending_dead st1 hd1, h2, pending_live st hlive, List.length_append]
        simp
    · rw [hg] at h1 h2
      have hl1 : (st1.istream_.eofbit || st1.istream_.failbit) = false := by rw [h1]; rfl
      refine ⟨?_, fun _ => ?_⟩
      · unfold StreamParser.settled
        rw [if_neg (by simp [hl1])]
        rw [htext] at ht
        rw [h1]
        exact newline_terminated_tail l t ht
      · rw [pending_live st1 hl1, pending_live st hlive, h1, h2, htext]
        simp only [List.length_append, List.length_cons]
        omega

/-- An execution of `Traverse` that returns from a settled state returns a
settled state with no more text to look at than before. -/
theorem Traverse_settled (fuel : Nat) :
    ∀ (st : StreamParser) (parent : Node) (r : StreamParser × Node),
      st.settled → Traverse fuel st parent = .ok r →
      r.1.settled ∧ r.1.pending.length ≤ st.pending.length := by
  induction fuel with
  | zero => intro st parent r _ h; exact Res.noConfusion h
  | succ fuel ih =>
    intro st parent r hs h
    rcases Traverse_succ_ok fuel st parent r h with ⟨_, hr⟩ | ⟨hf, c, _, hcase⟩
    · rw [hr]
      exact ⟨hs, Nat.le_refl _⟩
    · rcases hcase with ⟨_, _, hi, hfm, _⟩ | ⟨_, node, st1, r1, _, hi1, hf1, _, hr1, hr2⟩
      · exact ⟨settled_congr _ _ hi hfm hs, Nat.le_of_eq (congrArg List.length
          (pending_congr _ _ hi hfm))⟩
      · obtain ⟨g1, g2⟩ := getline_settled st st1 hs hi1 hf1
        obtain ⟨a1, a2⟩ := ih st1 node r1 g1 hr1
        obtain ⟨b1, b2⟩ := ih r1.1 _ r a1 hr2
        exact ⟨b1, by have := g2 hf; omega⟩

/-- From a settled state `Traverse` comes to an end: some amount of fuel is
enough. -/
theorem Traverse_terminates (n : Nat) :
    ∀ (st : StreamParser) (parent : Node), st.settled → st.pending.length ≤ n →
      ∃ fuel, Traverse fuel st parent ≠ .outOfFuel := by
  induction n with
  | zero =>
    intro st parent hs hn
    refine ⟨1, ?_⟩
    obtain ⟨down, up, _, _, heq⟩ := Traverse_succ_named 0 st parent
    have hp : st.pending = [] := List.length_eq_zero.mp (Nat.le_zero.mp hn)
    have hf : st.format = [] := by
      unfold StreamParser.pending at hp
      split at hp
      · exact hp
      · exact absurd hp (by simp)
    rw [heq, if_pos hf]
    exact fun h => Res.noConfusion h
  | succ n ih =>
    intro st parent hs hn
    obtain ⟨down, up, _, hup, heq0⟩ := Traverse_succ_named 0 st parent
    by_cases hf : st.format = []
    · refine ⟨1, ?_⟩
      rw [heq0, if_pos hf]
      exact fun h => Res.noConfusion h
    · rcases string_at_cases st.format st.level with ⟨c, hc⟩ | hu
      · by_cases hsp : c = ' '
        · rcases MakeNode_ok_or_throw st.format with ⟨node, hm⟩ | ⟨e, hm⟩
          · generalize hst1 : (StreamParser.mk (getline st.istream_ st.format).1
              (getline st.istream_ st.format).2 up) = st1
            have hi1 : st1.istream_ = (getline st.istream_ st.format).1 := by rw [← hst1]
            have hf1 : st1.format = (getline st.istream_ st.format).2 := by rw [← hst1]
            obtain ⟨g1, g2⟩ := getline_settled st st1 hs hi1 hf1
            have hlt := g2 hf
            obtain ⟨f1, hf1n⟩ := ih st1 node g1 (by omega)
            cases hres : Traverse f1 st1 node with
            | ok r1 =>
              obtain ⟨a1, a2⟩ := Traverse_settled f1 st1 node r1 g1 hres
              obtain ⟨f2, hf2n⟩ := ih r1.1 (parent.append r1.2) a1 (by omega)
              refine ⟨f1 + f2 + 1, ?_⟩
              obtain ⟨down1, up1, _, hup1, heq⟩ := Traverse_succ_named (f1 + f2) st parent
              rw [heq, if_neg hf, hc, Res.bind_ok, if_neg (not_not.mpr hsp), hm, Res.bind_ok]
              have hupeq : up1 = up := by rw [hup1, hup]
              rw [hupeq, hst1, Traverse_fuel_add f1 st1 node f2 hf1n, hres, Res.bind_ok,
                Nat.add_comm f1 f2, Traverse_fuel_add f2 _ _ f1 hf2n]
              exact hf2n
            | throw e =>
              refine ⟨f1 + 1, ?_⟩
              obtain ⟨down1, up1, _, hup1, heq⟩ := Traverse_succ_named f1 st parent
              rw [heq, if_neg hf, hc, Res.bind_ok, if_neg (not_not.mpr hsp), hm, Res.bind_ok]
              have hupeq : up1 = up := by rw [hup1, hup]
              rw [hupeq, hst1, hres]
              exact fun h => Res.noConfusion h
            | undefined =>
              refine ⟨f1 + 1, ?_⟩
              obtain ⟨down1, up1, _, hup1, heq⟩ := Traverse_succ_named f1 st parent
              rw [heq, if_neg hf, hc, Res.bind_ok, if_neg (not_not.mpr hsp), hm, Res.bind_ok]
              have hupeq : up1 = up := by rw [hup1, hup]
              rw [hupeq, hst1, hres]
              exact fun h => Res.noConfusion h
            | outOfFuel => exact absurd hres hf1n
          · refine ⟨1, ?_⟩
            rw [heq0, if_neg hf, hc, Res.bind_ok, if_neg (not_not.mpr hsp), hm]
            exact fun h => Res.noConfusion h
        · refine ⟨1, ?_⟩
          rw [heq0, if_neg hf, hc, Res.bind_ok, if_pos hsp]
          exact fun h => Res.noConfusion h
      · refine ⟨1, ?_⟩
        rw [heq0, if_neg hf, hu]
        exact fun h => Res.noConfusion h

/-- On an input whose lines all end with a newline `parse` comes to an end:
from some amount of fuel on it gives one and the same result, a tree, an
exception or a read outside a line. -/
theorem parse_terminates_on_terminated_lines (text : Str) (h : newline_terminated text) :
    ∃ fuel, parse_text fuel text ≠ .outOfFuel ∧
      ∀ k, parse_text (fuel + k) text = parse_text fuel text := by
  have hs0 : (StreamParser.new (istringstream text)).settled := by
    unfold StreamParser.settled
    exact h
  generalize hsa : (StreamParser.mk
    (getline (istringstream text) []).1 (getline (istringstream text) []).2 0) = sa
  have ha := (getline_settled (StreamParser.new (istringstream text)) sa hs0
    (by rw [← hsa]; rfl) (by rw [← hsa]; rfl)).1
  generalize hsb : (StreamParser.mk (getline sa.istream_ sa.format).1
    (getline sa.istream_ sa.format).2 1) = sb
  have hb := (getline_settled sa sb ha (by rw [← hsb]) (by rw [← hsb])).1
  have hparse : ∀ fuel, parse_text fuel text =
      (MakeNode sa.format).bind fun root => (Traverse fuel sb root).bind fun r => .ok r.2 := by
    intro fuel
    rw [← hsb, ← hsa]
    rfl
  rcases MakeNode_ok_or_throw sa.format with ⟨root, hm⟩ | ⟨e, hm⟩
  · obtain ⟨fuel, hfuel⟩ := Traverse_terminates _ sb root hb (Nat.le_refl _)
    have hne : parse_text fuel text ≠ .outOfFuel := by
      rw [hparse, hm, Res.bind_ok]
      cases hres : Traverse fuel sb root with
      | ok r => exact fun h0 => Res.noConfusion h0
      | throw e => exact fun h0 => Res.noConfusion h0
      | undefined => exact fun h0 => Res.noConfusion h0
      | outOfFuel => exact absurd hres hfuel
    exact ⟨fuel, hne, fun k => parse_text_fuel_add fuel k text hne⟩
  · have hne : parse_text 0 text ≠ .outOfFuel := by
      rw [hparse, hm]
      exact fun h0 => Res.noConfusion h0
    exact ⟨0, hne, fun k => parse_text_fuel_add 0 k text hne⟩

/-- The plan of the parser test ends with a newline. -/
theorem parse_terminates_on_six_line_plan :
    newline_terminated six_line_plan ∧
    ∃ fuel, parse_text fuel six_line_plan ≠ .outOfFuel ∧
      ∀ k, parse_text (fuel + k) six_line_plan = parse_text fuel six_line_plan :=
  ⟨Or.inr (by decide), parse_terminates_on_terminated_lines six_line_plan (Or.inr (by decide))⟩

/-! ## Trees the printer has no text for -/

theorem Res.sequence_all_ok {α : Type} :
    ∀ (xs : List (Res α)) (l : List α), Res.sequence xs = .ok l → ∀ r ∈ xs, ∃ a, r = .ok a
  | [], _, _, r, hr => absurd hr (List.not_mem_nil r)
  | x :: xs, l, h, r, hr => by
    rw [Res.sequence_cons] at h
    obtain ⟨a, ha, h1⟩ := Res.bind_eq_ok h
    obtain ⟨as, has, _⟩ := Res.bind_eq_ok h1
    rcases List.mem_cons.mp hr with rfl | hr
    · exact ⟨a, ha⟩
    · exact Res.sequence_all_ok xs as has r hr

theorem Res.sequence_ok_or_undefined {α : Type} :
    ∀ (xs : List (Res α)), (∀ r ∈ xs, (∃ a, r = .ok a) ∨ r = .undefined) →
      (∃ l, Res.sequence xs = .ok l) ∨ Res.sequence xs = .undefined
  | [], _ => Or.inl ⟨[], rfl⟩
  | x :: xs, h => by
    rw [Res.sequence_cons]
    rcases h x (List.mem_cons_self _ _) with ⟨a, rfl⟩ | rfl
    · rw [Res.bind_ok]
      rcases Res.sequence_ok_or_undefined xs (fun r hr => h r (List.mem_cons_of_mem _ hr)) with
        ⟨l, hl⟩ | hl
      · rw [hl]
        exact Or.inl ⟨_, rfl⟩
      · rw [hl]
        exact Or.inr rfl
    · exact Or.inr rfl

theorem Node.toStr_ok_or_undefined (n : Node) :
    (∃ body, n.toStr = .ok body ∧ n.payload.nonempty = true) ∨
      (n.toStr = .undefined ∧ n.payload.nonempty = false) := by
  cases n with
  | mk p cs =>
    by_cases h : p.nonempty = true
    · exact Or.inl ⟨_, toStr_eq_body p cs h, h⟩
    · right
      have h : p.nonempty = false := by simpa using h
      refine ⟨?_, h⟩
      cases p with
      | Scan path =>
        cases path with
        | nil => rfl
        | cons x xs => exact Bool.noConfusion h
      | Union all => exact Bool.noConfusion h
      | Aggregate g =>
        cases g with
        | nil => rfl
        | cons x xs => exact Bool.noConfusion h
      | Project pairs =>
        cases pairs with
        | nil => rfl
        | cons x xs => exact Bool.noConfusion h

/-- The printer writes a text exactly for the trees none of whose payload
sequences is empty; for the others its execution has no defined result. -/
theorem print_ok_or_undefined (T : Node) :
    ((∀ nd ∈ T.preorder 0, nd.1.payload.nonempty = true) ∧ ∃ text, print T = .ok text) ∨
    ((∃ nd ∈ T.preorder 0, nd.1.payload.nonempty = false) ∧ print T = .undefined) := by
  rw [print_eq_lines, Node.lines]
  have hall : ∀ r ∈ (T.preorder 0).map (fun nd => nd.1.line nd.2),
      (∃ a, r = .ok a) ∨ r = .undefined := by
    intro r hr
    obtain ⟨nd, _, rfl⟩ := List.mem_map.mp hr
    unfold Node.line
    rcases Node.toStr_ok_or_undefined nd.1 with ⟨body, hb, _⟩ | ⟨hb, _⟩
    · rw [hb]
      exact Or.inl ⟨_, rfl⟩
    · rw [hb]
      exact Or.inr rfl
  rcases Res.sequence_ok_or_undefined _ hall with ⟨l, hl⟩ | hl
  · left
    refine ⟨?_, ?_⟩
    · intro nd hnd
      obtain ⟨a, ha⟩ := Res.sequence_all_ok _ l hl (nd.1.line nd.2)
        (List.mem_map.mpr ⟨nd, hnd, rfl⟩)
      unfold Node.line at ha
      rcases Node.toStr_ok_or_undefined nd.1 with ⟨_, _, hne⟩ | ⟨hb, _⟩
      · exact hne
      · rw [hb] at ha
        exact Res.noConfusion ha
    · rw [hl]
      exact ⟨_, rfl⟩
  · right
    refine ⟨?_, by rw [hl]; rfl⟩
    by_contra hno
    have hne : ∀ nd ∈ T.preorder 0, nd.1.payload.nonempty = true := by
      intro nd hnd
      by_contra h0
      exact hno ⟨nd, hnd, by simpa using h0⟩
    have hok : ∀ r ∈ (T.preorder 0).map (fun nd => nd.1.line nd.2), ∃ a, r = .ok a := by
      intro r hr
      obtain ⟨nd, hnd, rfl⟩ := List.mem_map.mp hr
      unfold Node.line
      rcases Node.toStr_ok_or_undefined nd.1 with ⟨body, hb, _⟩ | ⟨_, hb⟩
      · rw [hb]
        exact ⟨_, rfl⟩
      · rw [hne nd hnd] at hb
        exact Bool.noConfusion hb
    obtain ⟨l, hl2⟩ := Res.sequence_ok _ hok
    rw [hl2] at hl
    exact Res.noConfusion hl

/-- C3, on the code: a Scan node with an empty path, and a Union node over an
Aggregate node with no group index, are trees whose payload strings contain no
newline, of one and of two nodes, and the printer has no text for them: its
execution is not defined, so there is no line per node. The same holds for
every tree in which some payload sequence is empty. -/
theorem print_layout_fails_on_empty_payload :
    (Node.mk (.Scan []) []).newline_free = true ∧ (Node.mk (.Scan []) []).size = 1 ∧
    print (.mk (.Scan []) []) = .undefined ∧
    (Node.mk (.Union true) [.mk (.Aggregate []) []]).newline_free = true ∧
    (Node.mk (.Union true) [.mk (.Aggregate []) []]).size = 2 ∧
    print (.mk (.Union true) [.mk (.Aggregate []) []]) = .undefined ∧
    ∀ T : Node, (∃ nd ∈ T.preorder 0, nd.1.payload.nonempty = false) →
      print T = .undefined ∧ ∀ text, print T ≠ .ok text := by
  refine ⟨rfl, rfl, rfl, rfl, rfl, rfl, ?_⟩
  intro T ⟨nd, hnd, hempty⟩
  rcases print_ok_or_undefined T with ⟨hall, _⟩ | ⟨_, hu⟩
  · rw [hall nd hnd] at hempty
    exact Bool.noConfusion hempty
  · refine ⟨hu, fun text h => ?_⟩
    rw [hu] at h
    exact Res.noConfusion h

/-! ## Lines reported as malformed -/

end riel
